import Mathlib

/-! # subsync: a verification development

A shallow embedding of `subsync.go` (the SubRip re-timing tool) together with the
parts of the Go standard library it calls (`fmt.Sscanf`, `fmt.Sprintf`,
`strconv.ParseUint`, `strings.Split`, `strings.Replace`, `bufio.Reader.ReadLine`,
IEEE-754 binary64 arithmetic), followed by theorems about the embedded program.

Conventions.
* A Go `string` / `[]byte` is a `List Nat`, one entry per byte (values `0..255`).
* Go's `uint` is the 64-bit unsigned integer: a `Nat` reduced modulo `2 ^ 64`
  after every arithmetic operation that can overflow.
* Failing calls return `none` / `Except.error`.
-/

namespace Subsync

/-! ## Bytes and ASCII literals -/

/-- The bytes of an ASCII literal (every character of the literals used below is
ASCII, so its code point is its single UTF-8 byte). -/
def ascii (s : String) : List Nat := s.toList.map Char.toNat

/-- Width of Go's `uint` on the 64-bit targets. -/
def intBits : Nat := 64

/-- Reduction of a natural number to the range of `uint`. -/
def wrap (n : Nat) : Nat := n % 2 ^ intBits

/-! ## UTF-8 decoding (`unicode/utf8.DecodeRune`) -/

/-- The replacement rune returned for an invalid encoding. -/
def RuneError : Nat := 0xFFFD

/-- A UTF-8 continuation byte. -/
def isCont (b : Nat) : Bool := 0x80 ≤ b && b ≤ 0xBF

/-- Decode the first rune of a byte string: `none` at end of input, otherwise the rune
and the bytes after it. An invalid or truncated encoding yields `RuneError` and
consumes one byte, as `utf8.DecodeRune` does. -/
def decodeRune : List Nat → Option (Nat × List Nat)
  | [] => none
  | b0 :: rest =>
    if b0 < 0x80 then some (b0, rest)
    else if 0xC2 ≤ b0 && b0 ≤ 0xDF then
      match rest with
      | b1 :: r1 =>
        if isCont b1 then some ((b0 % 32) * 64 + b1 % 64, r1) else some (RuneError, rest)
      | _ => some (RuneError, rest)
    else if 0xE0 ≤ b0 && b0 ≤ 0xEF then
      match rest with
      | b1 :: b2 :: r2 =>
        let lo := if b0 = 0xE0 then 0xA0 else 0x80
        let hi := if b0 = 0xED then 0x9F else 0xBF
        if lo ≤ b1 && b1 ≤ hi && isCont b2 then
          some ((b0 % 16) * 4096 + (b1 % 64) * 64 + b2 % 64, r2)
        else some (RuneError, rest)
      | _ => some (RuneError, rest)
    else if 0xF0 ≤ b0 && b0 ≤ 0xF4 then
      match rest with
      | b1 :: b2 :: b3 :: r3 =>
        let lo := if b0 = 0xF0 then 0x90 else 0x80
        let hi := if b0 = 0xF4 then 0x8F else 0xBF
        if lo ≤ b1 && b1 ≤ hi && isCont b2 && isCont b3 then
          some ((b0 % 8) * 262144 + (b1 % 64) * 4096 + (b2 % 64) * 64 + b3 % 64, r3)
        else some (RuneError, rest)
      | _ => some (RuneError, rest)
    else some (RuneError, rest)

/-! ## `fmt` scanning: `Sscanf(tm, "%d:%d:%d,%d", &h, &m, &s, &ms)` with `uint` operands -/

/-- The white-space runes of package `fmt` (its `space` table). -/
def isSpace (r : Nat) : Bool :=
  (0x09 ≤ r && r ≤ 0x0d) || r == 0x20 || r == 0x85 || r == 0xa0 || r == 0x1680 ||
  (0x2000 ≤ r && r ≤ 0x200a) || r == 0x2028 || r == 0x2029 || r == 0x202f ||
  r == 0x205f || r == 0x3000

/-- The loop of `(*ss).SkipSpace` with `nlIsSpace = false` (the `Sscanf` setting):
white space is consumed, a newline is an error (`none`), the first other rune is left
unread. The first argument bounds the number of iterations. -/
def skipSpaceLoop : Nat → List Nat → Option (List Nat)
  | 0, s => some s
  | fuel + 1, s =>
    match decodeRune s with
    | none => some s
    | some (r, rest) =>
      if r = 13 ∧ (decodeRune rest).map Prod.fst = some 10 then skipSpaceLoop fuel rest
      else if r = 10 then none
      else if !isSpace r then some s
      else skipSpaceLoop fuel rest

/-- The method `(*ss).SkipSpace`: every iteration consumes at least one byte, so the
length of the input bounds the loop. -/
def SkipSpace (s : List Nat) : Option (List Nat) := skipSpaceLoop s.length s

/-- A decimal digit byte. -/
def isDigit (b : Nat) : Bool := 48 ≤ b && b ≤ 57

/-- The bytes accepted by `scanNumber` for base 10: the digits and the underscore
(`decimalDigits = "0123456789_"`). -/
def isNumberByte (b : Nat) : Bool := isDigit b || b == 95

/-- Value of a string of decimal digits, most significant first. -/
def decVal (ds : List Nat) : Nat := ds.foldl (fun acc d => acc * 10 + (d - 48)) 0

/-- The result of `strconv.ParseUint(tok, 10, 64)`: the token must be non-empty, consist of
decimal digits only (no sign, and no underscore since the base is given), and denote a
value below `2 ^ 64`. -/
def ParseUint (tok : List Nat) : Option Nat :=
  if tok ≠ [] ∧ tok.all isDigit ∧ decVal tok < 2 ^ 64 then some (decVal tok) else none

/-- The method `(*ss).scanUint` for verb `d`: skip white space, fail at end of input, collect
the longest run of number bytes (all of them ASCII, so bytes and runes coincide), fail when
the run is empty, and convert it with `ParseUint`; the value must fit `uint`. -/
def scanUint (s : List Nat) : Option (Nat × List Nat) :=
  match SkipSpace s with
  | none => none
  | some s1 =>
    let tok := s1.takeWhile isNumberByte
    let rest := s1.dropWhile isNumberByte
    match ParseUint tok with
    | none => none
    | some v => if v < 2 ^ intBits then some (v, rest) else none

/-- One literal byte of the format (`advance`): the next input byte must be that byte. -/
def expectByte (c : Nat) : List Nat → Option (List Nat)
  | [] => none
  | b :: rest => if b = c then some rest else none

/-- The call `fmt.Sscanf(tm, "%d:%d:%d,%d", &h, &m, &s, &ms)`, returning the four operands
when all four were stored (`num = 4`, `err = nil`) and `none` otherwise. Input left over after
the fourth operand is not examined. -/
def Sscanf4 (tm : List Nat) : Option (Nat × Nat × Nat × Nat) :=
  match scanUint tm with
  | none => none
  | some (h, s1) =>
    match expectByte 58 s1 with
    | none => none
    | some s2 =>
      match scanUint s2 with
      | none => none
      | some (m, s3) =>
        match expectByte 58 s3 with
        | none => none
        | some s4 =>
          match scanUint s4 with
          | none => none
          | some (s, s5) =>
            match expectByte 44 s5 with
            | none => none
            | some s6 =>
              match scanUint s6 with
              | none => none
              | some (ms, _) => some (h, m, s, ms)

/-! ## `fmt` printing of unsigned integers -/

/-- The digit loop of `fmt`'s `fmtInteger` for base 10: the decimal digits of `n`, least
significant first. The first argument bounds the number of iterations. -/
def digitsRev : Nat → Nat → List Nat
  | 0, n => [48 + n % 10]
  | fuel + 1, n => if n < 10 then [48 + n] else (48 + n % 10) :: digitsRev fuel (n / 10)

/-- The decimal numeral of `n` (verb `%d`). -/
def fmtUint (n : Nat) : List Nat := (digitsRev n n).reverse

/-- The verb `%0wd` applied to an unsigned integer: the numeral, left-padded with `0` to
at least `w` bytes. -/
def fmtUintPad (w n : Nat) : List Nat :=
  List.replicate (w - (fmtUint n).length) 48 ++ fmtUint n

/-! ## The time codec of `subsync.go` -/

/-- The call `strings.Replace(tm, ".", ",", 1)`: the first `.` becomes `,`. -/
def replaceFirstDot : List Nat → List Nat
  | [] => []
  | b :: rest => if b = 46 then 44 :: rest else b :: replaceFirstDot rest

/-- Errors returned by the functions of `subsync.go`. -/
inductive Err where
  /-- The error of `time_to_msecs`; it carries the text quoted in the message. -/
  | cannotConvert (tm : List Nat)
  /-- The error `"Parsing error: Wrong file format"` of `read_srt`. -/
  | wrongFileFormat
  /-- The `*strconv.NumError` returned by `strconv.ParseUint` for the given token. -/
  | numError (tok : List Nat)
  /-- Not an error of the program: the iteration bound of a loop of this model was too small. -/
  | outOfFuel
deriving DecidableEq, Repr

deriving instance DecidableEq for Except

/-- The function `time_to_msecs` (converts `hh:mm:ss,mss` to milliseconds). -/
def time_to_msecs (tm : List Nat) : Except Err Nat :=
  let tm := replaceFirstDot tm
  match Sscanf4 tm with
  | none => .error (.cannotConvert tm)
  | some (h, m, s, ms) =>
    let msecs := wrap (wrap (wrap (h * 60) * 60) * 1000)
    let msecs := wrap (msecs + wrap (wrap (m * 60) * 1000))
    let msecs := wrap (msecs + wrap (s * 1000))
    let msecs := wrap (msecs + ms)
    .ok msecs

/-- The function `msecs_to_time` (converts milliseconds to `hh:mm:ss,mss`). -/
def msecs_to_time (msecs : Nat) : List Nat :=
  let h := msecs / (60 * 60 * 1000)
  let msecs := msecs % (60 * 60 * 1000)
  let m := msecs / (60 * 1000)
  let msecs := msecs % (60 * 1000)
  let s := msecs / 1000
  let msecs := msecs % 1000
  let ms := msecs
  fmtUintPad 2 h ++ [58] ++ fmtUintPad 2 m ++ [58] ++ fmtUintPad 2 s ++ [44] ++ fmtUintPad 3 ms


/-! ## Reading lines: `bufio.Reader.ReadLine` -/

/-- The buffer size of `bufio.NewReader` (`defaultBufSize`). -/
def defaultBufSize : Nat := 4096

/-- What one call of `ReadLine` returns, together with the input that is still unread. -/
structure LineRead where
  /-- The returned bytes, without the line end. -/
  line : List Nat
  /-- The flag `isPrefix`: the buffer filled up before a line end was seen. -/
  more : Bool
  /-- Whether the returned error is `io.EOF` (no other read error is modelled). -/
  eof : Bool
  /-- The input not yet consumed. -/
  rest : List Nat
deriving DecidableEq, Repr

/-- Removal of one `\r` at the end of a line (the `drop = 2` case of `ReadLine`). -/
def dropCR (pre : List Nat) : List Nat :=
  if pre.getLast? = some 13 then pre.dropLast else pre

/-- One call of `(*bufio.Reader).ReadLine` on a reader whose unread input is `inp`.
`ReadSlice` searches the next `defaultBufSize` bytes for a newline.
* newline found: the line up to it is returned, without the `\n` and without one `\r`
  directly before it;
* no newline in a full buffer: the buffer is returned with `isPrefix` set; a final `\r`
  is put back and dropped from the returned bytes;
* input exhausted first: the remaining bytes are returned with a `nil` error if there are
  any, and `io.EOF` with no bytes otherwise. -/
def ReadLine (inp : List Nat) : LineRead :=
  let win := inp.take defaultBufSize
  let pre := win.takeWhile (fun b => b != 10)
  if pre.length < win.length then
    { line := dropCR pre,
      more := false, eof := false, rest := inp.drop (pre.length + 1) }
  else if defaultBufSize ≤ inp.length then
    if win.getLast? = some 13 then
      { line := win.dropLast, more := true, eof := false, rest := inp.drop (defaultBufSize - 1) }
    else
      { line := win, more := true, eof := false, rest := inp.drop defaultBufSize }
  else if inp = [] then
    { line := [], more := false, eof := true, rest := [] }
  else
    { line := inp, more := false, eof := false, rest := [] }

/-- The inner loop of `read_srt`, `for isprefix && err == nil`, which appends the pieces
returned by `ReadLine` to `ln`. Result: the assembled line, whether `err == io.EOF`, and the
unread input. The first argument bounds the number of iterations. -/
def readLn : Nat → List Nat → List Nat → List Nat × Bool × List Nat
  | 0, ln, inp => (ln, false, inp)
  | fuel + 1, ln, inp =>
    let r := ReadLine inp
    if r.more && !r.eof then readLn fuel (ln ++ r.line) r.rest
    else (ln ++ r.line, r.eof, r.rest)

/-! ## `strings.Split` and the signed `%d` -/

/-- The call `strings.Split(s, sep)` for a one-byte separator: the pieces between
consecutive separators, empty pieces included; never an empty list. -/
def Split (sep : Nat) : List Nat → List (List Nat)
  | [] => [[]]
  | b :: rest =>
    if b = sep then [] :: Split sep rest
    else
      match Split sep rest with
      | [] => [[b]]
      | t :: ts => (b :: t) :: ts

/-- Reduction of an integer to the range of Go's `int` (64-bit two's complement). -/
def wrapInt (i : Int) : Int := (i + 2 ^ 63) % 2 ^ 64 - 2 ^ 63

/-- The verb `%d` applied to an `int`. -/
def fmtInt (i : Int) : List Nat :=
  if i < 0 then 45 :: fmtUint i.natAbs else fmtUint i.natAbs

/-! ## The subtitle file reader and writer of `subsync.go` -/

/-- The type `subtitle`. -/
structure subtitle where
  /-- The text of the cue. -/
  text : List Nat
  /-- Start time in milliseconds (`uint`). -/
  start : Nat
  /-- End time in milliseconds (`uint`; `end` in the source). -/
  end_ : Nat
deriving DecidableEq, Repr

/-- The variables of `read_srt` that live across iterations of its outer loop. -/
structure ReadState where
  /-- The variable `state`: 0 expects an index line, 1 a timing line, 2 text. -/
  state : Nat
  /-- The subtitle under construction, `sub`. -/
  sub : subtitle
  /-- The list `subs`, in order. -/
  subs : List subtitle
deriving DecidableEq, Repr

/-- The zero value `new(subtitle)`. -/
def newSubtitle : subtitle := { text := [], start := 0, end_ := 0 }

/-- The body of the outer loop of `read_srt` once the line `ln` has been assembled; `eof`
says whether `err == io.EOF`. The result is an error (the function returns it), or the new
values of the variables with a flag telling whether the loop is left by `break`. In the
states 0 and 1 the variable `err` is assigned the result of `strconv.ParseUint` and of
`time_to_msecs`, so that after an accepted line it is `nil` and the final test
`err == io.EOF` fails, whatever `ReadLine` had returned. -/
def read_srt_line (st : ReadState) (ln : List Nat) (eof : Bool) :
    Except Err (ReadState × Bool) :=
  if st.state = 0 then
    if eof ∧ ln.length = 0 then .ok (st, true)
    else
      let id := Split 32 ln
      if id.length ≠ 1 then .error .wrongFileFormat
      else
        match ParseUint (id.getD 0 []) with
        | none => .error (.numError (id.getD 0 []))
        | some _ => .ok ({ st with state := 1 }, false)
  else if st.state = 1 then
    let tm := Split 32 ln
    if tm.length ≠ 3 ∨ tm.getD 1 [] ≠ ascii "-->" then .error .wrongFileFormat
    else
      match time_to_msecs (tm.getD 0 []) with
      | .error e => .error e
      | .ok start =>
        match time_to_msecs (tm.getD 2 []) with
        | .error e => .error e
        | .ok end_ =>
          .ok ({ st with state := 2, sub := { st.sub with start := start, end_ := end_ } }, false)
  else if st.state = 2 then
    if ln.length = 0 then
      .ok ({ state := 0, sub := newSubtitle, subs := st.subs ++ [st.sub] }, eof)
    else
      .ok ({ st with sub := { st.sub with text := st.sub.text ++ ln ++ [13, 10] } }, eof)
  else .ok (st, eof)

/-- The outer loop of `read_srt`. The first argument bounds the number of iterations; the
loop always ends within `inp.length + 1` of them, and `Err.outOfFuel` marks a bound that was
too small. -/
def read_srt_loop : Nat → ReadState → List Nat → Except Err (List subtitle)
  | 0, _, _ => .error .outOfFuel
  | fuel + 1, st, inp =>
    match readLn (inp.length + 1) [] inp with
    | (ln, eof, rest) =>
      match read_srt_line st ln eof with
      | .error e => .error e
      | .ok (st1, stop) => if stop then .ok st1.subs else read_srt_loop fuel st1 rest

/-- The function `read_srt` (read SubRip (srt) file), applied to the content of the file. -/
def read_srt (content : List Nat) : Except Err (List subtitle) :=
  read_srt_loop (content.length + 1) { state := 0, sub := newSubtitle, subs := [] } content

/-- The loop of `write_srt`; `id` is the counter of type `int`. -/
def write_srt_loop : Int → List subtitle → List Nat
  | _, [] => []
  | id, sub :: rest =>
    let id := wrapInt (id + 1)
    fmtInt id ++ [13, 10] ++
      (msecs_to_time sub.start ++ ascii " --> " ++ msecs_to_time sub.end_ ++ [13, 10]) ++
      (sub.text ++ [13, 10]) ++ write_srt_loop id rest

/-- The function `write_srt` (write SubRip (srt) file): the bytes written to the file. -/
def write_srt (subs : List subtitle) : List Nat := write_srt_loop 0 subs

/-- A numeral: a non-empty string of decimal digits. -/
def IsNumeral (ds : List Nat) : Prop := ds ≠ [] ∧ ∀ b ∈ ds, isDigit b = true

instance (ds : List Nat) : Decidable (IsNumeral ds) := by
  unfold IsNumeral; infer_instance

/-- Concatenation of lines, each followed by CRLF. -/
def crlfLines : List (List Nat) → List Nat
  | [] => []
  | l :: ls => l ++ [13, 10] ++ crlfLines ls

/-- The shape of the text of a cue built by `read_srt`: a sequence of non-empty lines without
newline, each followed by CRLF. -/
def IsCueText (t : List Nat) : Prop :=
  ∃ lines : List (List Nat), (∀ l ∈ lines, l ≠ [] ∧ 10 ∉ l) ∧ t = crlfLines lines

/-- A subtitle whose times are in the range of `uint` and whose text has the shape that
`read_srt` builds. -/
def WellFormed (sub : subtitle) : Prop :=
  sub.start < 2 ^ 64 ∧ sub.end_ < 2 ^ 64 ∧ IsCueText sub.text

/-- The bytes of cue number `i` as the serializer is specified to write them: the numeral
of `i` and CRLF; the two times around `" --> "` and CRLF; the stored text; a blank line. -/
def cueBytes (i : Nat) (sub : subtitle) : List Nat :=
  fmtUint i ++ [13, 10] ++
    (msecs_to_time sub.start ++ ascii " --> " ++ msecs_to_time sub.end_ ++ [13, 10]) ++
    sub.text ++ [13, 10]

/-- The specified output for cues numbered `i`, `i + 1`, ... in sequence order. -/
def srtBytesFrom : Nat → List subtitle → List Nat
  | _, [] => []
  | i, sub :: rest => cueBytes i sub ++ srtBytesFrom (i + 1) rest

/-- The specified output of the serializer: the cues numbered from 1. -/
def srtBytes (subs : List subtitle) : List Nat := srtBytesFrom 1 subs

/-- A byte string made of lines without a line feed, each terminated by CRLF. -/
def IsCRLFLines (out : List Nat) : Prop :=
  ∃ lines : List (List Nat), (∀ l ∈ lines, 10 ∉ l) ∧ out = crlfLines lines

/-- The invariant of the outer loop of `read_srt`: every text collected so far consists of
CRLF-terminated lines. -/
def TextsClean (st : ReadState) : Prop :=
  IsCRLFLines st.sub.text ∧ ∀ s ∈ st.subs, IsCRLFLines s.text

/-- ASCII white space: space, tab, line feed, vertical tab, form feed, carriage return. -/
def isWhite (b : Nat) : Bool := b == 32 || (9 ≤ b && b ≤ 13)

/-- The white-space-delimited tokens of a line, in the ordinary sense of the words (maximal
runs of bytes that are not white space); `cur` is the token being collected, reversed. -/
def fieldsAux : List Nat → List Nat → List (List Nat)
  | cur, [] => if cur = [] then [] else [cur.reverse]
  | cur, b :: rest =>
    if isWhite b then
      if cur = [] then fieldsAux [] rest else cur.reverse :: fieldsAux [] rest
    else fieldsAux (b :: cur) rest

/-- The white-space-delimited tokens of a line. -/
def Fields (ln : List Nat) : List (List Nat) := fieldsAux [] ln

/-- The UTF-8 encoding of a rune (`unicode/utf8.EncodeRune`, for runes that are valid). -/
def encodeRune (r : Nat) : List Nat :=
  if r < 0x80 then [r]
  else if r < 0x800 then [0xC0 + r / 64, 0x80 + r % 64]
  else if r < 0x10000 then [0xE0 + r / 4096, 0x80 + r / 64 % 64, 0x80 + r % 64]
  else [0xF0 + r / 262144, 0x80 + r / 4096 % 64, 0x80 + r / 64 % 64, 0x80 + r % 64]

/-- The concatenated encodings of a list of runes. -/
def encodeRunes : List Nat → List Nat
  | [] => []
  | r :: rs => encodeRune r ++ encodeRunes rs

/-- White space that a scan of a number skips: the UTF-8 encoding of a (possibly empty)
sequence of white-space runes none of which is the line feed. -/
def IsBlank (w : List Nat) : Prop :=
  ∃ rs : List Nat, (∀ r ∈ rs, isSpace r = true ∧ r ≠ 10) ∧ w = encodeRunes rs

/-- The text, after `strings.Replace`, that `time_to_msecs` decodes: four numerals below
`2 ^ 64`, each optionally preceded by white space, with `:` right after the first and the
second, `,` right after the third, and anything after the fourth except a byte that would
continue a number (a digit or an underscore). -/
def IsScannedTime (t : List Nat) : Prop :=
  ∃ w1 d1 w2 d2 w3 d3 w4 d4 tail,
    t = w1 ++ d1 ++ 58 :: (w2 ++ d2 ++ 58 :: (w3 ++ d3 ++ 44 :: (w4 ++ d4 ++ tail))) ∧
    (IsBlank w1 ∧ IsBlank w2 ∧ IsBlank w3 ∧ IsBlank w4) ∧
    (IsNumeral d1 ∧ IsNumeral d2 ∧ IsNumeral d3 ∧ IsNumeral d4) ∧
    (decVal d1 < 2 ^ 64 ∧ decVal d2 < 2 ^ 64 ∧ decVal d3 < 2 ^ 64 ∧ decVal d4 < 2 ^ 64) ∧
    ∀ b ∈ tail.head?, isNumberByte b = false

/-- The shape that the specification names for a time stamp: exactly four unsigned decimal
integer fields, `hours : minutes : seconds , milliseconds`, and nothing else. -/
def IsFourFields (t : List Nat) : Prop :=
  ∃ h m s f, IsNumeral h ∧ IsNumeral m ∧ IsNumeral s ∧ IsNumeral f ∧
    t = h ++ 58 :: (m ++ 58 :: (s ++ 44 :: f))

/-! ## IEEE-754 binary64 arithmetic (`float64`) -/

/-- A `float64`. A finite value is held as the rational number it denotes; the sign of a
zero is not tracked (no operation of the program tells the two zeros apart: its only
division has a divisor converted from an unsigned integer). -/
inductive F64 where
  /-- A finite value. -/
  | fin (q : ℚ)
  /-- An infinity, negative when `neg` is set. -/
  | inf (neg : Bool)
  /-- Not a number. -/
  | nan

deriving DecidableEq

/-- The loop that counts the binary digits after the leading one. -/
def log2Loop : Nat → Nat → Nat
  | 0, _ => 0
  | fuel + 1, n => if n < 2 then 0 else log2Loop fuel (n / 2) + 1

/-- The integer part of the binary logarithm of `n ≥ 1`. -/
def floorLog2 (n : Nat) : Nat := log2Loop n n

/-- The integer part of the binary logarithm of `n / d`, for positive `n` and `d`. -/
def ratLog2 (n d : Nat) : Int :=
  let e : Int := (floorLog2 n : Int) - (floorLog2 d : Int)
  if (if 0 ≤ e then d * 2 ^ e.toNat ≤ n else d ≤ n * 2 ^ (-e).toNat) then e else e - 1

/-- Rounding of a rational number to the nearest integer, ties to the even one. -/
def roundHalfEven (x : ℚ) : Int :=
  if x - ⌊x⌋ < 1 / 2 then ⌊x⌋
  else if 1 / 2 < x - ⌊x⌋ then ⌊x⌋ + 1
  else if ⌊x⌋ % 2 = 0 then ⌊x⌋ else ⌊x⌋ + 1

/-- The unit in the last place for a real number `x`: `2 ^ (e - 52)` where `2 ^ e` is the
power of two at or below `|x|`, and `e` is at least `-1022` (the subnormal range). -/
def ulp (x : ℚ) : ℚ := 2 ^ (max (ratLog2 x.num.natAbs x.den) (-1022) - 52)

/-- The `float64` nearest to the real number `x` (round to nearest, ties to even): `x` is
rounded to a multiple of its unit in the last place, and a result of magnitude `2 ^ 1024`
or more overflows to an infinity. -/
def F64.ofRat (x : ℚ) : F64 :=
  let y : ℚ := roundHalfEven (x / ulp x) * ulp x
  if 2 ^ 1024 ≤ |y| then .inf (decide (x < 0)) else .fin y

/-- Addition of `float64` values. -/
def F64.add : F64 → F64 → F64
  | .fin a, .fin b => F64.ofRat (a + b)
  | .nan, _ => .nan
  | _, .nan => .nan
  | .inf s, .inf t => if s = t then .inf s else .nan
  | .inf s, .fin _ => .inf s
  | .fin _, .inf t => .inf t

/-- Negation of a `float64` value. -/
def F64.neg : F64 → F64
  | .fin a => .fin (-a)
  | .inf s => .inf (!s)
  | .nan => .nan

/-- Subtraction of `float64` values. -/
def F64.sub (x y : F64) : F64 := F64.add x (F64.neg y)

/-- Multiplication of `float64` values. -/
def F64.mul : F64 → F64 → F64
  | .fin a, .fin b => F64.ofRat (a * b)
  | .nan, _ => .nan
  | _, .nan => .nan
  | .inf s, .inf t => .inf (s != t)
  | .inf s, .fin b => if b = 0 then .nan else .inf (s != decide (b < 0))
  | .fin a, .inf t => if a = 0 then .nan else .inf (decide (a < 0) != t)

/-- Division of `float64` values; the divisor, when it is zero, is the positive zero. -/
def F64.div : F64 → F64 → F64
  | .fin a, .fin b =>
    if b = 0 then (if a = 0 then .nan else .inf (decide (a < 0))) else F64.ofRat (a / b)
  | .nan, _ => .nan
  | _, .nan => .nan
  | .inf _, .inf _ => .nan
  | .inf s, .fin b => .inf (s != decide (b < 0))
  | .fin _, .inf _ => .fin 0

/-- The comparison `x >= y` of `float64` values (false when an operand is not a number). -/
def F64.ge : F64 → F64 → Bool
  | .fin a, .fin b => decide (b ≤ a)
  | .nan, _ => false
  | _, .nan => false
  | .inf s, .inf t => !s || t
  | .inf s, .fin _ => !s
  | .fin _, .inf t => t

/-- The comparison `x > y` of `float64` values. -/
def F64.gt : F64 → F64 → Bool
  | .fin a, .fin b => decide (b < a)
  | .nan, _ => false
  | _, .nan => false
  | .inf s, .inf t => !s && t
  | .inf s, .fin _ => !s
  | .fin _, .inf t => t

/-- The function `math.Ceil`. -/
def F64.Ceil : F64 → F64
  | .fin a => .fin ⌈a⌉
  | x => x

/-- The function `math.Floor`. -/
def F64.Floor : F64 → F64
  | .fin a => .fin ⌊a⌋
  | x => x

/-- Truncation of a rational number towards zero. -/
def truncQ (a : ℚ) : Int := if 0 ≤ a then ⌊a⌋ else ⌈a⌉

/-- The results of the conversions from `float64` to an integer type when the truncated
value does not fit the type (or the operand is not finite): they depend on the
implementation. -/
structure Conv where
  /-- The result of `int64(f)` in that case. -/
  toInt64 : F64 → Int
  /-- The result of `uint(f)` in that case. -/
  toUint : F64 → Nat

/-- The conversion `int64(f)`: truncation towards zero when the result fits. -/
def F64.toInt64 (cv : Conv) : F64 → Int
  | .fin a =>
    if -(2 ^ 63) ≤ truncQ a ∧ truncQ a < 2 ^ 63 then truncQ a else wrapInt (cv.toInt64 (.fin a))
  | x => wrapInt (cv.toInt64 x)

/-- The conversion `uint(f)`: truncation towards zero when the result fits. -/
def F64.toUint (cv : Conv) : F64 → Nat
  | .fin a =>
    if 0 ≤ truncQ a ∧ truncQ a < 2 ^ 64 then (truncQ a).toNat else wrap (cv.toUint (.fin a))
  | x => wrap (cv.toUint x)

/-- The conversion `float64(n)` of an integer. -/
def F64.ofInt (n : Int) : F64 := F64.ofRat n

/-! ## The synchronizer of `subsync.go` -/

/-- The function `roundFloat64`. -/
def roundFloat64 (cv : Conv) (f : F64) : F64 :=
  let val := F64.sub f (F64.ofInt (F64.toInt64 cv f))
  if F64.ge val (.fin (1 / 2)) then F64.Ceil f
  else if F64.gt val (.fin 0) then F64.Floor f
  else if F64.ge (.fin (-(1 / 2))) val then F64.Floor f
  else if F64.gt (.fin 0) val then F64.Ceil f
  else f

/-- The function `sync_subs` (synchronize subtitles by knowing the time of the first and
the last subtitle): the list after the call, or `none` when the list is empty and the call
dereferences a nil element. Every product, sum and difference is rounded on its own, as the
compiler for amd64 does; no fused multiply-add is modelled. -/
def sync_subs (cv : Conv) (subs : List subtitle) (synced_first_ms synced_last_ms : Nat) :
    Option (List subtitle) :=
  match subs.head?, subs.getLast? with
  | some first, some last =>
    let desynced_first_ms := first.start
    let desynced_last_ms := last.start
    let slope := F64.div (F64.ofInt (wrap (synced_last_ms + 2 ^ 64 - synced_first_ms)))
      (F64.ofInt (wrap (desynced_last_ms + 2 ^ 64 - desynced_first_ms)))
    let yint := F64.sub (F64.ofInt synced_last_ms) (F64.mul slope (F64.ofInt desynced_last_ms))
    some (subs.map fun sub =>
      { sub with
        start := F64.toUint cv (roundFloat64 cv (F64.add (F64.mul slope (F64.ofInt sub.start)) yint)),
        end_ := F64.toUint cv (roundFloat64 cv (F64.add (F64.mul slope (F64.ofInt sub.end_)) yint)) })
  | _, _ => none

/-- A placeholder for the implementation-dependent results, used where a concrete value of
the parameter is needed and no conversion leaves its range, so that the choice has no
influence: every conversion that does not fit gives zero. -/
def zeroConv : Conv := { toInt64 := fun _ => 0, toUint := fun _ => 0 }

/-- The finite values of `float64`: `m * 2 ^ k` with `|m| < 2 ^ 53`, `k ≥ -1074`, and
magnitude below `2 ^ 1024`. -/
def IsF64 (x : ℚ) : Prop :=
  ∃ m k : Int, |m| < 2 ^ 53 ∧ -1074 ≤ k ∧ x = m * 2 ^ k ∧ |x| < 2 ^ 1024

/-- Rounding of a rational number to the nearest integer, ties away from zero. -/
def roundHalfAway (q : ℚ) : Int := if 0 ≤ q then ⌊q + 1 / 2⌋ else ⌈q - 1 / 2⌉

/-- A cue as it stands in an input file: the index line, the texts of the two times on the
timing line, and the body lines. -/
structure InputCue where
  /-- The index line. -/
  index : List Nat
  /-- The text of the start time. -/
  first : List Nat
  /-- The text of the end time. -/
  last : List Nat
  /-- The body lines. -/
  lines : List (List Nat)

/-- Lines, each followed by the line terminator `nl`. -/
def joinLines (nl : List Nat) : List (List Nat) → List Nat
  | [] => []
  | l :: ls => l ++ nl ++ joinLines nl ls

/-- The bytes of one cue of an input file whose lines end with `nl`: index line, timing line,
body lines, blank line. -/
def cueInput (nl : List Nat) (c : InputCue) : List Nat :=
  c.index ++ nl ++ (c.first ++ ascii " --> " ++ c.last ++ nl) ++ joinLines nl c.lines ++ nl

/-- The bytes of an input file with the given cues. -/
def srtInput (nl : List Nat) : List InputCue → List Nat
  | [] => []
  | c :: cs => cueInput nl c ++ srtInput nl cs

/-- A line terminator of an input file: LF or CRLF. -/
def IsLineEnd (nl : List Nat) : Prop := nl = [10] ∨ nl = [13, 10]

/-- A line that its terminator delimits unambiguously: it contains no line feed and, when
the terminator is the bare line feed, it does not end with a carriage return. -/
def IsLine (nl : List Nat) (l : List Nat) : Prop :=
  10 ∉ l ∧ (nl = [10] → l.getLast? ≠ some 13)

/-- A well-formed cue of an input file with line terminator `nl`, and the subtitle it
denotes: the index is a numeral that fits `uint`, the two time texts contain no space and
decode to the start and the end, the body lines are non-empty, and the text is the body
lines, each followed by CRLF. -/
def CueOf (nl : List Nat) (c : InputCue) (sub : subtitle) : Prop :=
  (IsNumeral c.index ∧ decVal c.index < 2 ^ 64) ∧
  (32 ∉ c.first ∧ 32 ∉ c.last ∧ IsLine nl (c.first ++ ascii " --> " ++ c.last)) ∧
  (time_to_msecs c.first = .ok sub.start ∧ time_to_msecs c.last = .ok sub.end_) ∧
  (∀ l ∈ c.lines, l ≠ [] ∧ IsLine nl l) ∧
  sub.text = crlfLines c.lines

/-- The bytes of a cue that is the last of its file and has no blank line after it. -/
def cueInputOpen (nl : List Nat) (c : InputCue) : List Nat :=
  c.index ++ nl ++ (c.first ++ ascii " --> " ++ c.last ++ nl) ++ joinLines nl c.lines

/-- Two cues of input files that differ at most in their index lines, the second index
being a numeral that fits `uint`. -/
def SameButIndex (c1 c2 : InputCue) : Prop :=
  c2.first = c1.first ∧ c2.last = c1.last ∧ c2.lines = c1.lines ∧
    IsNumeral c2.index ∧ decVal c2.index < 2 ^ 64

/-- The value that `sync_subs` assigns to its variable `slope`. -/
def syncSlope (synced_first_ms synced_last_ms desynced_first_ms desynced_last_ms : Nat) : F64 :=
  F64.div (F64.ofInt (wrap (synced_last_ms + 2 ^ 64 - synced_first_ms)))
    (F64.ofInt (wrap (desynced_last_ms + 2 ^ 64 - desynced_first_ms)))

/-- The value that `sync_subs` assigns to its variable `yint`. -/
def syncYint (synced_first_ms synced_last_ms desynced_first_ms desynced_last_ms : Nat) : F64 :=
  F64.sub (F64.ofInt synced_last_ms)
    (F64.mul (syncSlope synced_first_ms synced_last_ms desynced_first_ms desynced_last_ms)
      (F64.ofInt desynced_last_ms))

/-- The expression `uint(roundFloat64(slope * float64(t) + yint))` of the loop of
`sync_subs`. -/
def syncPoint (cv : Conv) (slope yint : F64) (t : Nat) : Nat :=
  F64.toUint cv (roundFloat64 cv (F64.add (F64.mul slope (F64.ofInt t)) yint))

/-- The implementation-dependent results on amd64. Both conversions are compiled to the
instruction `CVTTSD2SQ`, which gives `-2 ^ 63` when the truncated operand does not fit
`int64` or the operand is not finite; `uint(f)` is the bits of `int64(f)` when `f < 2 ^ 63`
and those of `int64(f - 2 ^ 63)` with the top bit set otherwise. -/
def amd64Conv : Conv where
  toInt64 := fun _ => -(2 ^ 63)
  toUint := fun f =>
    match f with
    | .fin a =>
      if 2 ^ 64 ≤ truncQ a then 2 ^ 63
      else if -(2 ^ 63) ≤ truncQ a then (truncQ a + 2 ^ 64).toNat
      else 2 ^ 63
    | _ => 2 ^ 63

/-- The expression `roundFloat64(slope * float64(t) + yint)` of the loop of `sync_subs`: the
value that is then converted to `uint`. -/
def syncValue (cv : Conv) (slope yint : F64) (t : Nat) : F64 :=
  roundFloat64 cv (F64.add (F64.mul slope (F64.ofInt t)) yint)

/-- A `float64` whose conversion to `uint` is defined by the language: it is finite and its
truncation is in the range of `uint`. -/
def FitsUint : F64 → Prop
  | .fin a => 0 ≤ truncQ a ∧ truncQ a < 2 ^ 64
  | _ => False

/-! # Lemmas and theorems -/

/-! ## Lemmas: scanning numerals -/

theorem decodeRune_lt {b : Nat} (hb : b < 0x80) (rest : List Nat) :
    decodeRune (b :: rest) = some (b, rest) := by
  simp [decodeRune, hb]

theorem isDigit_iff {b : Nat} : isDigit b = true ↔ 48 ≤ b ∧ b ≤ 57 := by
  simp [isDigit]

theorem isSpace_digit {b : Nat} (hb : isDigit b = true) : isSpace b = false := by
  rw [isDigit_iff] at hb
  simp only [isSpace, Bool.or_eq_false_iff, Bool.and_eq_false_iff, decide_eq_false_iff_not,
    beq_eq_false_iff_ne]
  omega

theorem skipSpaceLoop_digit {b : Nat} (hb : isDigit b = true) (fuel : Nat) (rest : List Nat) :
    skipSpaceLoop fuel (b :: rest) = some (b :: rest) := by
  cases fuel with
  | zero => rfl
  | succ n =>
    have h2 := isSpace_digit hb
    rw [isDigit_iff] at hb
    have h1 : b < 0x80 := by omega
    have h3 : b ≠ 13 := by omega
    have h4 : b ≠ 10 := by omega
    simp [skipSpaceLoop, decodeRune_lt h1, h2, h3, h4]

theorem SkipSpace_digit {b : Nat} (hb : isDigit b = true) (rest : List Nat) :
    SkipSpace (b :: rest) = some (b :: rest) :=
  skipSpaceLoop_digit hb _ rest

theorem takeWhile_append_stop {p : Nat → Bool} (l : List Nat) (c : Nat) (rest : List Nat)
    (hl : ∀ b ∈ l, p b = true) (hc : p c = false) :
    (l ++ c :: rest).takeWhile p = l ∧ (l ++ c :: rest).dropWhile p = c :: rest := by
  induction l with
  | nil => simp [List.takeWhile, List.dropWhile, hc]
  | cons a l ih =>
    have ha : p a = true := hl a (List.mem_cons_self _ _)
    have ih2 := ih (fun b hb => hl b (List.mem_cons_of_mem _ hb))
    simp [List.takeWhile, List.dropWhile, ha, ih2.1, ih2.2]

theorem takeWhile_all {p : Nat → Bool} (l : List Nat) (hl : ∀ b ∈ l, p b = true) :
    l.takeWhile p = l ∧ l.dropWhile p = [] := by
  induction l with
  | nil => simp
  | cons a l ih =>
    have ha : p a = true := hl a (List.mem_cons_self _ _)
    have ih2 := ih (fun b hb => hl b (List.mem_cons_of_mem _ hb))
    simp [List.takeWhile, List.dropWhile, ha, ih2.1, ih2.2]

theorem ParseUint_numeral {ds : List Nat} (hd : IsNumeral ds) (hv : decVal ds < 2 ^ 64) :
    ParseUint ds = some (decVal ds) := by
  unfold ParseUint
  rw [if_pos]
  exact ⟨hd.1, by simpa [List.all_eq_true] using hd.2, hv⟩

theorem isNumberByte_of_isDigit {b : Nat} (hb : isDigit b = true) : isNumberByte b = true := by
  simp [isNumberByte, hb]

/-- Scanning a numeral that is followed by a byte which cannot continue a number. -/
theorem scanUint_numeral_stop {ds : List Nat} (hd : IsNumeral ds) (hv : decVal ds < 2 ^ 64)
    (c : Nat) (rest : List Nat) (hc : isNumberByte c = false) :
    scanUint (ds ++ c :: rest) = some (decVal ds, c :: rest) := by
  obtain ⟨hne, hall⟩ := hd
  cases ds with
  | nil => exact absurd rfl hne
  | cons d ds =>
    have hd0 : isDigit d = true := hall d (List.mem_cons_self _ _)
    have htd := takeWhile_append_stop (d :: ds) c rest
      (fun b hb => isNumberByte_of_isDigit (hall b hb)) hc
    unfold scanUint
    rw [List.cons_append, SkipSpace_digit hd0, ← List.cons_append]
    simp only [htd.1, htd.2, ParseUint_numeral ⟨hne, hall⟩ hv, intBits]
    rw [if_pos hv]

/-- Scanning a numeral that ends the input. -/
theorem scanUint_numeral_end {ds : List Nat} (hd : IsNumeral ds) (hv : decVal ds < 2 ^ 64) :
    scanUint ds = some (decVal ds, []) := by
  obtain ⟨hne, hall⟩ := hd
  cases ds with
  | nil => exact absurd rfl hne
  | cons d ds =>
    have hd0 : isDigit d = true := hall d (List.mem_cons_self _ _)
    have htd := takeWhile_all (d :: ds) (fun b hb => isNumberByte_of_isDigit (hall b hb))
    unfold scanUint
    rw [SkipSpace_digit hd0]
    simp only [htd.1, htd.2, ParseUint_numeral ⟨hne, hall⟩ hv, intBits]
    rw [if_pos hv]

/-! ## Lemmas: printing numerals -/

theorem decVal_append_single (ds : List Nat) (d : Nat) :
    decVal (ds ++ [d]) = decVal ds * 10 + (d - 48) := by
  simp [decVal, List.foldl_append]

theorem digitsRev_spec (fuel : Nat) : ∀ n, n ≤ fuel →
    decVal (digitsRev fuel n).reverse = n ∧ (∀ b ∈ digitsRev fuel n, isDigit b = true) ∧
      digitsRev fuel n ≠ [] := by
  induction fuel with
  | zero =>
    intro n hn
    have : n = 0 := by omega
    subst this
    simp [digitsRev, decVal, isDigit]
  | succ fuel ih =>
    intro n hn
    unfold digitsRev
    by_cases h : n < 10
    · simp only [h, if_true]
      refine ⟨by simp [decVal], ?_, by simp⟩
      intro b hb
      simp only [List.mem_singleton] at hb
      subst hb
      rw [isDigit_iff]; omega
    · simp only [h, if_false]
      have hle : n / 10 ≤ fuel := by omega
      obtain ⟨h1, h2, _⟩ := ih (n / 10) hle
      refine ⟨?_, ?_, by simp⟩
      · rw [List.reverse_cons, decVal_append_single, h1]; omega
      · intro b hb
        rcases List.mem_cons.mp hb with hb | hb
        · subst hb; rw [isDigit_iff]; omega
        · exact h2 b hb

theorem fmtUint_numeral (n : Nat) : IsNumeral (fmtUint n) := by
  obtain ⟨_, h2, h3⟩ := digitsRev_spec n n le_rfl
  refine ⟨by simpa [fmtUint] using h3, ?_⟩
  intro b hb
  exact h2 b (by simpa [fmtUint] using hb)

theorem decVal_fmtUint (n : Nat) : decVal (fmtUint n) = n :=
  (digitsRev_spec n n le_rfl).1

theorem decVal_zeros_append (k : Nat) (ds : List Nat) :
    decVal (List.replicate k 48 ++ ds) = decVal ds := by
  induction k with
  | zero => simp
  | succ k ih =>
    simp only [decVal, List.replicate_succ, List.cons_append, List.foldl_cons] at ih ⊢
    simpa using ih

theorem fmtUintPad_numeral (w n : Nat) : IsNumeral (fmtUintPad w n) := by
  obtain ⟨hne, hall⟩ := fmtUint_numeral n
  refine ⟨by simp [fmtUintPad, hne], ?_⟩
  intro b hb
  simp only [fmtUintPad, List.mem_append, List.mem_replicate] at hb
  rcases hb with ⟨_, rfl⟩ | hb
  · rfl
  · exact hall b hb

theorem decVal_fmtUintPad (w n : Nat) : decVal (fmtUintPad w n) = n := by
  rw [fmtUintPad, decVal_zeros_append, decVal_fmtUint]

theorem replaceFirstDot_of_not_mem (s : List Nat) (h : 46 ∉ s) : replaceFirstDot s = s := by
  induction s with
  | nil => rfl
  | cons b s ih =>
    have hb : b ≠ 46 := fun e => h (e ▸ List.mem_cons_self _ _)
    have hs : 46 ∉ s := fun e => h (List.mem_cons_of_mem _ e)
    simp [replaceFirstDot, hb, ih hs]

theorem not_mem_dot_numeral {ds : List Nat} (hd : IsNumeral ds) : 46 ∉ ds := by
  intro h
  have := hd.2 46 h
  simp [isDigit] at this

/-- The four operands are read back from a canonical time stamp. -/
theorem Sscanf4_canonical {a b c d : List Nat} (ha : IsNumeral a) (hb : IsNumeral b)
    (hc : IsNumeral c) (hd : IsNumeral d) (hav : decVal a < 2 ^ 64) (hbv : decVal b < 2 ^ 64)
    (hcv : decVal c < 2 ^ 64) (hdv : decVal d < 2 ^ 64) :
    Sscanf4 (a ++ [58] ++ b ++ [58] ++ c ++ [44] ++ d) =
      some (decVal a, decVal b, decVal c, decVal d) := by
  have e : a ++ [58] ++ b ++ [58] ++ c ++ [44] ++ d =
      a ++ 58 :: (b ++ 58 :: (c ++ 44 :: d)) := by simp
  rw [e]
  unfold Sscanf4
  rw [scanUint_numeral_stop ha hav 58 _ (by decide)]
  simp only [expectByte, if_true]
  rw [scanUint_numeral_stop hb hbv 58 _ (by decide)]
  simp only [expectByte, if_true]
  rw [scanUint_numeral_stop hc hcv 44 _ (by decide)]
  simp only [expectByte, if_true]
  rw [scanUint_numeral_end hd hdv]

/-! ## Theorems: the time codec -/

theorem time_roundtrip (ms : Nat) (h : ms < 2 ^ 64) :
    time_to_msecs (msecs_to_time ms) = .ok ms := by
  have hnd : 46 ∉ msecs_to_time ms := by
    simp only [msecs_to_time, List.mem_append, List.mem_singleton, not_or]
    exact ⟨⟨⟨⟨⟨⟨not_mem_dot_numeral (fmtUintPad_numeral _ _), by decide⟩,
      not_mem_dot_numeral (fmtUintPad_numeral _ _)⟩, by decide⟩,
      not_mem_dot_numeral (fmtUintPad_numeral _ _)⟩, by decide⟩,
      not_mem_dot_numeral (fmtUintPad_numeral _ _)⟩
  unfold time_to_msecs
  simp only [replaceFirstDot_of_not_mem _ hnd]
  unfold msecs_to_time
  have h1 : ms / (60 * 60 * 1000) < 2 ^ 64 := by omega
  have h2 : ms % (60 * 60 * 1000) / (60 * 1000) < 2 ^ 64 := by omega
  have h3 : ms % (60 * 60 * 1000) % (60 * 1000) / 1000 < 2 ^ 64 := by omega
  have h4 : ms % (60 * 60 * 1000) % (60 * 1000) % 1000 < 2 ^ 64 := by omega
  simp only []
  rw [Sscanf4_canonical (fmtUintPad_numeral _ _) (fmtUintPad_numeral _ _)
    (fmtUintPad_numeral _ _) (fmtUintPad_numeral _ _)
    (by rw [decVal_fmtUintPad]; exact h1) (by rw [decVal_fmtUintPad]; exact h2)
    (by rw [decVal_fmtUintPad]; exact h3) (by rw [decVal_fmtUintPad]; exact h4)]
  simp only [decVal_fmtUintPad, wrap, intBits]
  congr 1
  omega

/-- C1: for every millisecond count `ms` of the `uint` range, decoding the text produced by
`msecs_to_time` succeeds and returns exactly `ms`. -/
theorem time_to_msecs_msecs_to_time (ms : Nat) (h : ms < 2 ^ 64) :
    time_to_msecs (msecs_to_time ms) = .ok ms :=
  time_roundtrip ms h

/-- Witness for C1 at the largest `uint`. -/
theorem time_to_msecs_msecs_to_time_witness :
    (2 ^ 64 - 1 < 2 ^ 64) ∧ time_to_msecs (msecs_to_time (2 ^ 64 - 1)) = .ok (2 ^ 64 - 1) :=
  ⟨by decide, time_to_msecs_msecs_to_time (2 ^ 64 - 1) (by decide)⟩

theorem dropCR_append (a b : List Nat) (hb : b ≠ []) : dropCR (a ++ b) = a ++ dropCR b := by
  unfold dropCR
  rw [List.getLast?_append_of_ne_nil _ hb]
  split
  · rw [List.dropLast_append_of_ne_nil _ hb]
  · rfl

theorem takeWhile_nl_append (pre rest : List Nat) (h : 10 ∉ pre) :
    (pre ++ 10 :: rest).takeWhile (fun b => b != 10) = pre := by
  induction pre with
  | nil => simp [List.takeWhile]
  | cons a l ih =>
    have ha : a ≠ 10 := fun e => h (e ▸ List.mem_cons_self _ _)
    have hl : 10 ∉ l := fun e => h (List.mem_cons_of_mem _ e)
    have ha2 : (a != 10) = true := by simpa using ha
    simp [List.takeWhile, ha2, ih hl]

theorem takeWhile_nl_all (l : List Nat) (h : 10 ∉ l) :
    l.takeWhile (fun b => b != 10) = l := by
  induction l with
  | nil => rfl
  | cons a l ih =>
    have ha : a ≠ 10 := fun e => h (e ▸ List.mem_cons_self _ _)
    have hl : 10 ∉ l := fun e => h (List.mem_cons_of_mem _ e)
    have ha2 : (a != 10) = true := by simpa using ha
    simp [List.takeWhile, ha2, ih hl]

theorem ReadLine_found (pre rest : List Nat) (h : 10 ∉ pre) (hlen : pre.length < defaultBufSize) :
    ReadLine (pre ++ 10 :: rest) =
      { line := dropCR pre, more := false, eof := false, rest := rest } := by
  have hwin : (pre ++ 10 :: rest).take defaultBufSize =
      pre ++ 10 :: rest.take (defaultBufSize - pre.length - 1) := by
    rw [List.take_append_eq_append_take, List.take_of_length_le (le_of_lt hlen)]
    obtain ⟨k, hk⟩ : ∃ k, defaultBufSize - pre.length = k + 1 := ⟨defaultBufSize - pre.length - 1, by omega⟩
    rw [hk, List.take_succ_cons]
    simp
  unfold ReadLine
  simp only [hwin, takeWhile_nl_append _ _ h]
  rw [if_pos (by simp)]
  simp

theorem ReadLine_full (inp : List Nat) (hlen : defaultBufSize ≤ inp.length)
    (h : 10 ∉ inp.take defaultBufSize) :
    ReadLine inp =
      if (inp.take defaultBufSize).getLast? = some 13 then
        { line := (inp.take defaultBufSize).dropLast, more := true, eof := false,
          rest := inp.drop (defaultBufSize - 1) }
      else
        { line := inp.take defaultBufSize, more := true, eof := false,
          rest := inp.drop defaultBufSize } := by
  unfold ReadLine
  simp only [takeWhile_nl_all _ h, lt_irrefl, if_false, hlen, if_true]

theorem ReadLine_nil : ReadLine [] = { line := [], more := false, eof := true, rest := [] } := by
  rfl

theorem ReadLine_last (inp : List Nat) (hne : inp ≠ []) (hlen : inp.length < defaultBufSize)
    (h : 10 ∉ inp) :
    ReadLine inp = { line := inp, more := false, eof := false, rest := [] } := by
  unfold ReadLine
  have hwin : inp.take defaultBufSize = inp := List.take_of_length_le (le_of_lt hlen)
  simp only [hwin, takeWhile_nl_all _ h, lt_irrefl, if_false, not_le.mpr hlen, hne]

theorem dropCR_nil : dropCR [] = [] := rfl

/-- The inner loop of `read_srt` assembles a newline-terminated line, whatever its length. -/
theorem readLn_line (rest : List Nat) : ∀ (n : Nat) (content : List Nat), content.length = n →
    10 ∉ content → ∀ fuel acc, content.length < fuel →
    readLn fuel acc (content ++ 10 :: rest) = (acc ++ dropCR content, false, rest) := by
  intro n
  induction n using Nat.strong_induction_on with
  | _ n ih =>
    intro content hn h fuel acc hfuel
    have hB : defaultBufSize = 4096 := rfl
    obtain ⟨f, rfl⟩ : ∃ f, fuel = f + 1 := ⟨fuel - 1, by omega⟩
    by_cases hshort : content.length < defaultBufSize
    · unfold readLn
      simp [ReadLine_found content rest h hshort]
    · have hlen : defaultBufSize ≤ content.length := not_lt.mp hshort
      have htake : (content ++ 10 :: rest).take defaultBufSize = content.take defaultBufSize :=
        List.take_append_of_le_length hlen
      have hno : 10 ∉ (content ++ 10 :: rest).take defaultBufSize := by
        rw [htake]; exact fun e => h (List.mem_of_mem_take e)
      have hfull := ReadLine_full (content ++ 10 :: rest) (by simp; omega) hno
      rw [htake] at hfull
      unfold readLn
      by_cases hcr : (content.take defaultBufSize).getLast? = some 13
      · rw [if_pos hcr] at hfull
        simp only [hfull, Bool.not_false, Bool.and_self, if_true]
        have hd : (content ++ 10 :: rest).drop (defaultBufSize - 1) =
            content.drop (defaultBufSize - 1) ++ 10 :: rest :=
          List.drop_append_of_le_length (by omega)
        have hdl : (content.take defaultBufSize).dropLast = content.take (defaultBufSize - 1) := by
          simp only [List.dropLast_eq_take, List.length_take, Nat.min_eq_left hlen, List.take_take]
          congr 1
        rw [hd, hdl]
        have hne : content.drop (defaultBufSize - 1) ≠ [] := by
          intro e
          have := congrArg List.length e
          simp at this; omega
        rw [ih (content.drop (defaultBufSize - 1)).length (by simp; omega) _ rfl
          (fun e => h (List.mem_of_mem_drop e)) f _ (by simp; omega)]
        congr 1
        rw [List.append_assoc, ← dropCR_append _ _ hne, List.take_append_drop]
      · rw [if_neg hcr] at hfull
        simp only [hfull, Bool.not_false, Bool.and_self, if_true]
        have hd : (content ++ 10 :: rest).drop defaultBufSize =
            content.drop defaultBufSize ++ 10 :: rest :=
          List.drop_append_of_le_length hlen
        rw [hd]
        rw [ih (content.drop defaultBufSize).length (by simp; omega) _ rfl
          (fun e => h (List.mem_of_mem_drop e)) f _ (by simp; omega)]
        congr 1
        rw [List.append_assoc]
        congr 1
        by_cases hne : content.drop defaultBufSize = []
        · have hall : content.take defaultBufSize = content := by
            have := List.take_append_drop defaultBufSize content
            rw [hne, List.append_nil] at this
            exact this
          rw [hne, dropCR_nil, List.append_nil, hall]
          rw [hall] at hcr
          simp [dropCR, hcr]
        · rw [← dropCR_append _ _ hne, List.take_append_drop]

theorem readLn_nil (fuel : Nat) (acc : List Nat) : readLn (fuel + 1) acc [] = (acc, true, []) := by
  simp [readLn, ReadLine_nil]

theorem readLn_last (inp : List Nat) (hne : inp ≠ []) (hlen : inp.length < defaultBufSize)
    (h : 10 ∉ inp) (fuel : Nat) (acc : List Nat) :
    readLn (fuel + 1) acc inp = (acc ++ inp, false, []) := by
  simp [readLn, ReadLine_last inp hne hlen h]

theorem ReadLine_rest (inp : List Nat) :
    (ReadLine inp).rest.length ≤ inp.length ∧
      ((ReadLine inp).eof = false → (ReadLine inp).rest.length < inp.length) ∧
      ((ReadLine inp).more = true → (ReadLine inp).eof = false) := by
  have hB : defaultBufSize = 4096 := rfl
  unfold ReadLine
  simp only []
  split
  · rename_i h
    have h2 : (inp.take defaultBufSize).length ≤ inp.length := by simp
    simp only [List.length_drop]
    refine ⟨by omega, fun _ => by omega, fun _ => trivial⟩
  · split
    · rename_i h
      split <;> simp only [List.length_drop] <;>
        refine ⟨by omega, fun _ => by omega, fun _ => trivial⟩
    · split
      · rename_i h; subst h; simp
      · rename_i h
        have : 0 < inp.length := List.length_pos.mpr h
        simp [this]

theorem readLn_rest : ∀ (fuel : Nat) (acc inp : List Nat),
    (readLn fuel acc inp).2.2.length ≤ inp.length ∧
      (0 < fuel → (readLn fuel acc inp).2.1 = false →
        (readLn fuel acc inp).2.2.length < inp.length) := by
  intro fuel
  induction fuel with
  | zero => intro acc inp; simp [readLn]
  | succ f ih =>
    intro acc inp
    obtain ⟨h1, h2, h3⟩ := ReadLine_rest inp
    unfold readLn
    simp only []
    by_cases hm : ((ReadLine inp).more && !(ReadLine inp).eof) = true
    · rw [if_pos hm]
      simp only [Bool.and_eq_true, Bool.not_eq_true'] at hm
      have hlt := h2 hm.2
      obtain ⟨i1, _⟩ := ih (acc ++ (ReadLine inp).line) (ReadLine inp).rest
      exact ⟨by omega, fun _ _ => by omega⟩
    · rw [if_neg hm]
      exact ⟨h1, fun _ he => h2 he⟩

theorem readLn_fuel : ∀ (fuel : Nat) (acc inp : List Nat), inp.length < fuel →
    ∀ fuel2, inp.length < fuel2 → readLn fuel acc inp = readLn fuel2 acc inp := by
  intro fuel
  induction fuel with
  | zero => intro acc inp h; omega
  | succ f ih =>
    intro acc inp h fuel2 h2
    obtain ⟨g, rfl⟩ : ∃ g, fuel2 = g + 1 := ⟨fuel2 - 1, by omega⟩
    obtain ⟨_, r2, _⟩ := ReadLine_rest inp
    unfold readLn
    simp only []
    by_cases hm : ((ReadLine inp).more && !(ReadLine inp).eof) = true
    · rw [if_pos hm, if_pos hm]
      simp only [Bool.and_eq_true, Bool.not_eq_true'] at hm
      have hlt := r2 hm.2
      exact ih _ _ (by omega) g (by omega)
    · rw [if_neg hm, if_neg hm]

theorem ReadLine_eof (inp : List Nat) (h : (ReadLine inp).eof = true) :
    (ReadLine inp).line = [] := by
  by_cases hinp : inp = []
  · subst hinp
    rw [ReadLine_nil]
  · exfalso
    unfold ReadLine at h
    simp only [] at h
    split at h
    · exact Bool.noConfusion h
    · split at h
      · split at h <;> exact Bool.noConfusion h
      · exact Bool.noConfusion h

theorem readLn_grow : ∀ (fuel : Nat) (acc inp : List Nat),
    (readLn fuel acc inp).1 ≠ acc → (readLn fuel acc inp).2.2.length < inp.length := by
  intro fuel
  induction fuel with
  | zero => intro acc inp h; exact absurd rfl h
  | succ f ih =>
    intro acc inp
    obtain ⟨h1, h2, h3⟩ := ReadLine_rest inp
    unfold readLn
    simp only []
    by_cases hm : ((ReadLine inp).more && !(ReadLine inp).eof) = true
    · rw [if_pos hm]
      simp only [Bool.and_eq_true, Bool.not_eq_true'] at hm
      have hlt := h2 hm.2
      obtain ⟨i1, _⟩ := readLn_rest f (acc ++ (ReadLine inp).line) (ReadLine inp).rest
      intro _
      omega
    · rw [if_neg hm]
      intro hne
      apply h2
      cases he : (ReadLine inp).eof with
      | false => rfl
      | true =>
        exfalso
        apply hne
        simp [ReadLine_eof inp he]

theorem read_srt_line_flag {st st1 : ReadState} {ln : List Nat} {stop : Bool}
    (h : read_srt_line st ln false = .ok (st1, stop)) : stop = false := by
  unfold read_srt_line at h
  simp only [] at h
  split_ifs at h with h1 h2 h3 h4 h5 h6 h7
  · exact absurd h2.1 (by simp)
  · split at h
    · exact absurd h (by simp)
    · simp only [Except.ok.injEq, Prod.mk.injEq] at h
      exact h.2.symm
  · split at h
    · exact absurd h (by simp)
    · split at h
      · exact absurd h (by simp)
      · simp only [Except.ok.injEq, Prod.mk.injEq] at h
        exact h.2.symm
  · simp only [Except.ok.injEq, Prod.mk.injEq] at h
    exact h.2.symm
  · simp only [Except.ok.injEq, Prod.mk.injEq] at h
    exact h.2.symm
  · simp only [Except.ok.injEq, Prod.mk.injEq] at h
    exact h.2.symm

/-- The loop goes on after the end of the input only if the last line was not empty. -/
theorem read_srt_line_cont {st st1 : ReadState} {ln : List Nat} {eof : Bool}
    (h : read_srt_line st ln eof = .ok (st1, false)) : eof = false ∨ ln ≠ [] := by
  cases eof with
  | false => exact Or.inl rfl
  | true =>
    right
    rintro rfl
    unfold read_srt_line at h
    simp only [Split, List.length_nil, List.length_singleton] at h
    split_ifs at h <;> simp_all

theorem read_srt_loop_fuel : ∀ (fuel : Nat) (st : ReadState) (inp : List Nat), inp.length < fuel →
    ∀ fuel2, inp.length < fuel2 → read_srt_loop fuel st inp = read_srt_loop fuel2 st inp := by
  intro fuel
  induction fuel with
  | zero => intro st inp h; omega
  | succ f ih =>
    intro st inp h fuel2 h2
    obtain ⟨g, rfl⟩ : ∃ g, fuel2 = g + 1 := ⟨fuel2 - 1, by omega⟩
    unfold read_srt_loop
    obtain ⟨_, hr⟩ := readLn_rest (inp.length + 1) [] inp
    rcases hrl : readLn (inp.length + 1) [] inp with ⟨ln, eof, rest⟩
    rw [hrl] at hr
    simp only []
    rcases hline : read_srt_line st ln eof with e | ⟨st1, stop⟩
    · rfl
    · simp only []
      cases stop with
      | true => rfl
      | false =>
        have hlt : rest.length < inp.length := by
          rcases read_srt_line_cont hline with he | hn
          · exact hr (by omega) he
          · have hg := readLn_grow (inp.length + 1) [] inp
            rw [hrl] at hg
            exact hg hn
        simp only [Bool.false_eq_true, if_false]
        exact ih _ _ (by omega) g (by omega)

/-- One newline-terminated line is consumed by one iteration of the outer loop. -/
theorem read_srt_loop_line (st : ReadState) (content rest : List Nat) (h : 10 ∉ content)
    (fuel : Nat) (hfuel : (content ++ 10 :: rest).length < fuel) :
    read_srt_loop fuel st (content ++ 10 :: rest) =
      match read_srt_line st (dropCR content) false with
      | .error e => .error e
      | .ok (st1, _) => read_srt_loop fuel st1 rest := by
  obtain ⟨f, rfl⟩ : ∃ f, fuel = f + 1 := ⟨fuel - 1, by omega⟩
  rw [read_srt_loop]
  rw [readLn_line rest content.length content rfl h _ [] (by simp; omega)]
  simp only [List.nil_append]
  rcases hline : read_srt_line st (dropCR content) false with e | ⟨st1, stop⟩
  · rfl
  · have hs : stop = false := read_srt_line_flag hline
    subst hs
    simp only [Bool.false_eq_true, if_false]
    simp only [List.length_append, List.length_cons] at hfuel
    exact read_srt_loop_fuel _ _ _ (by omega) _ (by omega)

/-- At the end of the input, in state 0, the loop returns the list built so far. -/
theorem read_srt_loop_end (st : ReadState) (h : st.state = 0) (fuel : Nat) :
    read_srt_loop (fuel + 1) st [] = .ok st.subs := by
  rw [read_srt_loop]
  simp [readLn_nil, read_srt_line, h]

theorem ascii_arrow : ascii "-->" = [45, 45, 62] := by decide

theorem ascii_arrow_sp : ascii " --> " = [32, 45, 45, 62, 32] := by decide

theorem dropCR_append_cr (x : List Nat) : dropCR (x ++ [13]) = x := by
  simp [dropCR]

theorem Split_of_not_mem (sep : Nat) (a : List Nat) (h : sep ∉ a) : Split sep a = [a] := by
  induction a with
  | nil => rfl
  | cons b l ih =>
    have hb : b ≠ sep := fun e => h (e ▸ List.mem_cons_self _ _)
    have hl : sep ∉ l := fun e => h (List.mem_cons_of_mem _ e)
    simp [Split, hb, ih hl]

theorem Split_append (sep : Nat) (a b : List Nat) (h : sep ∉ a) :
    Split sep (a ++ sep :: b) = a :: Split sep b := by
  induction a with
  | nil => simp [Split]
  | cons c l ih =>
    have hc : c ≠ sep := fun e => h (e ▸ List.mem_cons_self _ _)
    have hl : sep ∉ l := fun e => h (List.mem_cons_of_mem _ e)
    simp [Split, hc, ih hl]

theorem msecs_to_time_bytes (ms : Nat) :
    ∀ b ∈ msecs_to_time ms, isDigit b = true ∨ b = 58 ∨ b = 44 := by
  intro b hb
  simp only [msecs_to_time, List.mem_append, List.mem_singleton] at hb
  rcases hb with (((((hb | hb) | hb) | hb) | hb) | hb) | hb
  all_goals first
    | exact Or.inl ((fmtUintPad_numeral _ _).2 b hb)
    | exact Or.inr (Or.inl hb)
    | exact Or.inr (Or.inr hb)

theorem not_mem_msecs_to_time (ms c : Nat) (hc : isDigit c = false) (h1 : c ≠ 58) (h2 : c ≠ 44) :
    c ∉ msecs_to_time ms := by
  intro h
  rcases msecs_to_time_bytes ms c h with h | h | h
  · rw [hc] at h; exact absurd h (by simp)
  · exact h1 h
  · exact h2 h

theorem not_mem_numeral {ds : List Nat} (hd : IsNumeral ds) (c : Nat) (hc : isDigit c = false) :
    c ∉ ds := by
  intro h
  have := hd.2 c h
  rw [hc] at this
  exact absurd this (by simp)

/-- The index line is accepted in state 0. -/
theorem read_srt_line_index (st : ReadState) (h : st.state = 0) (ds : List Nat)
    (hd : IsNumeral ds) (hv : decVal ds < 2 ^ 64) (eof : Bool) :
    read_srt_line st ds eof = .ok ({ st with state := 1 }, false) := by
  have hne : ds.length ≠ 0 := by
    intro e; exact hd.1 (List.length_eq_zero.mp e)
  unfold read_srt_line
  rw [if_pos h, if_neg (fun e => hne e.2)]
  simp [Split_of_not_mem 32 ds (not_mem_numeral hd 32 (by decide)), ParseUint_numeral hd hv]

/-- The timing line written by `write_srt` is accepted in state 1. -/
theorem read_srt_line_timing (st : ReadState) (h : st.state = 1) (a b : Nat)
    (ha : a < 2 ^ 64) (hb : b < 2 ^ 64) (eof : Bool) :
    read_srt_line st (msecs_to_time a ++ ascii " --> " ++ msecs_to_time b) eof =
      .ok ({ st with state := 2, sub := { st.sub with start := a, end_ := b } }, false) := by
  have e : msecs_to_time a ++ ascii " --> " ++ msecs_to_time b =
      msecs_to_time a ++ 32 :: (ascii "-->" ++ 32 :: msecs_to_time b) := by
    rw [ascii_arrow, ascii_arrow_sp]; simp
  have h32a := not_mem_msecs_to_time a 32 (by decide) (by decide) (by decide)
  have h32b := not_mem_msecs_to_time b 32 (by decide) (by decide) (by decide)
  have hs : Split 32 (msecs_to_time a ++ ascii " --> " ++ msecs_to_time b) =
      [msecs_to_time a, ascii "-->", msecs_to_time b] := by
    rw [e, Split_append 32 _ _ h32a, Split_append 32 (ascii "-->") _ (by rw [ascii_arrow]; decide),
      Split_of_not_mem 32 _ h32b]
  unfold read_srt_line
  have h0 : st.state ≠ 0 := by omega
  rw [if_neg h0, if_pos h]
  simp only [hs, List.getD_cons_zero, List.getD_cons_succ, List.length_cons, List.length_nil,
    time_roundtrip a ha, time_roundtrip b hb]
  rw [if_neg (by simp)]

theorem read_srt_line_text (st : ReadState) (h : st.state = 2) (ln : List Nat) (hne : ln ≠ [])
    (eof : Bool) :
    read_srt_line st ln eof =
      .ok ({ st with sub := { st.sub with text := st.sub.text ++ ln ++ [13, 10] } }, eof) := by
  have hl : ln.length ≠ 0 := fun e => hne (List.length_eq_zero.mp e)
  unfold read_srt_line
  have h0 : st.state ≠ 0 := by omega
  have h1 : st.state ≠ 1 := by omega
  rw [if_neg h0, if_neg h1, if_pos h, if_neg hl]

theorem read_srt_line_blank (st : ReadState) (h : st.state = 2) (eof : Bool) :
    read_srt_line st [] eof =
      .ok ({ state := 0, sub := newSubtitle, subs := st.subs ++ [st.sub] }, eof) := by
  unfold read_srt_line
  have h0 : st.state ≠ 0 := by omega
  have h1 : st.state ≠ 1 := by omega
  rw [if_neg h0, if_neg h1, if_pos h]
  simp

/-- Reading the text of a cue followed by the blank separator line. -/
theorem read_srt_loop_text (rest : List Nat) (subs : List subtitle) :
    ∀ (lines : List (List Nat)), (∀ l ∈ lines, l ≠ [] ∧ 10 ∉ l) →
    ∀ (sub : subtitle) (fuel : Nat), (crlfLines lines ++ 13 :: 10 :: rest).length < fuel →
    read_srt_loop fuel { state := 2, sub := sub, subs := subs }
        (crlfLines lines ++ 13 :: 10 :: rest) =
      read_srt_loop fuel
        { state := 0, sub := newSubtitle,
          subs := subs ++ [{ sub with text := sub.text ++ crlfLines lines }] } rest := by
  intro lines
  induction lines with
  | nil =>
    intro _ sub fuel hfuel
    have e : crlfLines [] ++ 13 :: 10 :: rest = [13] ++ 10 :: rest := rfl
    rw [e, read_srt_loop_line _ [13] rest (by decide) fuel (by simpa [crlfLines] using hfuel)]
    have : dropCR [13] = [] := rfl
    rw [this, read_srt_line_blank _ rfl]
    simp [crlfLines]
  | cons l ls ih =>
    intro hl sub fuel hfuel
    obtain ⟨hne, hnl⟩ := hl l (List.mem_cons_self _ _)
    have e : crlfLines (l :: ls) ++ 13 :: 10 :: rest =
        (l ++ [13]) ++ 10 :: (crlfLines ls ++ 13 :: 10 :: rest) := by
      simp [crlfLines]
    have hnl2 : 10 ∉ l ++ [13] := by
      simp only [List.mem_append, List.mem_singleton, not_or]
      exact ⟨hnl, by decide⟩
    rw [e] at hfuel ⊢
    rw [read_srt_loop_line _ _ _ hnl2 fuel hfuel, dropCR_append_cr,
      read_srt_line_text _ rfl l hne]
    simp only []
    rw [ih (fun x hx => hl x (List.mem_cons_of_mem _ hx)) _ fuel
      (by simp only [List.length_append, List.length_cons] at hfuel ⊢; omega)]
    simp [crlfLines, List.append_assoc]

theorem wrapInt_of_range (i : Int) (h0 : -(2 ^ 63) ≤ i) (h1 : i < 2 ^ 63) : wrapInt i = i := by
  unfold wrapInt
  omega

theorem fmtInt_pos (i : Int) (h0 : 0 ≤ i) : fmtInt i = fmtUint i.natAbs := by
  unfold fmtInt
  rw [if_neg (by omega)]

theorem write_srt_loop_cons (id : Int) (sub : subtitle) (rest : List subtitle)
    (h0 : 0 ≤ id) (h1 : id + 1 < 2 ^ 63) :
    write_srt_loop id (sub :: rest) =
      fmtUint (id + 1).natAbs ++ [13, 10] ++
        (msecs_to_time sub.start ++ ascii " --> " ++ msecs_to_time sub.end_ ++ [13, 10]) ++
        (sub.text ++ [13, 10]) ++ write_srt_loop (id + 1) rest := by
  rw [write_srt_loop]
  rw [wrapInt_of_range (id + 1) (by omega) h1, fmtInt_pos _ (by omega)]

/-- Reading back one cue written by `write_srt`. -/
theorem read_srt_loop_cue (acc : List subtitle) (n : Nat) (hn : n < 2 ^ 64) (sub : subtitle)
    (hwf : WellFormed sub) (rest : List Nat) (fuel : Nat)
    (hfuel : (fmtUint n ++ [13, 10] ++
        (msecs_to_time sub.start ++ ascii " --> " ++ msecs_to_time sub.end_ ++ [13, 10]) ++
        (sub.text ++ [13, 10]) ++ rest).length < fuel) :
    read_srt_loop fuel { state := 0, sub := newSubtitle, subs := acc }
        (fmtUint n ++ [13, 10] ++
          (msecs_to_time sub.start ++ ascii " --> " ++ msecs_to_time sub.end_ ++ [13, 10]) ++
          (sub.text ++ [13, 10]) ++ rest) =
      read_srt_loop fuel { state := 0, sub := newSubtitle, subs := acc ++ [sub] } rest := by
  obtain ⟨hs, he, lines, hlines, htext⟩ := hwf
  have e : fmtUint n ++ [13, 10] ++
        (msecs_to_time sub.start ++ ascii " --> " ++ msecs_to_time sub.end_ ++ [13, 10]) ++
        (sub.text ++ [13, 10]) ++ rest =
      (fmtUint n ++ [13]) ++ 10 ::
        ((msecs_to_time sub.start ++ ascii " --> " ++ msecs_to_time sub.end_ ++ [13]) ++ 10 ::
          (crlfLines lines ++ 13 :: 10 :: rest)) := by
    rw [htext]; simp
  rw [e] at hfuel ⊢
  have hnum := fmtUint_numeral n
  have h1 : 10 ∉ fmtUint n ++ [13] := by
    simp only [List.mem_append, List.mem_singleton, not_or]
    exact ⟨not_mem_numeral hnum 10 (by decide), by decide⟩
  have h2 : 10 ∉ msecs_to_time sub.start ++ ascii " --> " ++ msecs_to_time sub.end_ ++ [13] := by
    simp only [List.mem_append, List.mem_singleton, not_or, ascii_arrow_sp]
    exact ⟨⟨⟨not_mem_msecs_to_time _ 10 (by decide) (by decide) (by decide), by decide⟩,
      not_mem_msecs_to_time _ 10 (by decide) (by decide) (by decide)⟩, by decide⟩
  rw [read_srt_loop_line _ _ _ h1 fuel hfuel, dropCR_append_cr,
    read_srt_line_index _ rfl _ hnum (by rw [decVal_fmtUint]; exact hn)]
  simp only []
  have hfuel2 : ((msecs_to_time sub.start ++ ascii " --> " ++ msecs_to_time sub.end_ ++ [13]) ++
      10 :: (crlfLines lines ++ 13 :: 10 :: rest)).length < fuel := by
    simp only [List.length_append, List.length_cons] at hfuel ⊢; omega
  rw [read_srt_loop_line _ _ _ h2 fuel hfuel2, dropCR_append_cr,
    read_srt_line_timing _ rfl _ _ hs he]
  simp only []
  have hfuel3 : (crlfLines lines ++ 13 :: 10 :: rest).length < fuel := by
    simp only [List.length_append, List.length_cons] at hfuel2 ⊢; omega
  rw [read_srt_loop_text rest acc lines hlines _ fuel hfuel3]
  congr 3
  cases sub
  simp only [newSubtitle, List.nil_append] at htext ⊢
  rw [htext]

theorem read_srt_write_srt_loop : ∀ (subs : List subtitle) (id : Int) (acc : List subtitle)
    (fuel : Nat), 0 ≤ id → id + subs.length < 2 ^ 63 → (∀ sub ∈ subs, WellFormed sub) →
    (write_srt_loop id subs).length < fuel →
    read_srt_loop fuel { state := 0, sub := newSubtitle, subs := acc } (write_srt_loop id subs) =
      .ok (acc ++ subs) := by
  intro subs
  induction subs with
  | nil =>
    intro id acc fuel _ _ _ hfuel
    obtain ⟨f, rfl⟩ : ∃ f, fuel = f + 1 := ⟨fuel - 1, by omega⟩
    rw [write_srt_loop, read_srt_loop_end _ rfl]
    simp
  | cons sub rest ih =>
    intro id acc fuel h0 h1 hwf hfuel
    simp only [List.length_cons, Nat.cast_add, Nat.cast_one] at h1
    have hw := write_srt_loop_cons id sub rest h0 (by omega)
    rw [hw] at hfuel ⊢
    rw [read_srt_loop_cue acc _ (by omega) sub (hwf sub (List.mem_cons_self _ _)) _ fuel hfuel]
    rw [ih (id + 1) (acc ++ [sub]) fuel (by omega) (by omega)
      (fun s hs => hwf s (List.mem_cons_of_mem _ hs))
      (by simp only [List.length_append] at hfuel ⊢; omega)]
    simp

theorem read_srt_write_srt_aux (subs : List subtitle) (hlen : subs.length < 2 ^ 63)
    (hwf : ∀ sub ∈ subs, WellFormed sub) : read_srt (write_srt subs) = .ok subs := by
  unfold read_srt write_srt
  rw [read_srt_write_srt_loop subs 0 [] _ le_rfl (by simpa using hlen) hwf (by omega)]
  simp

theorem crlfLines_append (a b : List (List Nat)) :
    crlfLines (a ++ b) = crlfLines a ++ crlfLines b := by
  induction a with
  | nil => rfl
  | cons l ls ih => simp [crlfLines, ih]

theorem IsCRLFLines_nil : IsCRLFLines [] := ⟨[], by simp, rfl⟩

theorem IsCRLFLines_append {a b : List Nat} (ha : IsCRLFLines a) (hb : IsCRLFLines b) :
    IsCRLFLines (a ++ b) := by
  obtain ⟨la, ha1, rfl⟩ := ha
  obtain ⟨lb, hb1, rfl⟩ := hb
  refine ⟨la ++ lb, ?_, (crlfLines_append la lb).symm⟩
  intro l hl
  rcases List.mem_append.mp hl with h | h
  · exact ha1 l h
  · exact hb1 l h

theorem IsCRLFLines_line {l : List Nat} (h : 10 ∉ l) : IsCRLFLines (l ++ [13, 10]) :=
  ⟨[l], by simpa using h, by simp [crlfLines]⟩

theorem write_srt_loop_eq_spec : ∀ (subs : List subtitle) (i : Nat), i + subs.length < 2 ^ 63 →
    write_srt_loop (i : Int) subs = srtBytesFrom (i + 1) subs := by
  intro subs
  induction subs with
  | nil => intro i _; rfl
  | cons sub rest ih =>
    intro i h
    simp only [List.length_cons] at h
    rw [write_srt_loop_cons _ _ _ (by omega) (by omega)]
    have e : ((i : Int) + 1) = ((i + 1 : Nat) : Int) := by simp
    have hn : ((i : Int) + 1).natAbs = i + 1 := by omega
    rw [hn, e, ih (i + 1) (by omega)]
    simp [srtBytesFrom, cueBytes]

theorem not_mem_fmtInt (i : Int) : 10 ∉ fmtInt i := by
  unfold fmtInt
  split
  · simp only [List.mem_cons, not_or]
    exact ⟨by decide, not_mem_numeral (fmtUint_numeral _) 10 (by decide)⟩
  · exact not_mem_numeral (fmtUint_numeral _) 10 (by decide)

theorem write_srt_loop_crlf : ∀ (subs : List subtitle) (id : Int),
    (∀ sub ∈ subs, IsCRLFLines sub.text) → IsCRLFLines (write_srt_loop id subs) := by
  intro subs
  induction subs with
  | nil => intro _ _; exact IsCRLFLines_nil
  | cons sub rest ih =>
    intro id h
    rw [write_srt_loop]
    have h2 : 10 ∉ msecs_to_time sub.start ++ ascii " --> " ++ msecs_to_time sub.end_ := by
      simp only [List.mem_append, not_or, ascii_arrow_sp]
      exact ⟨⟨not_mem_msecs_to_time _ 10 (by decide) (by decide) (by decide), by decide⟩,
        not_mem_msecs_to_time _ 10 (by decide) (by decide) (by decide)⟩
    exact IsCRLFLines_append (IsCRLFLines_append (IsCRLFLines_append
      (IsCRLFLines_line (not_mem_fmtInt _)) (IsCRLFLines_line h2))
      (IsCRLFLines_append (h sub (List.mem_cons_self _ _))
        (IsCRLFLines_line (List.not_mem_nil 10))))
      (ih _ (fun s hs => h s (List.mem_cons_of_mem _ hs)))

theorem not_mem_dropCR {l : List Nat} (h : 10 ∉ l) : 10 ∉ dropCR l := by
  unfold dropCR
  split
  · exact fun e => h (List.mem_of_mem_dropLast e)
  · exact h

theorem not_mem_takeWhile_nl (l : List Nat) : 10 ∉ l.takeWhile (fun b => b != 10) := by
  intro h
  have := List.mem_takeWhile_imp h
  simp at this

theorem ReadLine_no_nl (inp : List Nat) : 10 ∉ (ReadLine inp).line := by
  have key : ∀ w : List Nat, ¬ ((w.takeWhile (fun b => b != 10)).length < w.length) → 10 ∉ w := by
    intro w hw
    have h1 : (w.takeWhile (fun b => b != 10)).length = w.length :=
      le_antisymm (List.takeWhile_sublist _).length_le (not_lt.mp hw)
    have h2 : w.takeWhile (fun b => b != 10) = w :=
      (List.takeWhile_sublist _).eq_of_length h1
    rw [← h2]
    exact not_mem_takeWhile_nl w
  unfold ReadLine
  simp only []
  split
  · exact not_mem_dropCR (not_mem_takeWhile_nl _)
  · rename_i hw
    have hwin := key _ hw
    split
    · split
      · exact fun e => hwin (List.mem_of_mem_dropLast e)
      · exact hwin
    · rename_i hlen
      split
      · simp
      · rw [List.take_of_length_le (le_of_lt (not_le.mp hlen))] at hwin
        exact hwin

theorem readLn_no_nl : ∀ (fuel : Nat) (acc inp : List Nat), 10 ∉ acc →
    10 ∉ (readLn fuel acc inp).1 := by
  intro fuel
  induction fuel with
  | zero => intro acc inp h; exact h
  | succ f ih =>
    intro acc inp h
    have h2 : 10 ∉ acc ++ (ReadLine inp).line := by
      simp only [List.mem_append, not_or]
      exact ⟨h, ReadLine_no_nl inp⟩
    unfold readLn
    simp only []
    split
    · exact ih _ _ h2
    · exact h2

theorem read_srt_line_clean {st st1 : ReadState} {ln : List Nat} {eof stop : Bool}
    (hln : 10 ∉ ln) (hst : TextsClean st)
    (h : read_srt_line st ln eof = .ok (st1, stop)) : TextsClean st1 := by
  obtain ⟨hs1, hs2⟩ := hst
  unfold read_srt_line at h
  simp only [] at h
  split_ifs at h with h1 h2 h3 h4 h5 h6 h7
  · simp only [Except.ok.injEq, Prod.mk.injEq] at h
    rw [← h.1]; exact ⟨hs1, hs2⟩
  · split at h
    · exact absurd h (by simp)
    · simp only [Except.ok.injEq, Prod.mk.injEq] at h
      rw [← h.1]; exact ⟨hs1, hs2⟩
  · split at h
    · exact absurd h (by simp)
    · split at h
      · exact absurd h (by simp)
      · simp only [Except.ok.injEq, Prod.mk.injEq] at h
        rw [← h.1]; exact ⟨hs1, hs2⟩
  · simp only [Except.ok.injEq, Prod.mk.injEq] at h
    rw [← h.1]
    refine ⟨IsCRLFLines_nil, ?_⟩
    intro s hs
    rcases List.mem_append.mp hs with hs | hs
    · exact hs2 s hs
    · rw [List.mem_singleton.mp hs]; exact hs1
  · simp only [Except.ok.injEq, Prod.mk.injEq] at h
    rw [← h.1]
    refine ⟨?_, hs2⟩
    simp only [List.append_assoc]
    exact IsCRLFLines_append hs1 (IsCRLFLines_line hln)
  · simp only [Except.ok.injEq, Prod.mk.injEq] at h
    rw [← h.1]; exact ⟨hs1, hs2⟩

theorem read_srt_loop_clean : ∀ (fuel : Nat) (st : ReadState) (inp : List Nat)
    (subs : List subtitle), TextsClean st → read_srt_loop fuel st inp = .ok subs →
    ∀ s ∈ subs, IsCRLFLines s.text := by
  intro fuel
  induction fuel with
  | zero => intro st inp subs _ h; exact absurd h (by simp [read_srt_loop])
  | succ f ih =>
    intro st inp subs hst h
    rw [read_srt_loop] at h
    have hnl := readLn_no_nl (inp.length + 1) [] inp (List.not_mem_nil 10)
    rcases hrl : readLn (inp.length + 1) [] inp with ⟨ln, eof, rest⟩
    rw [hrl] at h hnl
    simp only [] at h hnl
    rcases hline : read_srt_line st ln eof with e | ⟨st1, stop⟩
    · rw [hline] at h; exact absurd h (by simp)
    · rw [hline] at h
      simp only [] at h
      have hc := read_srt_line_clean hnl hst hline
      cases stop with
      | true =>
        simp only [if_true, Except.ok.injEq] at h
        rw [← h]; exact hc.2
      | false =>
        simp only [Bool.false_eq_true, if_false] at h
        exact ih st1 rest subs hc h

theorem write_srt_read_srt_crlf (content : List Nat) (subs : List subtitle)
    (h : read_srt content = .ok subs) : IsCRLFLines (write_srt subs) :=
  write_srt_loop_crlf subs 0
    (read_srt_loop_clean _ _ _ subs ⟨IsCRLFLines_nil, by simp⟩ h)

/-- C3: parsing undoes serializing. For every document (fewer than `2 ^ 63` cues, times in the
range of `uint`) in which each cue's text is a possibly empty sequence of non-empty,
newline-free lines each followed by CRLF, `read_srt` applied to the bytes written by
`write_srt` returns the same cues in the same order, with the same text, start and end. -/
theorem read_srt_write_srt (subs : List subtitle) (hlen : subs.length < 2 ^ 63)
    (hwf : ∀ sub ∈ subs, WellFormed sub) : read_srt (write_srt subs) = .ok subs :=
  read_srt_write_srt_aux subs hlen hwf

/-- Witness for C3: a document of two cues, one with a line of text and one without text. -/
theorem read_srt_write_srt_witness :
    ([⟨ascii "Hello\r\n", 10000, 12000⟩, ⟨[], 100000, 102000⟩] : List subtitle).length < 2 ^ 63 ∧
    (∀ sub ∈ ([⟨ascii "Hello\r\n", 10000, 12000⟩, ⟨[], 100000, 102000⟩] : List subtitle),
      WellFormed sub) ∧
    read_srt (write_srt [⟨ascii "Hello\r\n", 10000, 12000⟩, ⟨[], 100000, 102000⟩]) =
      .ok [⟨ascii "Hello\r\n", 10000, 12000⟩, ⟨[], 100000, 102000⟩] := by
  have hwf : ∀ sub ∈ ([⟨ascii "Hello\r\n", 10000, 12000⟩, ⟨[], 100000, 102000⟩] : List subtitle),
      WellFormed sub := by
    intro sub hsub
    simp only [List.mem_cons, List.mem_singleton, List.not_mem_nil, or_false] at hsub
    rcases hsub with rfl | rfl
    · exact ⟨by decide, by decide, [ascii "Hello"], by decide, by decide⟩
    · exact ⟨by decide, by decide, [], by decide, by decide⟩
  exact ⟨by decide, hwf, read_srt_write_srt _ (by decide) hwf⟩

/-- C4: the bytes written by `write_srt` are the concatenation, over the cues in order with
`i = 1, 2, ...`, of the numeral of `i` and CRLF, the two times around `" --> "` and CRLF, the
stored text, and a blank line; and when the document was produced by `read_srt`, the output
consists of lines that end in CRLF and contain no other line feed. -/
theorem write_srt_format (subs : List subtitle) (hlen : subs.length < 2 ^ 63) :
    write_srt subs = srtBytes subs ∧
      ∀ content, read_srt content = .ok subs → IsCRLFLines (write_srt subs) := by
  refine ⟨?_, fun content h => write_srt_read_srt_crlf content subs h⟩
  have := write_srt_loop_eq_spec subs 0 (by simpa using hlen)
  simpa [write_srt, srtBytes] using this

/-- Witness for C4: the document parsed from a one-cue file with LF line ends. -/
theorem write_srt_format_witness :
    ([⟨ascii "Hi\r\n", 1000, 2000⟩] : List subtitle).length < 2 ^ 63 ∧
    read_srt (ascii "7\n00:00:01,000 --> 00:00:02,000\nHi\n") = .ok [⟨ascii "Hi\r\n", 1000, 2000⟩] ∧
    write_srt [⟨ascii "Hi\r\n", 1000, 2000⟩] = srtBytes [⟨ascii "Hi\r\n", 1000, 2000⟩] ∧
    IsCRLFLines (write_srt [⟨ascii "Hi\r\n", 1000, 2000⟩]) :=
  have h := write_srt_format [⟨ascii "Hi\r\n", 1000, 2000⟩] (by decide)
  ⟨by decide, by decide, h.1, h.2 (ascii "7\n00:00:01,000 --> 00:00:02,000\nHi\n") (by decide)⟩

set_option maxRecDepth 100000 in
/-- C5 (failing input): when the input ends, without a line terminator, after a body line of
exactly 4096 bytes, the inner loop of `read_srt` ends with the bytes of that line and with
`io.EOF`, and `read_srt` leaves its loop before it has appended the cue under construction: the
result is the empty document. The same input followed by a line terminator, or by a line
terminator and a blank line, yields the document with the cue. -/
theorem read_srt_drops_last_cue :
    read_srt (ascii "1\n00:00:01,000 --> 00:00:02,000\n" ++ List.replicate 4096 97) = .ok [] ∧
    read_srt (ascii "1\n00:00:01,000 --> 00:00:02,000\n" ++ List.replicate 4096 97 ++ [10]) =
      .ok [⟨List.replicate 4096 97 ++ [13, 10], 1000, 2000⟩] ∧
    read_srt (ascii "1\n00:00:01,000 --> 00:00:02,000\n" ++ List.replicate 4096 97 ++ [10, 10]) =
      .ok [⟨List.replicate 4096 97 ++ [13, 10], 1000, 2000⟩] := by
  refine ⟨?_, ?_, ?_⟩ <;> decide!

theorem Split_ne_nil (sep : Nat) (l : List Nat) : Split sep l ≠ [] := by
  induction l with
  | nil => simp [Split]
  | cons b l ih =>
    unfold Split
    split
    · simp
    · split <;> simp

theorem Split_length_of_mem (sep : Nat) (l : List Nat) (h : sep ∈ l) :
    2 ≤ (Split sep l).length := by
  induction l with
  | nil => exact absurd h (List.not_mem_nil _)
  | cons b l ih =>
    unfold Split
    by_cases hb : b = sep
    · rw [if_pos hb]
      have := List.length_pos.mpr (Split_ne_nil sep l)
      simp only [List.length_cons]
      omega
    · rw [if_neg hb]
      have hl : sep ∈ l := by
        rcases List.mem_cons.mp h with h | h
        · exact absurd h.symm hb
        · exact h
      have := ih hl
      split
      · rename_i e; rw [e] at this; simp at this
      · rename_i t ts e; rw [e] at this; simpa using this

theorem ParseUint_eq_some_iff (tok : List Nat) :
    (∃ v, ParseUint tok = some v) ↔ IsNumeral tok ∧ decVal tok < 2 ^ 64 := by
  unfold ParseUint IsNumeral
  constructor
  · rintro ⟨v, hv⟩
    split at hv
    · rename_i h
      exact ⟨⟨h.1, by simpa [List.all_eq_true] using h.2.1⟩, h.2.2⟩
    · exact absurd hv (by simp)
  · rintro ⟨⟨h1, h2⟩, h3⟩
    exact ⟨decVal tok, by rw [if_pos ⟨h1, by simpa [List.all_eq_true] using h2, h3⟩]⟩

theorem read_srt_loop_error (st : ReadState) (inp : List Nat) (fuel : Nat) (e : Err)
    (h : read_srt_line st (readLn (inp.length + 1) [] inp).1
      (readLn (inp.length + 1) [] inp).2.1 = .error e) :
    read_srt_loop (fuel + 1) st inp = .error e := by
  rw [read_srt_loop]
  rcases hrl : readLn (inp.length + 1) [] inp with ⟨ln, eof, rest⟩
  rw [hrl] at h
  simp only [] at h ⊢
  rw [h]

/-- A line that is not a numeral below `2 ^ 64` is rejected in state 0. -/
theorem read_srt_line_index_reject (st : ReadState) (h0 : st.state = 0) (ln : List Nat)
    (eof : Bool) (hne : ¬ (eof = true ∧ ln = []))
    (hbad : ¬ (IsNumeral ln ∧ decVal ln < 2 ^ 64)) :
    ∃ e, read_srt_line st ln eof = .error e ∧ (32 ∈ ln → e = .wrongFileFormat) := by
  have hne2 : ¬ (eof = true ∧ ln.length = 0) := by
    intro h; exact hne ⟨h.1, List.length_eq_zero.mp h.2⟩
  unfold read_srt_line
  rw [if_pos h0, if_neg hne2]
  simp only []
  by_cases hsp : 32 ∈ ln
  · have := Split_length_of_mem 32 ln hsp
    rw [if_pos (by omega)]
    exact ⟨_, rfl, fun _ => rfl⟩
  · rw [Split_of_not_mem 32 ln hsp]
    simp only [List.length_singleton, ne_eq, not_true_eq_false, if_false, List.getD_cons_zero]
    have hnone : ParseUint ln = none := by
      cases hp : ParseUint ln with
      | none => rfl
      | some v => exact absurd ((ParseUint_eq_some_iff ln).mp ⟨v, hp⟩) hbad
    rw [hnone]
    exact ⟨_, rfl, fun h => absurd h hsp⟩

/-- C9 (as stated, refuted): the line `18446744073709551616` is a single token and a
non-negative integer, yet it is rejected in the index state (it does not fit `uint`), and the
error returned for it, as for the non-numeric line `x`, is the one of `strconv.ParseUint`, not
the format error of `read_srt`. -/
theorem index_line_counterexample :
    IsNumeral (ascii "18446744073709551616") ∧ 32 ∉ ascii "18446744073709551616" ∧
    read_srt_line { state := 0, sub := newSubtitle, subs := [] }
      (ascii "18446744073709551616") false = .error (.numError (ascii "18446744073709551616")) ∧
    read_srt (ascii "18446744073709551616\n") =
      .error (.numError (ascii "18446744073709551616")) ∧
    read_srt (ascii "x\n") = .error (.numError (ascii "x")) ∧
    read_srt (ascii "x\n") ≠ .error .wrongFileFormat := by
  decide

/-- C9 (amended): in the index state a line is accepted, and the reader moves on to the timing
state, exactly when the line is a non-empty string of decimal digits whose value is below
`2 ^ 64` (an empty line met together with the end of input ends the loop instead and is
excluded here). Every other line makes `read_srt_line` fail, with the format error when the
line contains a space, and the failure is what the loop of `read_srt` returns. -/
theorem index_line_accepted_iff (st : ReadState) (h0 : st.state = 0) (ln : List Nat)
    (eof : Bool) (hne : ¬ (eof = true ∧ ln = [])) :
    (IsNumeral ln ∧ decVal ln < 2 ^ 64 →
      read_srt_line st ln eof = .ok ({ st with state := 1 }, false)) ∧
    (¬ (IsNumeral ln ∧ decVal ln < 2 ^ 64) →
      ∃ e, read_srt_line st ln eof = .error e ∧ (32 ∈ ln → e = .wrongFileFormat) ∧
        ∀ inp fuel, (readLn (inp.length + 1) [] inp).1 = ln →
          (readLn (inp.length + 1) [] inp).2.1 = eof →
          read_srt_loop (fuel + 1) st inp = .error e) := by
  refine ⟨fun h => read_srt_line_index st h0 ln h.1 h.2 eof, fun hbad => ?_⟩
  obtain ⟨e, he, hsp⟩ := read_srt_line_index_reject st h0 ln eof hne hbad
  refine ⟨e, he, hsp, ?_⟩
  intro inp fuel h1 h2
  exact read_srt_loop_error st inp fuel e (by rw [h1, h2]; exact he)

/-- Witness for C9 (amended): the index state, the line `1 2`, not at the end of input. -/
theorem index_line_accepted_iff_witness :
    (({ state := 0, sub := newSubtitle, subs := [] } : ReadState).state = 0 ∧
      ¬ (false = true ∧ ascii "1 2" = [])) ∧
    ¬ (IsNumeral (ascii "1 2") ∧ decVal (ascii "1 2") < 2 ^ 64) ∧
    ∃ e, read_srt_line { state := 0, sub := newSubtitle, subs := [] } (ascii "1 2") false =
        .error e ∧ (32 ∈ ascii "1 2" → e = .wrongFileFormat) ∧
      ∀ inp fuel, (readLn (inp.length + 1) [] inp).1 = ascii "1 2" →
        (readLn (inp.length + 1) [] inp).2.1 = false →
        read_srt_loop (fuel + 1) { state := 0, sub := newSubtitle, subs := [] } inp = .error e :=
  ⟨⟨rfl, by decide⟩, by decide,
    (index_line_accepted_iff { state := 0, sub := newSubtitle, subs := [] } rfl (ascii "1 2")
      false (by decide)).2 (by decide)⟩

theorem Split_eq_single {sep : Nat} : ∀ {l x : List Nat}, Split sep l = [x] → l = x ∧ sep ∉ x := by
  intro l
  induction l with
  | nil => intro x h; simp [Split] at h; subst h; simp
  | cons b l ih =>
    intro x h
    unfold Split at h
    by_cases hb : b = sep
    · rw [if_pos hb] at h
      simp only [List.cons.injEq] at h
      exact absurd h.2 (Split_ne_nil sep l)
    · rw [if_neg hb] at h
      split at h
      · rename_i e; exact absurd e (Split_ne_nil sep l)
      · rename_i t ts e
        simp only [List.cons.injEq] at h
        obtain ⟨rfl, rfl⟩ := h
        obtain ⟨rfl, hn⟩ := ih e
        refine ⟨rfl, ?_⟩
        simp only [List.mem_cons, not_or]
        exact ⟨fun e2 => hb e2.symm, hn⟩

theorem Split_eq_cons_cons {sep : Nat} : ∀ {l x y : List Nat} {rest : List (List Nat)},
    Split sep l = x :: y :: rest →
    ∃ l2, l = x ++ sep :: l2 ∧ sep ∉ x ∧ Split sep l2 = y :: rest := by
  intro l
  induction l with
  | nil => intro x y rest h; simp [Split] at h
  | cons b l ih =>
    intro x y rest h
    unfold Split at h
    by_cases hb : b = sep
    · rw [if_pos hb] at h
      simp only [List.cons.injEq] at h
      obtain ⟨rfl, h2⟩ := h
      exact ⟨l, by simp [hb], by simp, h2⟩
    · rw [if_neg hb] at h
      split at h
      · rename_i e; exact absurd e (Split_ne_nil sep l)
      · rename_i t ts e
        simp only [List.cons.injEq] at h
        obtain ⟨rfl, rfl⟩ := h
        obtain ⟨l2, rfl, hn, h3⟩ := ih e
        refine ⟨l2, by simp, ?_, h3⟩
        simp only [List.mem_cons, not_or]
        exact ⟨fun e2 => hb e2.symm, hn⟩

/-- The lines that `strings.Split(ln, " ")` cuts into exactly three pieces. -/
theorem Split_eq_three {ln a m b : List Nat} (h : Split 32 ln = [a, m, b]) :
    ln = a ++ 32 :: (m ++ 32 :: b) ∧ 32 ∉ a ∧ 32 ∉ b := by
  obtain ⟨l2, rfl, ha, h2⟩ := Split_eq_cons_cons h
  obtain ⟨l3, rfl, _, h3⟩ := Split_eq_cons_cons h2
  obtain ⟨rfl, hb⟩ := Split_eq_single h3
  exact ⟨rfl, ha, hb⟩

theorem Split_three (a b : List Nat) (ha : 32 ∉ a) (hb : 32 ∉ b) :
    Split 32 (a ++ ascii " --> " ++ b) = [a, ascii "-->", b] := by
  have e : a ++ ascii " --> " ++ b = a ++ 32 :: (ascii "-->" ++ 32 :: b) := by
    rw [ascii_arrow, ascii_arrow_sp]; simp
  rw [e, Split_append 32 _ _ ha, Split_append 32 (ascii "-->") _ (by rw [ascii_arrow]; decide),
    Split_of_not_mem 32 _ hb]

/-- A timing line of the right shape is accepted in state 1. -/
theorem read_srt_line_timing_ok (st : ReadState) (h1 : st.state = 1) (a b : List Nat)
    (ha : 32 ∉ a) (hb : 32 ∉ b) (s e : Nat) (hs : time_to_msecs a = .ok s)
    (he : time_to_msecs b = .ok e) (eof : Bool) :
    read_srt_line st (a ++ ascii " --> " ++ b) eof =
      .ok ({ st with state := 2, sub := { st.sub with start := s, end_ := e } }, false) := by
  unfold read_srt_line
  have h0 : st.state ≠ 0 := by omega
  rw [if_neg h0, if_pos h1]
  simp only [Split_three a b ha hb, List.getD_cons_zero, List.getD_cons_succ, List.length_cons,
    List.length_nil, hs, he]
  rw [if_neg (by simp)]

/-- Every other line is rejected in state 1. -/
theorem read_srt_line_timing_reject (st : ReadState) (h1 : st.state = 1) (ln : List Nat)
    (eof : Bool)
    (hbad : ¬ ∃ a b s e, ln = a ++ ascii " --> " ++ b ∧ 32 ∉ a ∧ 32 ∉ b ∧
      time_to_msecs a = .ok s ∧ time_to_msecs b = .ok e) :
    ∃ err, read_srt_line st ln eof = .error err := by
  unfold read_srt_line
  have h0 : st.state ≠ 0 := by omega
  rw [if_neg h0, if_pos h1]
  simp only []
  by_cases hshape : (Split 32 ln).length ≠ 3 ∨ (Split 32 ln).getD 1 [] ≠ ascii "-->"
  · rw [if_pos hshape]; exact ⟨_, rfl⟩
  · rw [if_neg hshape]
    simp only [not_or, not_not] at hshape
    obtain ⟨hlen, hmid⟩ := hshape
    obtain ⟨a, m, b, hsplit⟩ : ∃ a m b, Split 32 ln = [a, m, b] := by
      match hS : Split 32 ln, hlen with
      | [a, m, b], _ => exact ⟨a, m, b, rfl⟩
    rw [hsplit] at hmid ⊢
    simp only [List.getD_cons_zero, List.getD_cons_succ] at hmid ⊢
    subst hmid
    obtain ⟨hln, ha, hb⟩ := Split_eq_three hsplit
    cases hs : time_to_msecs a with
    | error e1 => exact ⟨_, rfl⟩
    | ok s =>
      cases he : time_to_msecs b with
      | error e2 => exact ⟨_, rfl⟩
      | ok e =>
        exfalso
        apply hbad
        refine ⟨a, b, s, e, ?_, ha, hb, hs, he⟩
        rw [hln, ascii_arrow, ascii_arrow_sp]; simp

theorem read_srt_line_timing_empty (st : ReadState) (h1 : st.state = 1) (eof : Bool) :
    read_srt_line st [] eof = .error .wrongFileFormat := by
  unfold read_srt_line
  have h0 : st.state ≠ 0 := by omega
  rw [if_neg h0, if_pos h1]
  simp [Split]

theorem dropCR_numeral {ds : List Nat} (hd : IsNumeral ds) : dropCR ds = ds := by
  unfold dropCR
  rw [if_neg]
  intro h
  have hm : (13 : Nat) ∈ ds := List.mem_of_getLast?_eq_some h
  exact not_mem_numeral hd 13 (by decide) hm

/-- The end of input right after a terminated index line: the format error. -/
theorem read_srt_index_then_eof (ds : List Nat) (hd : IsNumeral ds) (hv : decVal ds < 2 ^ 64) :
    read_srt (ds ++ [10]) = .error .wrongFileFormat := by
  unfold read_srt
  rw [read_srt_loop_line _ ds [] (not_mem_numeral hd 10 (by decide)) _ (by simp),
    dropCR_numeral hd, read_srt_line_index _ rfl ds hd hv]
  simp only [List.length_append, List.length_singleton]
  exact read_srt_loop_error _ [] _ _ (by
    simp only [List.length_nil, readLn_nil]
    exact read_srt_line_timing_empty _ rfl true)

/-- The inner loop of `read_srt` assembles a last line that has no line terminator, whatever
its length. -/
theorem readLn_final : ∀ (n : Nat) (content : List Nat), content.length = n →
    10 ∉ content → ∀ fuel acc, content.length < fuel →
    ∃ eof, readLn fuel acc content = (acc ++ content, eof, []) := by
  intro n
  induction n using Nat.strong_induction_on with
  | _ n ih =>
    intro content hn h fuel acc hfuel
    have hB : defaultBufSize = 4096 := rfl
    obtain ⟨f, rfl⟩ : ∃ f, fuel = f + 1 := ⟨fuel - 1, by omega⟩
    by_cases hnil : content = []
    · subst hnil
      exact ⟨true, by rw [readLn_nil, List.append_nil]⟩
    by_cases hshort : content.length < defaultBufSize
    · exact ⟨false, readLn_last content hnil hshort h f acc⟩
    · have hlen : defaultBufSize ≤ content.length := not_lt.mp hshort
      have hno : 10 ∉ content.take defaultBufSize := fun e => h (List.mem_of_mem_take e)
      have hfull := ReadLine_full content hlen hno
      unfold readLn
      by_cases hcr : (content.take defaultBufSize).getLast? = some 13
      · rw [if_pos hcr] at hfull
        simp only [hfull, Bool.not_false, Bool.and_self, if_true]
        have hdl : (content.take defaultBufSize).dropLast = content.take (defaultBufSize - 1) := by
          simp only [List.dropLast_eq_take, List.length_take, Nat.min_eq_left hlen, List.take_take]
          congr 1
        rw [hdl]
        obtain ⟨eof, he⟩ := ih (content.drop (defaultBufSize - 1)).length (by simp; omega) _ rfl
          (fun e => h (List.mem_of_mem_drop e)) f (acc ++ content.take (defaultBufSize - 1))
          (by simp; omega)
        refine ⟨eof, ?_⟩
        rw [he, List.append_assoc, List.take_append_drop]
      · rw [if_neg hcr] at hfull
        simp only [hfull, Bool.not_false, Bool.and_self, if_true]
        obtain ⟨eof, he⟩ := ih (content.drop defaultBufSize).length (by simp; omega) _ rfl
          (fun e => h (List.mem_of_mem_drop e)) f (acc ++ content.take defaultBufSize)
          (by simp; omega)
        refine ⟨eof, ?_⟩
        rw [he, List.append_assoc, List.take_append_drop]

/-- The end of input right after an index line without a line terminator: the format
error. -/
theorem read_srt_index_at_eof (ds : List Nat) (hd : IsNumeral ds) (hv : decVal ds < 2 ^ 64) :
    read_srt ds = .error .wrongFileFormat := by
  unfold read_srt
  obtain ⟨eof, he⟩ := readLn_final ds.length ds rfl (not_mem_numeral hd 10 (by decide))
    (ds.length + 1) [] (by omega)
  rw [read_srt_loop, he]
  simp only [List.nil_append]
  rw [read_srt_line_index _ rfl ds hd hv]
  simp only [Bool.false_eq_true, if_false]
  have hpos : 0 < ds.length := List.length_pos.mpr hd.1
  obtain ⟨g, hg⟩ : ∃ g, ds.length = g + 1 := ⟨ds.length - 1, by omega⟩
  rw [hg]
  exact read_srt_loop_error _ [] _ _ (by
    simp only [List.length_nil, readLn_nil]
    exact read_srt_line_timing_empty _ rfl true)

/-- C10 (as stated, refuted): the timing-state line `1:2:3,4<TAB>x --> 1:2:3,5` has four
white-space-delimited tokens and is accepted (the reader splits at the space byte only and
the scan of a time ignores trailing text). -/
theorem timing_line_counterexample :
    Fields (ascii "1:2:3,4\tx --> 1:2:3,5") =
      [ascii "1:2:3,4", ascii "x", ascii "-->", ascii "1:2:3,5"] ∧
    read_srt_line { state := 1, sub := newSubtitle, subs := [] }
        (ascii "1:2:3,4\tx --> 1:2:3,5") false =
      .ok ({ state := 2, sub := { text := [], start := 3723004, end_ := 3723005 }, subs := [] },
        false) ∧
    read_srt (ascii "1\n1:2:3,4\tx --> 1:2:3,5\n") =
      .ok [{ text := [], start := 3723004, end_ := 3723005 }] := by
  refine ⟨by decide, by decide, by decide⟩

/-- C10 (amended): in the timing state a line is accepted, and the reader moves on to the text
state with the two decoded times, exactly when it has the form `a ++ " --> " ++ b` where `a`
and `b` contain no space byte and are both decoded successfully by `time_to_msecs`. Every
other line, `00:00:01,000 -> 00:00:02,000` among them, makes `read_srt_line` fail and the
failure is what the loop of `read_srt` returns; the end of input right after an index line,
with or without its line terminator, gives the format error. -/
theorem timing_line_accepted_iff (st : ReadState) (h1 : st.state = 1) (ln : List Nat)
    (eof : Bool) :
    (∀ a b s e, ln = a ++ ascii " --> " ++ b → 32 ∉ a → 32 ∉ b →
      time_to_msecs a = .ok s → time_to_msecs b = .ok e →
      read_srt_line st ln eof =
        .ok ({ st with state := 2, sub := { st.sub with start := s, end_ := e } }, false)) ∧
    ((¬ ∃ a b s e, ln = a ++ ascii " --> " ++ b ∧ 32 ∉ a ∧ 32 ∉ b ∧
        time_to_msecs a = .ok s ∧ time_to_msecs b = .ok e) →
      ∃ err, read_srt_line st ln eof = .error err ∧
        ∀ inp fuel, (readLn (inp.length + 1) [] inp).1 = ln →
          (readLn (inp.length + 1) [] inp).2.1 = eof →
          read_srt_loop (fuel + 1) st inp = .error err) ∧
    read_srt (ascii "1\n00:00:01,000 -> 00:00:02,000\n") = .error .wrongFileFormat ∧
    (∀ ds, IsNumeral ds → decVal ds < 2 ^ 64 →
      read_srt ds = .error .wrongFileFormat ∧
      read_srt (ds ++ [10]) = .error .wrongFileFormat) := by
  refine ⟨?_, ?_, by decide, fun ds hd hv =>
    ⟨read_srt_index_at_eof ds hd hv, read_srt_index_then_eof ds hd hv⟩⟩
  · intro a b s e hln ha hb hs he
    rw [hln]
    exact read_srt_line_timing_ok st h1 a b ha hb s e hs he eof
  · intro hbad
    obtain ⟨err, herr⟩ := read_srt_line_timing_reject st h1 ln eof hbad
    refine ⟨err, herr, ?_⟩
    intro inp fuel e1 e2
    exact read_srt_loop_error st inp fuel err (by rw [e1, e2]; exact herr)

/-- Witness for C10 (amended): the timing state and the line `00:00:01,000 --> 00:00:02,000`. -/
theorem timing_line_accepted_iff_witness :
    ({ state := 1, sub := newSubtitle, subs := [] } : ReadState).state = 1 ∧
    read_srt_line { state := 1, sub := newSubtitle, subs := [] }
        (ascii "00:00:01,000 --> 00:00:02,000") false =
      .ok ({ state := 2, sub := { text := [], start := 1000, end_ := 2000 }, subs := [] },
        false) :=
  ⟨rfl, (timing_line_accepted_iff { state := 1, sub := newSubtitle, subs := [] } rfl
      (ascii "00:00:01,000 --> 00:00:02,000") false).1
    (ascii "00:00:01,000") (ascii "00:00:02,000") 1000 2000
    (by decide) (by decide) (by decide) (by decide) (by decide)⟩

theorem isSpace_iff (r : Nat) : isSpace r = true ↔
    (9 ≤ r ∧ r ≤ 13) ∨ r = 0x20 ∨ r = 0x85 ∨ r = 0xa0 ∨ r = 0x1680 ∨
      (0x2000 ≤ r ∧ r ≤ 0x200a) ∨ r = 0x2028 ∨ r = 0x2029 ∨ r = 0x202f ∨ r = 0x205f ∨
      r = 0x3000 := by
  simp only [isSpace, Bool.or_eq_true, Bool.and_eq_true, decide_eq_true_eq, beq_iff_eq]
  tauto

/-- Decoding undoes encoding, for white-space runes. -/
theorem decodeRune_encodeRune {r : Nat} (hr : isSpace r = true) (x : List Nat) :
    decodeRune (encodeRune r ++ x) = some (r, x) := by
  rw [isSpace_iff] at hr
  unfold encodeRune
  by_cases h1 : r < 0x80
  · rw [if_pos h1]
    simp [decodeRune, h1]
  · rw [if_neg h1]
    by_cases h2 : r < 0x800
    · rw [if_pos h2]
      have hb0 : ¬ (0xC0 + r / 64 < 0x80) := by omega
      have hb1 : 0xC2 ≤ 0xC0 + r / 64 ∧ 0xC0 + r / 64 ≤ 0xDF := by omega
      have hc : isCont (0x80 + r % 64) = true := by
        simp only [isCont, Bool.and_eq_true, decide_eq_true_eq]; omega
      have hv : (0xC0 + r / 64) % 32 * 64 + (0x80 + r % 64) % 64 = r := by omega
      simp [decodeRune, hb0, hb1.1, hb1.2, hc]
      omega
    · rw [if_neg h2]
      have h3 : r < 0x10000 := by omega
      rw [if_pos h3]
      have hb0 : ¬ (0xE0 + r / 4096 < 0x80) := by omega
      have hb1 : ¬ (0xC2 ≤ 0xE0 + r / 4096 ∧ 0xE0 + r / 4096 ≤ 0xDF) := by omega
      have hb2 : 0xE0 ≤ 0xE0 + r / 4096 ∧ 0xE0 + r / 4096 ≤ 0xEF := by omega
      have hE0 : 0xE0 + r / 4096 ≠ 0xE0 := by omega
      have hED : 0xE0 + r / 4096 ≠ 0xED := by omega
      have hc1 : 0x80 ≤ 0x80 + r / 64 % 64 ∧ 0x80 + r / 64 % 64 ≤ 0xBF := by omega
      have hc2 : isCont (0x80 + r % 64) = true := by
        simp only [isCont, Bool.and_eq_true, decide_eq_true_eq]; omega
      have hv : (0xE0 + r / 4096) % 16 * 4096 + (0x80 + r / 64 % 64) % 64 * 64 +
          (0x80 + r % 64) % 64 = r := by omega
      simp [decodeRune, hb0, hb1, hb2.1, hb2.2, hE0, hED, hc1.1, hc1.2, hc2]
      omega

theorem decodeRune_ne_space {s rest : List Nat} {r : Nat} (h : some (RuneError, s) = some (r, rest))
    (hr : isSpace r = true) : False := by
  simp only [Option.some.injEq, Prod.mk.injEq] at h
  rw [← h.1] at hr
  exact absurd hr (by decide)

/-- A decoded white-space rune was read from its encoding. -/
theorem decodeRune_space_inv {s rest : List Nat} {r : Nat} (h : decodeRune s = some (r, rest))
    (hr : isSpace r = true) : s = encodeRune r ++ rest := by
  have hlt : r < 0x10000 := by
    have hr2 := (isSpace_iff r).mp hr
    omega
  cases s with
  | nil => simp [decodeRune] at h
  | cons b0 t =>
    by_cases h1 : b0 < 0x80
    · rw [decodeRune_lt h1] at h
      simp only [Option.some.injEq, Prod.mk.injEq] at h
      obtain ⟨rfl, rfl⟩ := h
      simp [encodeRune, h1]
    · by_cases h2 : 0xC2 ≤ b0 ∧ b0 ≤ 0xDF
      · have c2 : (decide (0xC2 ≤ b0) && decide (b0 ≤ 0xDF)) = true := by simp [h2]
        rcases t with _ | ⟨b1, r1⟩
        · simp only [decodeRune, h1, c2, if_false, if_true] at h
          exact (decodeRune_ne_space h hr).elim
        · simp only [decodeRune, h1, c2, if_false, if_true] at h
          split_ifs at h with hc
          · simp only [Option.some.injEq, Prod.mk.injEq] at h
            obtain ⟨rfl, rfl⟩ := h
            clear hr hlt
            simp only [isCont, Bool.and_eq_true, decide_eq_true_eq] at hc
            unfold encodeRune
            rw [if_neg (by omega), if_pos (by omega)]
            simp only [List.cons_append, List.nil_append, List.cons.injEq, and_true]
            omega
          · exact (decodeRune_ne_space h hr).elim
      · have c2 : (decide (0xC2 ≤ b0) && decide (b0 ≤ 0xDF)) = false := by
          simp only [Bool.and_eq_false_iff, decide_eq_false_iff_not]; omega
        by_cases h3 : 0xE0 ≤ b0 ∧ b0 ≤ 0xEF
        · have c3 : (decide (0xE0 ≤ b0) && decide (b0 ≤ 0xEF)) = true := by simp [h3]
          rcases t with _ | ⟨b1, _ | ⟨b2, r2⟩⟩
          · simp only [decodeRune, h1, c2, c3, if_false, if_true, Bool.false_eq_true] at h
            exact (decodeRune_ne_space h hr).elim
          · simp only [decodeRune, h1, c2, c3, if_false, if_true, Bool.false_eq_true] at h
            exact (decodeRune_ne_space h hr).elim
          · simp only [decodeRune, h1, c2, c3, if_false, if_true, Bool.false_eq_true] at h
            split_ifs at h <;>
              first
              | exact (decodeRune_ne_space h hr).elim
              | (simp only [Option.some.injEq, Prod.mk.injEq] at h
                 obtain ⟨rfl, rfl⟩ := h
                 clear hr hlt
                 simp only [isCont, Bool.and_eq_true, decide_eq_true_eq] at *
                 unfold encodeRune
                 rw [if_neg (by omega), if_neg (by omega), if_pos (by omega)]
                 simp only [List.cons_append, List.nil_append, List.cons.injEq, and_true]
                 omega)
        · have c3 : (decide (0xE0 ≤ b0) && decide (b0 ≤ 0xEF)) = false := by
            simp only [Bool.and_eq_false_iff, decide_eq_false_iff_not]; omega
          by_cases h4 : 0xF0 ≤ b0 ∧ b0 ≤ 0xF4
          · have c4 : (decide (0xF0 ≤ b0) && decide (b0 ≤ 0xF4)) = true := by simp [h4]
            rcases t with _ | ⟨b1, _ | ⟨b2, _ | ⟨b3, r3⟩⟩⟩ <;>
              simp only [decodeRune, h1, c2, c3, c4, if_false, if_true, Bool.false_eq_true] at h
            · exact (decodeRune_ne_space h hr).elim
            · exact (decodeRune_ne_space h hr).elim
            · exact (decodeRune_ne_space h hr).elim
            · split_ifs at h <;>
                first
                | exact (decodeRune_ne_space h hr).elim
                | (exfalso
                   simp only [Option.some.injEq, Prod.mk.injEq] at h
                   obtain ⟨rfl, rfl⟩ := h
                   clear hr
                   simp only [isCont, Bool.and_eq_true, decide_eq_true_eq] at *
                   omega)
          · have c4 : (decide (0xF0 ≤ b0) && decide (b0 ≤ 0xF4)) = false := by
              simp only [Bool.and_eq_false_iff, decide_eq_false_iff_not]; omega
            simp only [decodeRune, h1, c2, c3, c4, if_false, Bool.false_eq_true] at h
            exact (decodeRune_ne_space h hr).elim

theorem skipSpaceLoop_succ (fuel : Nat) (s : List Nat) :
    skipSpaceLoop (fuel + 1) s =
      match decodeRune s with
      | none => some s
      | some (r, rest) =>
        if r = 10 then none else if isSpace r = true then skipSpaceLoop fuel rest else some s := by
  rw [skipSpaceLoop]
  rcases decodeRune s with _ | ⟨r, rest⟩
  · rfl
  · simp only []
    by_cases h13 : r = 13 ∧ Option.map Prod.fst (decodeRune rest) = some 10
    · rw [if_pos h13]
      have h1 : r ≠ 10 := by omega
      have h2 : isSpace r = true := by rw [h13.1]; decide
      rw [if_neg h1, if_pos h2]
    · rw [if_neg h13]
      by_cases h10 : r = 10
      · rw [if_pos h10, if_pos h10]
      · rw [if_neg h10, if_neg h10]
        cases hsp : isSpace r <;> simp

theorem encodeRune_length_pos (r : Nat) : 0 < (encodeRune r).length := by
  unfold encodeRune
  split_ifs <;> simp

theorem encodeRunes_length (rs : List Nat) : rs.length ≤ (encodeRunes rs).length := by
  induction rs with
  | nil => simp [encodeRunes]
  | cons r rs ih =>
    have := encodeRune_length_pos r
    simp only [encodeRunes, List.length_cons, List.length_append]
    omega

/-- White space in front of a digit is skipped. -/
theorem skipSpaceLoop_blank (d : Nat) (hd : isDigit d = true) (y : List Nat) :
    ∀ (rs : List Nat), (∀ r ∈ rs, isSpace r = true ∧ r ≠ 10) → ∀ fuel, rs.length ≤ fuel →
    skipSpaceLoop fuel (encodeRunes rs ++ d :: y) = some (d :: y) := by
  intro rs
  induction rs with
  | nil => intro _ fuel _; exact skipSpaceLoop_digit hd fuel y
  | cons r rs ih =>
    intro hrs fuel hfuel
    obtain ⟨f, rfl⟩ : ∃ f, fuel = f + 1 := ⟨fuel - 1, by simp at hfuel; omega⟩
    obtain ⟨hsp, h10⟩ := hrs r (List.mem_cons_self _ _)
    rw [skipSpaceLoop_succ]
    simp only [encodeRunes, List.append_assoc, decodeRune_encodeRune hsp]
    rw [if_neg h10, if_pos hsp]
    exact ih (fun x hx => hrs x (List.mem_cons_of_mem _ hx)) f (by simp at hfuel; omega)

/-- What the skipping loop consumed is white space. -/
theorem skipSpaceLoop_some : ∀ (fuel : Nat) (s s1 : List Nat), skipSpaceLoop fuel s = some s1 →
    ∃ rs, (∀ r ∈ rs, isSpace r = true ∧ r ≠ 10) ∧ s = encodeRunes rs ++ s1 := by
  intro fuel
  induction fuel with
  | zero =>
    intro s s1 h
    simp only [skipSpaceLoop, Option.some.injEq] at h
    exact ⟨[], by simp, by simp [encodeRunes, h]⟩
  | succ f ih =>
    intro s s1 h
    rw [skipSpaceLoop_succ] at h
    rcases hdec : decodeRune s with _ | ⟨r, rest⟩
    · rw [hdec] at h
      simp only [Option.some.injEq] at h
      exact ⟨[], by simp, by simp [encodeRunes, h]⟩
    · rw [hdec] at h
      simp only [] at h
      by_cases h10 : r = 10
      · rw [if_pos h10] at h; exact absurd h (by simp)
      · rw [if_neg h10] at h
        by_cases hsp : isSpace r = true
        · rw [if_pos hsp] at h
          obtain ⟨rs, hrs, hrest⟩ := ih rest s1 h
          refine ⟨r :: rs, ?_, ?_⟩
          · intro x hx
            rcases List.mem_cons.mp hx with rfl | hx
            · exact ⟨hsp, h10⟩
            · exact hrs x hx
          · rw [decodeRune_space_inv hdec hsp, hrest]
            simp [encodeRunes]
        · rw [if_neg hsp] at h
          simp only [Option.some.injEq] at h
          exact ⟨[], by simp, by simp [encodeRunes, h]⟩

theorem scanUint_blank_numeral {w d : List Nat} (hw : IsBlank w) (hd : IsNumeral d)
    (hv : decVal d < 2 ^ 64) (rest : List Nat) (hrest : ∀ b ∈ rest.head?, isNumberByte b = false) :
    scanUint (w ++ d ++ rest) = some (decVal d, rest) := by
  obtain ⟨rs, hrs, rfl⟩ := hw
  obtain ⟨hne, hall⟩ := hd
  cases d with
  | nil => exact absurd rfl hne
  | cons d0 ds =>
    have hd0 : isDigit d0 = true := hall d0 (List.mem_cons_self _ _)
    have hskip : SkipSpace (encodeRunes rs ++ (d0 :: ds) ++ rest) = some ((d0 :: ds) ++ rest) := by
      unfold SkipSpace
      rw [List.append_assoc, List.cons_append]
      apply skipSpaceLoop_blank d0 hd0 _ rs hrs
      have := encodeRunes_length rs
      simp only [List.length_append, List.length_cons]
      omega
    have htd : ((d0 :: ds) ++ rest).takeWhile isNumberByte = d0 :: ds ∧
        ((d0 :: ds) ++ rest).dropWhile isNumberByte = rest := by
      cases rest with
      | nil =>
        rw [List.append_nil]
        exact takeWhile_all _ (fun b hb => isNumberByte_of_isDigit (hall b hb))
      | cons c rest2 =>
        exact takeWhile_append_stop _ c rest2
          (fun b hb => isNumberByte_of_isDigit (hall b hb)) (hrest c (by simp))
    unfold scanUint
    rw [hskip]
    simp only [htd.1, htd.2, ParseUint_numeral ⟨hne, hall⟩ hv, intBits]
    rw [if_pos hv]

theorem scanUint_some {s rest : List Nat} {v : Nat} (h : scanUint s = some (v, rest)) :
    ∃ w d, IsBlank w ∧ IsNumeral d ∧ decVal d = v ∧ v < 2 ^ 64 ∧ s = w ++ d ++ rest ∧
      ∀ b ∈ rest.head?, isNumberByte b = false := by
  unfold scanUint at h
  rcases hskip : SkipSpace s with _ | s1
  · rw [hskip] at h; exact absurd h (by simp)
  · rw [hskip] at h
    simp only [] at h
    rcases hp : ParseUint (s1.takeWhile isNumberByte) with _ | v2
    · rw [hp] at h; exact absurd h (by simp)
    · rw [hp] at h
      simp only [] at h
      split_ifs at h with hlt
      simp only [Option.some.injEq, Prod.mk.injEq] at h
      obtain ⟨rfl, rfl⟩ := h
      obtain ⟨rs, hrs, hs⟩ := skipSpaceLoop_some _ _ _ hskip
      have hnum := (ParseUint_eq_some_iff _).mp ⟨v2, hp⟩
      have hval : decVal (s1.takeWhile isNumberByte) = v2 := by
        unfold ParseUint at hp
        split_ifs at hp
        simpa using hp
      refine ⟨encodeRunes rs, s1.takeWhile isNumberByte, ⟨rs, hrs, rfl⟩, hnum.1, hval,
        by rw [← hval]; exact hnum.2, ?_, ?_⟩
      · rw [List.append_assoc, List.takeWhile_append_dropWhile]
        exact hs
      · intro b hb
        have := List.head?_dropWhile_not isNumberByte s1
        rw [Option.mem_def] at hb
        rw [hb] at this
        simpa using this

theorem expectByte_some {c : Nat} {s rest : List Nat} :
    expectByte c s = some rest ↔ s = c :: rest := by
  cases s with
  | nil => simp [expectByte]
  | cons b t =>
    simp only [expectByte]
    split_ifs with h
    · subst h; simp
    · simp only [List.cons.injEq, false_iff, not_and]
      intro e; exact absurd e h

theorem IsFourFields_bytes {t : List Nat} (ht : IsFourFields t) :
    ∀ b ∈ t, isDigit b = true ∨ b = 58 ∨ b = 44 := by
  obtain ⟨h, m, s, f, hh, hm, hs, hf, rfl⟩ := ht
  intro b hb
  simp only [List.mem_append, List.mem_cons] at hb
  rcases hb with hb | hb | hb | hb | hb | hb | hb
  · exact Or.inl (hh.2 b hb)
  · exact Or.inr (Or.inl hb)
  · exact Or.inl (hm.2 b hb)
  · exact Or.inr (Or.inl hb)
  · exact Or.inl (hs.2 b hb)
  · exact Or.inr (Or.inr hb)
  · exact Or.inl (hf.2 b hb)

theorem Sscanf4_some {t : List Nat} {r : Nat × Nat × Nat × Nat} (h : Sscanf4 t = some r) :
    IsScannedTime t := by
  unfold Sscanf4 at h
  rcases h1 : scanUint t with _ | ⟨v1, s1⟩
  · rw [h1] at h; exact absurd h (by simp)
  rw [h1] at h; simp only [] at h
  rcases e1 : expectByte 58 s1 with _ | s2
  · rw [e1] at h; exact absurd h (by simp)
  rw [e1] at h; simp only [] at h
  rcases h2 : scanUint s2 with _ | ⟨v2, s3⟩
  · rw [h2] at h; exact absurd h (by simp)
  rw [h2] at h; simp only [] at h
  rcases e2 : expectByte 58 s3 with _ | s4
  · rw [e2] at h; exact absurd h (by simp)
  rw [e2] at h; simp only [] at h
  rcases h3 : scanUint s4 with _ | ⟨v3, s5⟩
  · rw [h3] at h; exact absurd h (by simp)
  rw [h3] at h; simp only [] at h
  rcases e3 : expectByte 44 s5 with _ | s6
  · rw [e3] at h; exact absurd h (by simp)
  rw [e3] at h; simp only [] at h
  rcases h4 : scanUint s6 with _ | ⟨v4, s7⟩
  · rw [h4] at h; exact absurd h (by simp)
  obtain ⟨w1, d1, hw1, hd1, hv1, hl1, rfl, _⟩ := scanUint_some h1
  obtain ⟨w2, d2, hw2, hd2, hv2, hl2, rfl, _⟩ := scanUint_some h2
  obtain ⟨w3, d3, hw3, hd3, hv3, hl3, rfl, _⟩ := scanUint_some h3
  obtain ⟨w4, d4, hw4, hd4, hv4, hl4, rfl, ht⟩ := scanUint_some h4
  rw [expectByte_some.mp e1, expectByte_some.mp e2, expectByte_some.mp e3]
  exact ⟨w1, d1, w2, d2, w3, d3, w4, d4, s7, rfl, ⟨hw1, hw2, hw3, hw4⟩, ⟨hd1, hd2, hd3, hd4⟩,
    ⟨by rw [hv1]; exact hl1, by rw [hv2]; exact hl2, by rw [hv3]; exact hl3,
      by rw [hv4]; exact hl4⟩, ht⟩

theorem Sscanf4_of_scanned {t : List Nat} (h : IsScannedTime t) :
    ∃ r, Sscanf4 t = some r := by
  obtain ⟨w1, d1, w2, d2, w3, d3, w4, d4, tail, rfl, ⟨hw1, hw2, hw3, hw4⟩,
    ⟨hd1, hd2, hd3, hd4⟩, ⟨hv1, hv2, hv3, hv4⟩, ht⟩ := h
  refine ⟨(decVal d1, decVal d2, decVal d3, decVal d4), ?_⟩
  unfold Sscanf4
  rw [scanUint_blank_numeral hw1 hd1 hv1 _ (by intro b hb; simp at hb; subst hb; decide)]
  simp only [expectByte, if_true]
  rw [scanUint_blank_numeral hw2 hd2 hv2 _ (by intro b hb; simp at hb; subst hb; decide)]
  simp only [expectByte, if_true]
  rw [scanUint_blank_numeral hw3 hd3 hv3 _ (by intro b hb; simp at hb; subst hb; decide)]
  simp only [expectByte, if_true]
  rw [scanUint_blank_numeral hw4 hd4 hv4 _ ht]

theorem time_to_msecs_ok_iff (tm : List Nat) :
    (∃ ms, time_to_msecs tm = .ok ms) ↔ IsScannedTime (replaceFirstDot tm) := by
  unfold time_to_msecs
  simp only []
  constructor
  · rintro ⟨ms, h⟩
    rcases hs : Sscanf4 (replaceFirstDot tm) with _ | r
    · rw [hs] at h; exact absurd h (by simp)
    · exact Sscanf4_some hs
  · intro h
    obtain ⟨⟨a, b, c, d⟩, hr⟩ := Sscanf4_of_scanned h
    rw [hr]
    exact ⟨_, rfl⟩

/-- C8 (as stated, refuted): `1:2:3,4x` (text after the fourth field) and ` 1:2:3,4` (a
leading space) are decoded although they are not of the shape of four fields and nothing
else, and `18446744073709551616:0:0,0` is of that shape but is rejected, its first field not
fitting `uint`. -/
theorem time_to_msecs_counterexample :
    (time_to_msecs (ascii "1:2:3,4x") = .ok 3723004 ∧
      ¬ IsFourFields (replaceFirstDot (ascii "1:2:3,4x"))) ∧
    (time_to_msecs (ascii " 1:2:3,4") = .ok 3723004 ∧
      ¬ IsFourFields (replaceFirstDot (ascii " 1:2:3,4"))) ∧
    (IsFourFields (replaceFirstDot (ascii "18446744073709551616:0:0,0")) ∧
      time_to_msecs (ascii "18446744073709551616:0:0,0") =
        .error (.cannotConvert (ascii "18446744073709551616:0:0,0"))) := by
  refine ⟨⟨by decide, fun h => ?_⟩, ⟨by decide, fun h => ?_⟩, ⟨?_, by decide⟩⟩
  · have := IsFourFields_bytes h 120 (by decide)
    revert this; decide
  · have := IsFourFields_bytes h 32 (by decide)
    revert this; decide
  · exact ⟨ascii "18446744073709551616", ascii "0", ascii "0", ascii "0",
      by decide, by decide, by decide, by decide, by decide⟩

/-- C8 (amended): `time_to_msecs` succeeds exactly on the texts that, after their first `.`
has been replaced by `,`, start with four numerals below `2 ^ 64`, each optionally preceded
by white space without a line feed, with `:` right after the first and the second numeral
and `,` right after the third, the fourth numeral not being followed by a digit or an
underscore; what comes after that is ignored. Every other text is rejected with an error. -/
theorem time_to_msecs_accepts_iff (tm : List Nat) :
    ((∃ ms, time_to_msecs tm = .ok ms) ↔ IsScannedTime (replaceFirstDot tm)) ∧
    ((∃ e, time_to_msecs tm = .error e) ↔ ¬ IsScannedTime (replaceFirstDot tm)) := by
  refine ⟨time_to_msecs_ok_iff tm, ?_⟩
  rw [← time_to_msecs_ok_iff]
  cases h : time_to_msecs tm with
  | error e => simp
  | ok ms => simp



theorem log2Loop_spec : ∀ (fuel n : Nat), n ≤ fuel → 1 ≤ n →
    2 ^ log2Loop fuel n ≤ n ∧ n < 2 ^ (log2Loop fuel n + 1) := by
  intro fuel
  induction fuel with
  | zero => intro n h1 h2; omega
  | succ f ih =>
    intro n h1 h2
    unfold log2Loop
    by_cases h : n < 2
    · rw [if_pos h]
      have : n = 1 := by omega
      subst this
      simp
    · rw [if_neg h]
      obtain ⟨i1, i2⟩ := ih (n / 2) (by omega) (by omega)
      rw [Nat.pow_succ, Nat.pow_succ]
      rw [Nat.pow_succ] at i2
      constructor <;> omega

theorem floorLog2_spec (n : Nat) (h : 1 ≤ n) :
    2 ^ floorLog2 n ≤ n ∧ n < 2 ^ (floorLog2 n + 1) :=
  log2Loop_spec n n le_rfl h

theorem zpow_two_nat (k : Nat) : (2 : ℚ) ^ (k : Int) = ((2 ^ k : Nat) : ℚ) := by
  simp

/-- The binary logarithm brackets the quotient. -/
theorem ratLog2_spec (n d : Nat) (hn : 1 ≤ n) (hd : 1 ≤ d) :
    (2 : ℚ) ^ ratLog2 n d ≤ (n : ℚ) / d ∧ (n : ℚ) / d < 2 ^ (ratLog2 n d + 1) := by
  obtain ⟨a1, a2⟩ := floorLog2_spec n hn
  obtain ⟨b1, b2⟩ := floorLog2_spec d hd
  have hdq : (0 : ℚ) < d := by exact_mod_cast hd
  have hnq : (0 : ℚ) < n := by exact_mod_cast hn
  have A1 : (2 : ℚ) ^ (floorLog2 n : Int) ≤ n := by
    rw [zpow_two_nat]; exact_mod_cast a1
  have A2 : (n : ℚ) < 2 ^ ((floorLog2 n : Int) + 1) := by
    have : ((floorLog2 n : Int) + 1) = ((floorLog2 n + 1 : Nat) : Int) := by simp
    rw [this, zpow_two_nat]; exact_mod_cast a2
  have B1 : (2 : ℚ) ^ (floorLog2 d : Int) ≤ d := by
    rw [zpow_two_nat]; exact_mod_cast b1
  have B2 : (d : ℚ) < 2 ^ ((floorLog2 d : Int) + 1) := by
    have : ((floorLog2 d : Int) + 1) = ((floorLog2 d + 1 : Nat) : Int) := by simp
    rw [this, zpow_two_nat]; exact_mod_cast b2
  have h2 : (0 : ℚ) < 2 := by norm_num
  -- the two coarse bounds
  have up : (n : ℚ) / d < 2 ^ ((floorLog2 n : Int) - floorLog2 d + 1) := by
    rw [div_lt_iff₀ hdq]
    calc (n : ℚ) < 2 ^ ((floorLog2 n : Int) + 1) := A2
      _ = 2 ^ ((floorLog2 n : Int) - floorLog2 d + 1) * 2 ^ (floorLog2 d : Int) := by
          rw [← zpow_add₀ (ne_of_gt h2)]; congr 1; ring
      _ ≤ 2 ^ ((floorLog2 n : Int) - floorLog2 d + 1) * d :=
          mul_le_mul_of_nonneg_left B1 (le_of_lt (zpow_pos h2 _))
  have lo : (2 : ℚ) ^ ((floorLog2 n : Int) - floorLog2 d - 1) ≤ (n : ℚ) / d := by
    rw [le_div_iff₀ hdq]
    calc (2 : ℚ) ^ ((floorLog2 n : Int) - floorLog2 d - 1) * d
        ≤ 2 ^ ((floorLog2 n : Int) - floorLog2 d - 1) * 2 ^ ((floorLog2 d : Int) + 1) :=
          mul_le_mul_of_nonneg_left (le_of_lt B2) (le_of_lt (zpow_pos h2 _))
      _ = 2 ^ (floorLog2 n : Int) := by
          rw [← zpow_add₀ (ne_of_gt h2)]; congr 1; ring
      _ ≤ n := A1
  unfold ratLog2
  simp only []
  set e : Int := (floorLog2 n : Int) - (floorLog2 d : Int) with he
  -- the test decides whether `2 ^ e ≤ n / d`
  have test : (if 0 ≤ e then d * 2 ^ e.toNat ≤ n else d ≤ n * 2 ^ (-e).toNat) ↔
      (2 : ℚ) ^ e ≤ (n : ℚ) / d := by
    rw [le_div_iff₀ hdq]
    by_cases h0 : 0 ≤ e
    · rw [if_pos h0]
      have : e = (e.toNat : Int) := (Int.toNat_of_nonneg h0).symm
      rw [this, zpow_two_nat, ← this]
      constructor
      · intro h; have : ((2 ^ e.toNat * d : Nat) : ℚ) ≤ n := by exact_mod_cast (by rw [Nat.mul_comm]; exact h)
        simpa using this
      · intro h
        have : ((2 ^ e.toNat * d : Nat) : ℚ) ≤ n := by simpa using h
        have := (Nat.cast_le (α := ℚ)).mp this
        rw [Nat.mul_comm]; exact this
    · rw [if_neg h0]
      obtain ⟨k, hk1, hk2⟩ : ∃ k : Nat, (-e).toNat = k ∧ (2 : ℚ) ^ e = 1 / ((2 ^ k : Nat) : ℚ) := by
        refine ⟨(-e).toNat, rfl, ?_⟩
        have h1 := Int.toNat_of_nonneg (show 0 ≤ -e by omega)
        have h3 : e = -(((-e).toNat : Nat) : Int) := by omega
        have h4 : (2 : ℚ) ^ e = (2 : ℚ) ^ (-(((-e).toNat : Nat) : Int)) := congrArg _ h3
        rw [h4, zpow_neg, zpow_two_nat]
        simp
      rw [hk1, hk2]
      have hp : (0 : ℚ) < ((2 ^ k : Nat) : ℚ) := by positivity
      rw [div_mul_eq_mul_div, one_mul, div_le_iff₀ hp]
      constructor
      · intro h; exact_mod_cast h
      · intro h; exact_mod_cast h
  by_cases ht : (if 0 ≤ e then d * 2 ^ e.toNat ≤ n else d ≤ n * 2 ^ (-e).toNat)
  · rw [if_pos ht]
    exact ⟨test.mp ht, up⟩
  · rw [if_neg ht]
    refine ⟨lo, ?_⟩
    have : ¬ (2 : ℚ) ^ e ≤ (n : ℚ) / d := fun h => ht (test.mpr h)
    have e2 : e - 1 + 1 = e := by ring
    rw [e2]
    exact not_le.mp this

theorem two_zpow_pos (k : Int) : (0 : ℚ) < 2 ^ k := zpow_pos (by norm_num) k

theorem ulp_pos (x : ℚ) : 0 < ulp x := two_zpow_pos _

theorem natAbs_div_den (x : ℚ) : (x.num.natAbs : ℚ) / x.den = |x| := by
  have hd : (0 : ℚ) < x.den := by exact_mod_cast x.den_pos
  conv_rhs => rw [← Rat.num_div_den x]
  rw [abs_div, abs_of_pos hd, Nat.cast_natAbs, Int.cast_abs]

/-- The binary logarithm brackets the magnitude of a non-zero rational number. -/
theorem abs_bracket (x : ℚ) (hx : x ≠ 0) :
    (2 : ℚ) ^ ratLog2 x.num.natAbs x.den ≤ |x| ∧ |x| < 2 ^ (ratLog2 x.num.natAbs x.den + 1) := by
  have hn : 1 ≤ x.num.natAbs := by
    have : x.num ≠ 0 := Rat.num_ne_zero.mpr hx
    omega
  have := ratLog2_spec x.num.natAbs x.den hn x.den_pos
  rwa [natAbs_div_den] at this

theorem roundHalfEven_intCast (n : Int) : roundHalfEven (n : ℚ) = n := by
  unfold roundHalfEven
  simp

theorem roundHalfEven_error (x : ℚ) : |(roundHalfEven x : ℚ) - x| ≤ 1 / 2 := by
  have h1 := Int.floor_le x
  have h2 := Int.lt_floor_add_one x
  unfold roundHalfEven
  split_ifs with a b c
  · rw [abs_le]; constructor <;> linarith
  · push_cast; rw [abs_le]; constructor <;> linarith
  · rw [abs_le]; constructor <;> linarith
  · push_cast; rw [abs_le]; constructor <;> linarith

/-- The unit in the last place is at most `2 ^ k` when `x = m * 2 ^ k` is a `float64`. -/
theorem ulp_le_of_isF64 {x : ℚ} {m k : Int} (hm : |m| < 2 ^ 53) (hk : -1074 ≤ k)
    (hx : x = m * 2 ^ k) (hne : x ≠ 0) :
    max (ratLog2 x.num.natAbs x.den) (-1022) - 52 ≤ k := by
  obtain ⟨lo, _⟩ := abs_bracket x hne
  have hmq : |(m : ℚ)| < 2 ^ (53 : Int) := by
    have : ((|m| : Int) : ℚ) < ((2 ^ 53 : Int) : ℚ) := by exact_mod_cast hm
    rw [Int.cast_abs] at this
    calc |(m : ℚ)| < ((2 ^ 53 : Int) : ℚ) := this
      _ = 2 ^ (53 : Int) := by norm_num
  have hlt : (2 : ℚ) ^ ratLog2 x.num.natAbs x.den < 2 ^ (53 + k) := by
    calc (2 : ℚ) ^ ratLog2 x.num.natAbs x.den ≤ |x| := lo
      _ = |(m : ℚ)| * 2 ^ k := by rw [hx, abs_mul, abs_of_pos (two_zpow_pos k)]
      _ < 2 ^ (53 : Int) * 2 ^ k := mul_lt_mul_of_pos_right hmq (two_zpow_pos k)
      _ = 2 ^ (53 + k) := by rw [← zpow_add₀ (by norm_num : (2 : ℚ) ≠ 0)]
  have := (zpow_lt_zpow_iff_right₀ (by norm_num : (1 : ℚ) < 2)).mp hlt
  omega

/-- Rounding leaves a `float64` value unchanged. -/
theorem ofRat_exact {x : ℚ} (hx : IsF64 x) : F64.ofRat x = .fin x := by
  obtain ⟨m, k, hm, hk, hxm, hbig⟩ := hx
  have key : (roundHalfEven (x / ulp x) : ℚ) * ulp x = x := by
    by_cases hne : x = 0
    · subst hne
      have : roundHalfEven (0 / ulp 0) = 0 := by
        rw [zero_div]; exact_mod_cast roundHalfEven_intCast 0
      rw [this]; simp
    · have hE := ulp_le_of_isF64 hm hk hxm hne
      set E : Int := max (ratLog2 x.num.natAbs x.den) (-1022) - 52 with hEdef
      have hu : ulp x = 2 ^ E := rfl
      obtain ⟨j, hj⟩ : ∃ j : Nat, k - E = j := ⟨(k - E).toNat, (Int.toNat_of_nonneg (by omega)).symm⟩
      have hdiv : x / ulp x = ((m * 2 ^ j : Int) : ℚ) := by
        rw [hu, hxm, mul_div_assoc, ← zpow_sub₀ (by norm_num : (2 : ℚ) ≠ 0), hj]
        push_cast
        rw [zpow_natCast]
      rw [hdiv, roundHalfEven_intCast, ← hdiv]
      exact div_mul_cancel₀ x (ne_of_gt (ulp_pos x))
  unfold F64.ofRat
  simp only [key]
  rw [if_neg (not_le.mpr hbig)]

theorem two_pow_lt_1024 {a : ℚ} (h : |a| ≤ 2 ^ 64) : |a| < 2 ^ 1024 :=
  lt_of_le_of_lt h (by norm_num)

/-- The integers of magnitude at most `2 ^ 53` are `float64` values. -/
theorem IsF64_intCast (n : Int) (h : |n| ≤ 2 ^ 53) : IsF64 (n : ℚ) := by
  have hq : |(n : ℚ)| ≤ 2 ^ 64 := by
    have : ((|n| : Int) : ℚ) ≤ ((2 ^ 53 : Int) : ℚ) := by exact_mod_cast h
    rw [Int.cast_abs] at this
    exact le_trans this (by norm_num)
  by_cases hlt : |n| < 2 ^ 53
  · exact ⟨n, 0, hlt, by norm_num, by simp, two_pow_lt_1024 hq⟩
  · have he : |n| = 2 ^ 53 := le_antisymm h (not_lt.mp hlt)
    refine ⟨n / 2, 1, ?_, by norm_num, ?_, two_pow_lt_1024 hq⟩
    · rcases abs_cases n with ⟨h1, _⟩ | ⟨h1, _⟩ <;> rw [abs_lt] <;> constructor <;> omega
    · have h2 : n = n / 2 * 2 := by
        rcases abs_cases n with ⟨h1, _⟩ | ⟨h1, _⟩ <;> omega
      rw [zpow_one]
      exact_mod_cast h2

theorem truncQ_abs_le (q : ℚ) : |(truncQ q : ℚ)| ≤ |q| := by
  unfold truncQ
  split_ifs with h
  · have h1 := Int.floor_le q
    have h2 : (0 : ℚ) ≤ ⌊q⌋ := by exact_mod_cast Int.floor_nonneg.mpr h
    rw [abs_of_nonneg h2, abs_of_nonneg h]; exact h1
  · have hq : q < 0 := not_le.mp h
    have h1 := Int.le_ceil q
    have h2 : ((⌈q⌉ : Int) : ℚ) ≤ 0 := by exact_mod_cast Int.ceil_le.mpr (by simpa using le_of_lt hq)
    rw [abs_of_nonpos h2, abs_of_neg hq]; linarith

/-- The fractional part left by truncation: between `-1` and `1`, of the sign of `q`. -/
theorem truncQ_frac (q : ℚ) :
    (0 ≤ q → 0 ≤ q - truncQ q ∧ q - truncQ q < 1) ∧
    (q < 0 → -1 < q - truncQ q ∧ q - truncQ q ≤ 0) := by
  unfold truncQ
  constructor
  · intro h
    rw [if_pos h]
    exact ⟨by linarith [Int.floor_le q], by linarith [Int.lt_floor_add_one q]⟩
  · intro h
    rw [if_neg (not_le.mpr h)]
    exact ⟨by linarith [Int.ceil_lt_add_one q], by linarith [Int.le_ceil q]⟩

/-- A `float64` of magnitude `2 ^ 53` or more is an integer. -/
theorem isF64_large_int {q : ℚ} (hq : IsF64 q) (hbig : 2 ^ 53 ≤ |q|) : ∃ n : Int, q = n := by
  obtain ⟨m, k, hm, hk, hx, _⟩ := hq
  have hmq : |(m : ℚ)| < 2 ^ 53 := by
    have : ((|m| : Int) : ℚ) < ((2 ^ 53 : Int) : ℚ) := by exact_mod_cast hm
    rw [Int.cast_abs] at this
    exact lt_of_lt_of_le this (by norm_num)
  have hk0 : 0 ≤ k := by
    by_contra hneg
    have hle : (2 : ℚ) ^ k ≤ 1 := by
      have := zpow_le_zpow_right₀ (by norm_num : (1 : ℚ) ≤ 2) (show k ≤ 0 by omega)
      simpa using this
    have : |q| < 2 ^ 53 := by
      rw [hx, abs_mul, abs_of_pos (two_zpow_pos k)]
      calc |(m : ℚ)| * 2 ^ k ≤ |(m : ℚ)| * 1 :=
            mul_le_mul_of_nonneg_left hle (abs_nonneg _)
        _ < 2 ^ 53 := by rw [mul_one]; exact hmq
    exact absurd hbig (not_le.mpr this)
  obtain ⟨j, rfl⟩ : ∃ j : Nat, k = j := ⟨k.toNat, (Int.toNat_of_nonneg hk0).symm⟩
  exact ⟨m * 2 ^ j, by rw [hx, zpow_natCast]; push_cast; rfl⟩

theorem truncQ_intCast (n : Int) : truncQ (n : ℚ) = n := by
  unfold truncQ
  split_ifs <;> simp

/-- The truncation of a `float64` is a `float64`. -/
theorem IsF64_truncQ {q : ℚ} (hq : IsF64 q) : IsF64 (truncQ q : ℚ) := by
  by_cases hbig : (2 : ℚ) ^ 53 ≤ |q|
  · obtain ⟨n, hn⟩ := isF64_large_int hq hbig
    rw [hn, truncQ_intCast, ← hn]; exact hq
  · apply IsF64_intCast
    have h1 := truncQ_abs_le q
    have h2 : |(truncQ q : ℚ)| < 2 ^ 53 := lt_of_le_of_lt h1 (not_le.mp hbig)
    have h3 : ((|truncQ q| : Int) : ℚ) < ((2 ^ 53 : Int) : ℚ) := by
      rw [Int.cast_abs]; exact lt_of_lt_of_le h2 (by norm_num)
    exact le_of_lt (by exact_mod_cast h3)

/-- The fractional part of a `float64` is a `float64`. -/
theorem IsF64_frac {q : ℚ} (hq : IsF64 q) : IsF64 (q - truncQ q) := by
  have hfr : |q - truncQ q| ≤ |q| ∧ |q - truncQ q| < 1 := by
    obtain ⟨f1, f2⟩ := truncQ_frac q
    rcases le_or_lt 0 q with h | h
    · obtain ⟨a, b⟩ := f1 h
      have ht : (0 : ℚ) ≤ truncQ q := by
        unfold truncQ; rw [if_pos h]; exact_mod_cast Int.floor_nonneg.mpr h
      rw [abs_of_nonneg a, abs_of_nonneg h]
      exact ⟨by linarith, b⟩
    · obtain ⟨a, b⟩ := f2 h
      have ht : (truncQ q : ℚ) ≤ 0 := by
        unfold truncQ; rw [if_neg (not_le.mpr h)]
        exact_mod_cast Int.ceil_le.mpr (by simpa using le_of_lt h)
      rw [abs_of_nonpos b, abs_of_neg h]
      exact ⟨by linarith, by linarith⟩
  obtain ⟨m, k, hm, hk, hx, hlt⟩ := hq
  by_cases hk0 : 0 ≤ k
  · obtain ⟨j, rfl⟩ : ∃ j : Nat, k = j := ⟨k.toNat, (Int.toNat_of_nonneg hk0).symm⟩
    have hn : q = ((m * 2 ^ j : Int) : ℚ) := by rw [hx, zpow_natCast]; push_cast; rfl
    rw [hn, truncQ_intCast, sub_self]
    exact ⟨0, 0, by norm_num, by norm_num, by simp, by norm_num⟩
  · obtain ⟨j, hj⟩ : ∃ j : Nat, -k = j := ⟨(-k).toNat, (Int.toNat_of_nonneg (by omega)).symm⟩
    have hkj : k = -(j : Int) := by omega
    have hpow : (2 : ℚ) ^ k * 2 ^ j = 1 := by
      rw [hkj, zpow_neg, zpow_natCast]
      exact inv_mul_cancel₀ (by positivity)
    have hrep : q - truncQ q = ((m - truncQ q * 2 ^ j : Int) : ℚ) * 2 ^ k := by
      push_cast
      rw [sub_mul, mul_assoc, mul_comm ((2 : ℚ) ^ j) _, hpow, mul_one, hx]
    refine ⟨m - truncQ q * 2 ^ j, k, ?_, hk, hrep, lt_of_lt_of_le hfr.2 (by norm_num)⟩
    have hpos : (0 : ℚ) < 2 ^ j := by positivity
    have h1 : |((m - truncQ q * 2 ^ j : Int) : ℚ)| ≤ |(m : ℚ)| := by
      have e1 : ((m - truncQ q * 2 ^ j : Int) : ℚ) = (q - truncQ q) * 2 ^ j := by
        rw [hrep, mul_assoc, hpow, mul_one]
      have e2 : (m : ℚ) = q * 2 ^ j := by rw [hx, mul_assoc, hpow, mul_one]
      rw [e1, e2, abs_mul, abs_mul]
      exact mul_le_mul_of_nonneg_right hfr.1 (abs_nonneg _)
    have h2 : ((|m - truncQ q * 2 ^ j| : Int) : ℚ) < ((2 ^ 53 : Int) : ℚ) := by
      rw [Int.cast_abs]
      have : ((|m| : Int) : ℚ) < ((2 ^ 53 : Int) : ℚ) := by exact_mod_cast hm
      rw [Int.cast_abs] at this
      exact lt_of_le_of_lt h1 this
    exact_mod_cast h2

theorem F64_sub_fin (a b : ℚ) : F64.sub (.fin a) (.fin b) = F64.ofRat (a - b) := by
  simp [F64.sub, F64.neg, F64.add, sub_eq_add_neg]

/-- The value `val` of `roundFloat64` is the exact fractional part. -/
theorem roundFloat64_val (cv : Conv) {q : ℚ} (hq : IsF64 q)
    (hr : -(2 ^ 63) ≤ truncQ q ∧ truncQ q < 2 ^ 63) :
    F64.sub (.fin q) (F64.ofInt (F64.toInt64 cv (.fin q))) = .fin (q - truncQ q) := by
  have h1 : F64.toInt64 cv (.fin q) = truncQ q := by
    simp only [F64.toInt64]
    rw [if_pos hr]
  rw [h1, F64.ofInt, ofRat_exact (IsF64_truncQ hq), F64_sub_fin, ofRat_exact (IsF64_frac hq)]

theorem roundHalfAway_of_frac (q : ℚ) :
    (1 / 2 ≤ q - truncQ q → roundHalfAway q = ⌈q⌉) ∧
    (0 < q - truncQ q → q - truncQ q < 1 / 2 → roundHalfAway q = ⌊q⌋) ∧
    (q - truncQ q ≤ -(1 / 2) → roundHalfAway q = ⌊q⌋) ∧
    (-(1 / 2) < q - truncQ q → q - truncQ q < 0 → roundHalfAway q = ⌈q⌉) ∧
    (q - truncQ q = 0 → (roundHalfAway q : ℚ) = q) := by
  obtain ⟨f1, f2⟩ := truncQ_frac q
  rcases le_or_lt 0 q with h | h
  · obtain ⟨a, b⟩ := f1 h
    have ht : truncQ q = ⌊q⌋ := by unfold truncQ; rw [if_pos h]
    have hra : roundHalfAway q = ⌊q + 1 / 2⌋ := by unfold roundHalfAway; rw [if_pos h]
    rw [ht] at a b ⊢
    rw [hra]
    have hf1 := Int.floor_le q
    have hf2 := Int.lt_floor_add_one q
    refine ⟨?_, ?_, ?_, ?_, ?_⟩
    · intro h1
      have hc : ⌈q⌉ = ⌊q⌋ + 1 := by
        rw [Int.ceil_eq_iff]; push_cast; constructor <;> linarith
      rw [hc, Int.floor_eq_iff]; push_cast; constructor <;> linarith
    · intro h1 h2
      rw [Int.floor_eq_iff]; constructor <;> linarith
    · intro h1; linarith
    · intro h1 h2; linarith
    · intro h1
      have : ⌊q + 1 / 2⌋ = ⌊q⌋ := by
        rw [Int.floor_eq_iff]; constructor <;> linarith
      rw [this]; linarith
  · obtain ⟨a, b⟩ := f2 h
    have ht : truncQ q = ⌈q⌉ := by unfold truncQ; rw [if_neg (not_le.mpr h)]
    have hra : roundHalfAway q = ⌈q - 1 / 2⌉ := by
      unfold roundHalfAway; rw [if_neg (not_le.mpr h)]
    rw [ht] at a b ⊢
    rw [hra]
    have hc1 := Int.le_ceil q
    have hc2 := Int.ceil_lt_add_one q
    refine ⟨?_, ?_, ?_, ?_, ?_⟩
    · intro h1; linarith
    · intro h1 h2; linarith
    · intro h1
      have hfl : ⌊q⌋ = ⌈q⌉ - 1 := by
        rw [Int.floor_eq_iff]; push_cast; constructor <;> linarith
      rw [hfl, Int.ceil_eq_iff]; push_cast; constructor <;> linarith
    · intro h1 h2
      rw [Int.ceil_eq_iff]; constructor <;> linarith
    · intro h1
      have : ⌈q - 1 / 2⌉ = ⌈q⌉ := by
        rw [Int.ceil_eq_iff]; constructor <;> linarith
      rw [this]; linarith

/-- On a `float64` whose truncation fits `int64`, `roundFloat64` rounds to the nearest
integer, ties away from zero. -/
theorem roundFloat64_eq (cv : Conv) {q : ℚ} (hq : IsF64 q)
    (hr : -(2 ^ 63) ≤ truncQ q ∧ truncQ q < 2 ^ 63) :
    roundFloat64 cv (.fin q) = .fin (roundHalfAway q) := by
  obtain ⟨c1, c2, c3, c4, c5⟩ := roundHalfAway_of_frac q
  unfold roundFloat64
  simp only [roundFloat64_val cv hq hr, F64.ge, F64.gt, F64.Ceil, F64.Floor, decide_eq_true_eq]
  by_cases h1 : (1 : ℚ) / 2 ≤ q - truncQ q
  · rw [if_pos h1, c1 h1]
  · rw [if_neg h1]
    by_cases h2 : 0 < q - truncQ q
    · rw [if_pos h2, c2 h2 (not_le.mp h1)]
    · rw [if_neg h2]
      by_cases h3 : q - truncQ q ≤ -(1 / 2)
      · rw [if_pos h3, c3 h3]
      · rw [if_neg h3]
        by_cases h4 : q - truncQ q < 0
        · rw [if_pos h4, c4 (not_le.mp h3) h4]
        · rw [if_neg h4, c5 (le_antisymm (not_lt.mp h2) (not_lt.mp h4))]

/-- The defining property of rounding half away from zero. -/
theorem roundHalfAway_spec (q : ℚ) :
    |(roundHalfAway q : ℚ) - q| ≤ 1 / 2 ∧
    (|(roundHalfAway q : ℚ) - q| = 1 / 2 → |q| < |(roundHalfAway q : ℚ)|) := by
  unfold roundHalfAway
  rcases le_or_lt 0 q with h | h
  · rw [if_pos h]
    have h1 := Int.floor_le (q + 1 / 2)
    have h2 := Int.lt_floor_add_one (q + 1 / 2)
    have hn : (0 : ℚ) ≤ ⌊q + 1 / 2⌋ := by
      exact_mod_cast Int.floor_nonneg.mpr (by linarith)
    refine ⟨by rw [abs_le]; constructor <;> linarith, ?_⟩
    intro he
    rw [abs_of_nonneg h, abs_of_nonneg hn]
    rcases abs_eq (by norm_num : (0 : ℚ) ≤ 1 / 2) |>.mp he with e | e <;> linarith
  · rw [if_neg (not_le.mpr h)]
    have h1 := Int.le_ceil (q - 1 / 2)
    have h2 := Int.ceil_lt_add_one (q - 1 / 2)
    have hn : ((⌈q - 1 / 2⌉ : Int) : ℚ) ≤ 0 := by
      exact_mod_cast Int.ceil_le.mpr (by push_cast; linarith)
    refine ⟨by rw [abs_le]; constructor <;> linarith, ?_⟩
    intro he
    rw [abs_of_neg h, abs_of_nonpos hn]
    rcases abs_eq (by norm_num : (0 : ℚ) ≤ 1 / 2) |>.mp he with e | e <;> linarith

theorem roundHalfAway_intCast (n : Int) : roundHalfAway (n : ℚ) = n := by
  obtain ⟨_, _, _, _, c5⟩ := roundHalfAway_of_frac (n : ℚ)
  have := c5 (by rw [truncQ_intCast]; simp)
  exact_mod_cast this

theorem IsF64_five_halves : IsF64 (5 / 2) ∧ IsF64 (-5 / 2) ∧ IsF64 2 ∧
    IsF64 (5404319552844595 / 2251799813685248) ∧
    IsF64 (-5404319552844595 / 2251799813685248) := by
  refine ⟨⟨5, -1, ?_, ?_, ?_, ?_⟩, ⟨-5, -1, ?_, ?_, ?_, ?_⟩, ⟨2, 0, ?_, ?_, ?_, ?_⟩,
    ⟨5404319552844595, -51, ?_, ?_, ?_, ?_⟩, ⟨-5404319552844595, -51, ?_, ?_, ?_, ?_⟩⟩ <;>
  norm_num [abs_lt]

/-- C6: for every `float64` value `x` whose truncation fits a signed 64-bit integer,
`roundFloat64 x` is the integer nearest to `x`, a tie going away from zero, and `x` itself
when `x` is an integer; so the literals `2.5`, `-2.5`, `2.4`, `-2.4` and `2.0` give `3`, `-3`,
`2`, `-2` and `2`. -/
theorem roundFloat64_nearest (cv : Conv) (q : ℚ) (hq : IsF64 q)
    (hr : -(2 ^ 63) ≤ truncQ q ∧ truncQ q < 2 ^ 63) :
    (∃ n : Int, roundFloat64 cv (.fin q) = .fin n ∧ |(n : ℚ) - q| ≤ 1 / 2 ∧
      (|(n : ℚ) - q| = 1 / 2 → |q| < |(n : ℚ)|)) ∧
    ((∃ n : Int, q = n) → roundFloat64 cv (.fin q) = .fin q) ∧
    (roundFloat64 cv (F64.ofRat (5 / 2)) = .fin 3 ∧
      roundFloat64 cv (F64.ofRat (-5 / 2)) = .fin (-3) ∧
      roundFloat64 cv (F64.ofRat (24 / 10)) = .fin 2 ∧
      roundFloat64 cv (F64.ofRat (-24 / 10)) = .fin (-2) ∧
      roundFloat64 cv (F64.ofRat 2) = .fin 2) := by
  refine ⟨⟨roundHalfAway q, roundFloat64_eq cv hq hr, roundHalfAway_spec q⟩, ?_, ?_⟩
  · rintro ⟨n, rfl⟩
    rw [roundFloat64_eq cv hq hr, roundHalfAway_intCast]
  · obtain ⟨i1, i2, i3, i4, i5⟩ := IsF64_five_halves
    have e1 : F64.ofRat (5 / 2) = .fin (5 / 2) := ofRat_exact i1
    have e2 : F64.ofRat (-5 / 2) = .fin (-5 / 2) := ofRat_exact i2
    have e3 : F64.ofRat (24 / 10) = .fin (5404319552844595 / 2251799813685248) := by decide!
    have e4 : F64.ofRat (-24 / 10) = .fin (-5404319552844595 / 2251799813685248) := by decide!
    have e5 : F64.ofRat 2 = .fin 2 := ofRat_exact i3
    rw [e1, e2, e3, e4, e5, roundFloat64_eq cv i1 (by decide!), roundFloat64_eq cv i2 (by decide!),
      roundFloat64_eq cv i3 (by decide!), roundFloat64_eq cv i4 (by decide!),
      roundFloat64_eq cv i5 (by decide!)]
    refine ⟨?_, ?_, ?_, ?_, ?_⟩ <;> decide!

/-- Witness for C6: the tie `2.5`. -/
theorem roundFloat64_nearest_witness :
    IsF64 (5 / 2) ∧ (-(2 ^ 63) ≤ truncQ (5 / 2) ∧ truncQ (5 / 2) < 2 ^ 63) ∧
    ∃ n : Int, roundFloat64 zeroConv (.fin (5 / 2)) = .fin n ∧ |(n : ℚ) - 5 / 2| ≤ 1 / 2 ∧ (|(n : ℚ) - 5 / 2| = 1 / 2 → |(5 / 2 : ℚ)| < |(n : ℚ)|) :=
  ⟨IsF64_five_halves.1, by decide!,
    (roundFloat64_nearest zeroConv (5 / 2) IsF64_five_halves.1 (by decide!)).1⟩

theorem two_zpow_add_one (k : Int) : (2 : ℚ) ^ (k + 1) = 2 * 2 ^ k := by
  rw [zpow_add₀ (by norm_num : (2 : ℚ) ≠ 0), zpow_one, mul_comm]

/-- An integer mantissa of magnitude at most `2 ^ 53` with an exponent of at least `-1074`
denotes a `float64`, provided the magnitude of the value is below `2 ^ 1024`. -/
theorem IsF64_of_mantissa (N E : Int) (hN : |N| ≤ 2 ^ 53) (hE : -1074 ≤ E)
    (hlt : |(N : ℚ) * 2 ^ E| < 2 ^ 1024) : IsF64 ((N : ℚ) * 2 ^ E) := by
  by_cases h : |N| < 2 ^ 53
  · exact ⟨N, E, h, hE, rfl, hlt⟩
  · have he : |N| = 2 ^ 53 := le_antisymm hN (not_lt.mp h)
    refine ⟨N / 2, E + 1, ?_, by omega, ?_, hlt⟩
    · rcases abs_cases N with ⟨h1, _⟩ | ⟨h1, _⟩ <;> rw [abs_lt] <;> constructor <;> omega
    · have h2 : N = N / 2 * 2 := by
        rcases abs_cases N with ⟨h1, _⟩ | ⟨h1, _⟩ <;> omega
      have h3 : (N : ℚ) = ((N / 2 : Int) : ℚ) * 2 := by exact_mod_cast h2
      rw [two_zpow_add_one, ← mul_assoc, ← h3]

/-- The error of rounding: at most half a unit in the last place, which is at most
`2 ^ (-53)` times the magnitude, or `2 ^ (-1075)` in the subnormal range; and the result is
a `float64`. -/
theorem ofRat_error (x : ℚ) (hx : |x| ≤ 2 ^ 1000) :
    ∃ y, F64.ofRat x = .fin y ∧ IsF64 y ∧ |y - x| ≤ 2 ^ (-53 : Int) * |x| + 2 ^ (-1075 : Int) := by
  by_cases hne : x = 0
  · subst hne
    have h0 : IsF64 0 := ⟨0, 0, by norm_num, by norm_num, by simp, by norm_num⟩
    exact ⟨0, ofRat_exact h0, h0, by simp; exact le_of_lt (two_zpow_pos _)⟩
  obtain ⟨lo, hi⟩ := abs_bracket x hne
  set L : Int := ratLog2 x.num.natAbs x.den with hL
  set E : Int := max L (-1022) - 52 with hE
  have hu : ulp x = 2 ^ E := rfl
  have hup := ulp_pos x
  set N : Int := roundHalfEven (x / ulp x) with hN
  have herr : |(N : ℚ) - x / ulp x| ≤ 1 / 2 := roundHalfEven_error _
  have hyx : (N : ℚ) * ulp x - x = ((N : ℚ) - x / ulp x) * ulp x := by
    field_simp
  have habs : |(N : ℚ) * ulp x - x| ≤ ulp x / 2 := by
    rw [hyx, abs_mul, abs_of_pos hup]
    calc |(N : ℚ) - x / ulp x| * ulp x ≤ 1 / 2 * ulp x :=
          mul_le_mul_of_nonneg_right herr (le_of_lt hup)
      _ = ulp x / 2 := by ring
  -- half a unit in the last place against the magnitude
  have hhalf : ulp x / 2 ≤ 2 ^ (-53 : Int) * |x| + 2 ^ (-1075 : Int) := by
    rw [hu]
    by_cases hn : -1022 ≤ L
    · have e1 : E = L + (-53) + 1 := by omega
      have : (2 : ℚ) ^ E / 2 = 2 ^ (-53 : Int) * 2 ^ L := by
        rw [e1, two_zpow_add_one, zpow_add₀ (by norm_num : (2 : ℚ) ≠ 0)]; ring
      rw [this]
      have := mul_le_mul_of_nonneg_left lo (le_of_lt (two_zpow_pos (-53)))
      linarith [two_zpow_pos (-1075)]
    · have e1 : E = (-1075) + 1 := by omega
      have : (2 : ℚ) ^ E / 2 = 2 ^ (-1075 : Int) := by
        rw [e1, two_zpow_add_one]; ring
      rw [this]
      have : (0 : ℚ) ≤ 2 ^ (-53 : Int) * |x| :=
        mul_nonneg (le_of_lt (two_zpow_pos _)) (abs_nonneg x)
      linarith
  -- the mantissa
  have hEL : L + 1 - E ≤ 53 := by omega
  have hquot : |x / ulp x| < 2 ^ (53 : Int) := by
    rw [abs_div, abs_of_pos hup, hu, div_lt_iff₀ (two_zpow_pos E)]
    calc |x| < 2 ^ (L + 1) := hi
      _ ≤ 2 ^ (53 + E) := zpow_le_zpow_right₀ (by norm_num) (by omega)
      _ = 2 ^ (53 : Int) * 2 ^ E := zpow_add₀ (by norm_num) _ _
  have hNq : |(N : ℚ)| < 2 ^ 53 + 1 := by
    have h1 : |(N : ℚ)| ≤ |(N : ℚ) - x / ulp x| + |x / ulp x| := by
      have := abs_add ((N : ℚ) - x / ulp x) (x / ulp x)
      simpa using this
    have h2 : (2 : ℚ) ^ (53 : Int) = 2 ^ 53 := by norm_num
    rw [h2] at hquot
    linarith
  have hNle : |N| ≤ 2 ^ 53 := by
    have h1 : ((|N| : Int) : ℚ) < ((2 ^ 53 + 1 : Int) : ℚ) := by
      rw [Int.cast_abs]
      calc |(N : ℚ)| < 2 ^ 53 + 1 := hNq
        _ = ((2 ^ 53 + 1 : Int) : ℚ) := by norm_num
    have h2 : |N| < 2 ^ 53 + 1 := by exact_mod_cast h1
    omega
  -- no overflow
  have hsmall : ulp x / 2 ≤ |x| + 1 := by
    have h1 : (2 : ℚ) ^ (-53 : Int) * |x| ≤ |x| := by
      have : (2 : ℚ) ^ (-53 : Int) ≤ 1 := by norm_num
      exact mul_le_of_le_one_left (abs_nonneg x) this
    have h2 : (2 : ℚ) ^ (-1075 : Int) ≤ 1 := by
      have := zpow_le_zpow_right₀ (by norm_num : (1 : ℚ) ≤ 2) (show (-1075 : Int) ≤ 0 by norm_num)
      simpa using this
    linarith
  have hylt : |(N : ℚ) * ulp x| < 2 ^ 1024 := by
    have h1 : |(N : ℚ) * ulp x| ≤ |(N : ℚ) * ulp x - x| + |x| := by
      have := abs_add ((N : ℚ) * ulp x - x) x
      simpa using this
    have h2 : (2 : ℚ) ^ 1000 + (2 ^ 1000 + 1) + 2 ^ 1000 < 2 ^ 1024 := by norm_num
    linarith
  refine ⟨(N : ℚ) * ulp x, ?_, ?_, le_trans habs hhalf⟩
  · unfold F64.ofRat
    simp only []
    rw [← hN, if_neg (not_le.mpr hylt)]
  · rw [hu] at hylt ⊢
    exact IsF64_of_mantissa N E hNle (by omega) hylt

theorem F64_add_fin (a b : ℚ) : F64.add (.fin a) (.fin b) = F64.ofRat (a + b) := rfl

theorem F64_mul_fin (a b : ℚ) : F64.mul (.fin a) (.fin b) = F64.ofRat (a * b) := rfl

theorem F64_div_fin (a b : ℚ) (hb : b ≠ 0) : F64.div (.fin a) (.fin b) = F64.ofRat (a / b) := by
  simp only [F64.div]
  rw [if_neg hb]

theorem ofInt_nat (n : Nat) (h : n ≤ 2 ^ 53) : F64.ofInt (n : Int) = .fin (n : ℚ) := by
  unfold F64.ofInt
  have : IsF64 (((n : Int) : ℚ)) := IsF64_intCast n (by rw [abs_of_nonneg (by positivity)]; exact_mod_cast h)
  rw [ofRat_exact this]
  simp

theorem wrap_sub (a b : Nat) (hab : a ≤ b) (hb : b < 2 ^ 64) : wrap (b + 2 ^ 64 - a) = b - a := by
  unfold wrap intBits
  omega

theorem truncQ_natCast (n : Nat) : truncQ (n : ℚ) = n := by
  have := truncQ_intCast (n : Int)
  simpa using this

theorem toUint_nat (cv : Conv) (n : Nat) (h : n < 2 ^ 64) : F64.toUint cv (.fin (n : ℚ)) = n := by
  simp only [F64.toUint, truncQ_natCast]
  rw [if_pos ⟨by positivity, by exact_mod_cast h⟩]
  simp

theorem roundFloat64_nat (cv : Conv) (n : Nat) (h : n ≤ 2 ^ 53) :
    roundFloat64 cv (.fin (n : ℚ)) = .fin (n : ℚ) := by
  have hq : IsF64 (n : ℚ) := by
    have := IsF64_intCast n (by rw [abs_of_nonneg (by positivity)]; exact_mod_cast h)
    simpa using this
  have hr : -(2 ^ 63) ≤ truncQ (n : ℚ) ∧ truncQ (n : ℚ) < 2 ^ 63 := by
    rw [truncQ_natCast]
    constructor
    · have : (0 : Int) ≤ n := by positivity
      omega
    · have : (n : Int) ≤ 2 ^ 53 := by exact_mod_cast h
      omega
  rw [roundFloat64_eq cv hq hr]
  have := roundHalfAway_intCast (n : Int)
  simp only [Int.cast_natCast] at this
  rw [this]
  simp

/-- With slope 1 and intercept 0 a time of at most `2 ^ 53` is mapped to itself. -/
theorem sync_point_identity (cv : Conv) (t : Nat) (ht : t ≤ 2 ^ 53) :
    F64.toUint cv (roundFloat64 cv
      (F64.add (F64.mul (.fin 1) (F64.ofInt (t : Int))) (.fin 0))) = t := by
  have hq : IsF64 (t : ℚ) := by
    have := IsF64_intCast t (by rw [abs_of_nonneg (by positivity)]; exact_mod_cast ht)
    simpa using this
  rw [ofInt_nat t ht]
  rw [F64_mul_fin, one_mul, ofRat_exact hq, F64_add_fin, add_zero, ofRat_exact hq,
    roundFloat64_nat cv t ht,
    toUint_nat cv t (lt_of_le_of_lt ht (by norm_num))]

theorem sync_subs_identity_aux (cv : Conv) (subs : List subtitle) (first last : subtitle)
    (hf : subs.head? = some first) (hl : subs.getLast? = some last)
    (hlt : first.start < last.start)
    (hb : ∀ s ∈ subs, s.start ≤ 2 ^ 53 ∧ s.end_ ≤ 2 ^ 53) :
    sync_subs cv subs first.start last.start = some subs := by
  have hlast := (hb last (List.mem_of_getLast?_eq_some hl)).1
  have hd : last.start - first.start ≤ 2 ^ 53 := by omega
  have hdpos : ((last.start - first.start : Nat) : ℚ) ≠ 0 := by
    have : 0 < last.start - first.start := by omega
    exact_mod_cast (ne_of_gt this)
  have h0 : IsF64 0 := ⟨0, 0, by norm_num, by norm_num, by simp, by norm_num⟩
  have h1 : IsF64 1 := ⟨1, 0, by norm_num, by norm_num, by simp, by norm_num⟩
  have hq : IsF64 (last.start : ℚ) := by
    have := IsF64_intCast last.start (by rw [abs_of_nonneg (by positivity)]; exact_mod_cast hlast)
    simpa using this
  unfold sync_subs
  rw [hf, hl]
  simp only []
  rw [wrap_sub _ _ (le_of_lt hlt) (lt_of_le_of_lt hlast (by norm_num)),
    ofInt_nat _ hd, ofInt_nat _ hlast]
  have hslope : F64.div (.fin ((last.start - first.start : Nat) : ℚ))
      (.fin ((last.start - first.start : Nat) : ℚ)) = .fin 1 := by
    rw [F64_div_fin _ _ hdpos, div_self hdpos, ofRat_exact h1]
  rw [hslope]
  have hyint : F64.sub (.fin (last.start : ℚ)) (F64.mul (.fin 1) (.fin (last.start : ℚ))) =
      .fin 0 := by
    rw [F64_mul_fin, one_mul, ofRat_exact hq, F64_sub_fin, sub_self, ofRat_exact h0]
  rw [hyint]
  congr 1
  conv_rhs => rw [← List.map_id subs]
  apply List.map_congr_left
  intro s hs
  obtain ⟨b1, b2⟩ := hb s hs
  rw [sync_point_identity cv s.start b1, sync_point_identity cv s.end_ b2]
  rfl

/-- C7 (as stated, refuted): in a document whose first cue starts at 0 and ends at
`2 ^ 53 + 1` ms and whose last cue starts at 1, the identity sync (targets 0 and 1) changes the
end of the first cue to `2 ^ 53`: the conversion to `float64` cannot hold `2 ^ 53 + 1`. -/
theorem identity_sync_counterexample :
    sync_subs zeroConv
        [{ text := [], start := 0, end_ := 9007199254740993 },
         { text := [], start := 1, end_ := 2 }] 0 1 =
      some [{ text := [], start := 0, end_ := 9007199254740992 },
            { text := [], start := 1, end_ := 2 }] := by
  decide!

/-- C7 (amended): identity sync. For every document whose first cue starts strictly before its
last cue and in which every start and end is at most `2 ^ 53` ms, `sync_subs` called with the
existing first and last start values returns the document unchanged, whatever the
implementation-dependent conversions do. -/
theorem sync_subs_identity (cv : Conv) (subs : List subtitle) (first last : subtitle)
    (hf : subs.head? = some first) (hl : subs.getLast? = some last)
    (hlt : first.start < last.start)
    (hb : ∀ s ∈ subs, s.start ≤ 2 ^ 53 ∧ s.end_ ≤ 2 ^ 53) :
    sync_subs cv subs first.start last.start = some subs :=
  sync_subs_identity_aux cv subs first last hf hl hlt hb

/-- Witness for C7 (amended): two cues, the second ending at `2 ^ 53` ms. -/
theorem sync_subs_identity_witness :
    ([⟨[], 10000, 12000⟩, ⟨[], 100000, 9007199254740992⟩] : List subtitle).head? =
      some ⟨[], 10000, 12000⟩ ∧
    ([⟨[], 10000, 12000⟩, ⟨[], 100000, 9007199254740992⟩] : List subtitle).getLast? =
      some ⟨[], 100000, 9007199254740992⟩ ∧
    (10000 < 100000) ∧
    (∀ s ∈ ([⟨[], 10000, 12000⟩, ⟨[], 100000, 9007199254740992⟩] : List subtitle),
      s.start ≤ 2 ^ 53 ∧ s.end_ ≤ 2 ^ 53) ∧
    sync_subs zeroConv [⟨[], 10000, 12000⟩, ⟨[], 100000, 9007199254740992⟩] 10000 100000 =
      some [⟨[], 10000, 12000⟩, ⟨[], 100000, 9007199254740992⟩] :=
  ⟨rfl, rfl, by decide, by decide,
    sync_subs_identity zeroConv [⟨[], 10000, 12000⟩, ⟨[], 100000, 9007199254740992⟩]
      ⟨[], 10000, 12000⟩ ⟨[], 100000, 9007199254740992⟩ rfl rfl (by decide) (by decide)⟩

/-- A bound on the magnitude turns the error of a rounding into a number. -/
theorem err_le {a x M e : ℚ} (h : |a - x| ≤ 2 ^ (-53 : Int) * |x| + 2 ^ (-1075 : Int))
    (hM : |x| ≤ M) (he : 2 ^ (-53 : Int) * M + 2 ^ (-1075 : Int) ≤ e) : |a - x| ≤ e := by
  have := mul_le_mul_of_nonneg_left hM (le_of_lt (two_zpow_pos (-53)))
  linarith

theorem abs_le_of_err {a x M e : ℚ} (h : |a - x| ≤ e) (hM : |x| ≤ M) : |a| ≤ M + e := by
  rw [abs_le] at h hM ⊢
  constructor <;> linarith

/-- The rounding errors of `sync_subs` at the two anchors stay below half a millisecond when
the anchors and the targets are below `2 ^ 25`. Here `s`, `p1`, `p2`, `b`, `r1`, `r2` are the
rounded slope, products, intercept and sums. -/
theorem endpoint_error {x1 x2 y1 y2 s p1 p2 b r1 r2 : ℚ}
    (hx1 : 0 ≤ x1) (hx12 : x1 + 1 ≤ x2) (hx2 : x2 ≤ 2 ^ 25)
    (hy1 : 0 ≤ y1) (hy12 : y1 ≤ y2) (hy2 : y2 ≤ 2 ^ 25)
    (hs : |s - (y2 - y1) / (x2 - x1)| ≤
      2 ^ (-53 : Int) * |(y2 - y1) / (x2 - x1)| + 2 ^ (-1075 : Int))
    (hp1 : |p1 - s * x1| ≤ 2 ^ (-53 : Int) * |s * x1| + 2 ^ (-1075 : Int))
    (hp2 : |p2 - s * x2| ≤ 2 ^ (-53 : Int) * |s * x2| + 2 ^ (-1075 : Int))
    (hb : |b - (y2 - p2)| ≤ 2 ^ (-53 : Int) * |y2 - p2| + 2 ^ (-1075 : Int))
    (hr1 : |r1 - (p1 + b)| ≤ 2 ^ (-53 : Int) * |p1 + b| + 2 ^ (-1075 : Int))
    (hr2 : |r2 - (p2 + b)| ≤ 2 ^ (-53 : Int) * |p2 + b| + 2 ^ (-1075 : Int)) :
    |r1 - y1| < 1 / 2 ∧ |r2 - y2| < 1 / 2 := by
  have hD : (1 : ℚ) ≤ x2 - x1 := by linarith
  have hDpos : (0 : ℚ) < x2 - x1 := by linarith
  have hY0 : 0 ≤ y2 - y1 := by linarith
  set Yd : ℚ := (y2 - y1) / (x2 - x1) with hYd
  have hYd0 : 0 ≤ Yd := div_nonneg hY0 (le_of_lt hDpos)
  have hYdD : Yd * (x2 - x1) = y2 - y1 := div_mul_cancel₀ _ (ne_of_gt hDpos)
  have hYdle : Yd ≤ 2 ^ 25 := by
    rw [hYd, div_le_iff₀ hDpos]
    nlinarith
  have hYdabs : |Yd| ≤ 2 ^ 25 := by rw [abs_of_nonneg hYd0]; exact hYdle
  -- the slope
  have es := err_le hs hYdabs (e := 1 / 2 ^ 27) (by norm_num)
  have hsabs : |s| ≤ 2 ^ 25 + 1 / 2 ^ 27 := abs_le_of_err es hYdabs
  -- the error of the slope, multiplied by the distance of the anchors
  have hsD : |(Yd - s) * (x2 - x1)| ≤ 1 / 2 ^ 27 := by
    have hs2 : |s - Yd| ≤ 2 ^ (-53 : Int) * Yd + 2 ^ (-1075 : Int) := by
      rw [abs_of_nonneg hYd0] at hs; exact hs
    rw [abs_mul, abs_of_pos hDpos, abs_sub_comm]
    have h1 : |s - Yd| * (x2 - x1) ≤ (2 ^ (-53 : Int) * Yd + 2 ^ (-1075 : Int)) * (x2 - x1) :=
      mul_le_mul_of_nonneg_right hs2 (le_of_lt hDpos)
    have h2 : (2 ^ (-53 : Int) * Yd + 2 ^ (-1075 : Int)) * (x2 - x1) =
        2 ^ (-53 : Int) * (y2 - y1) + 2 ^ (-1075 : Int) * (x2 - x1) := by
      rw [add_mul, mul_assoc, hYdD]
    have h3 : (2 : ℚ) ^ (-53 : Int) * (y2 - y1) ≤ 2 ^ (-53 : Int) * 2 ^ 25 :=
      mul_le_mul_of_nonneg_left (by linarith) (le_of_lt (two_zpow_pos _))
    have h4 : (2 : ℚ) ^ (-1075 : Int) * (x2 - x1) ≤ 2 ^ (-1075 : Int) * 2 ^ 25 :=
      mul_le_mul_of_nonneg_left (by linarith) (le_of_lt (two_zpow_pos _))
    have h5 : (2 : ℚ) ^ (-53 : Int) * 2 ^ 25 + 2 ^ (-1075 : Int) * 2 ^ 25 ≤ 1 / 2 ^ 27 := by
      norm_num
    exact le_trans h1 (le_trans (le_of_eq h2) (le_trans (add_le_add h3 h4) h5))
  -- the products
  have hx1abs : |x1| ≤ 2 ^ 25 := by rw [abs_of_nonneg hx1]; linarith
  have hx2abs : |x2| ≤ 2 ^ 25 := by rw [abs_of_nonneg (by linarith)]; exact hx2
  have hsx1 : |s * x1| ≤ (2 ^ 25 + 1 / 2 ^ 27) * 2 ^ 25 := by
    rw [abs_mul]; exact mul_le_mul hsabs hx1abs (abs_nonneg _) (by norm_num)
  have hsx2 : |s * x2| ≤ (2 ^ 25 + 1 / 2 ^ 27) * 2 ^ 25 := by
    rw [abs_mul]; exact mul_le_mul hsabs hx2abs (abs_nonneg _) (by norm_num)
  have ep1 := err_le hp1 hsx1 (e := 1 / 8 + 1 / 2 ^ 54) (by norm_num)
  have ep2 := err_le hp2 hsx2 (e := 1 / 8 + 1 / 2 ^ 54) (by norm_num)
  have hp2abs := abs_le_of_err ep2 hsx2
  -- the intercept
  have hq : |y2 - p2| ≤ 2 ^ 50 + 2 ^ 26 := by
    rw [abs_le] at hp2abs ⊢
    constructor <;> norm_num at hp2abs ⊢ <;> linarith
  have eb := err_le hb hq (e := 1 / 8 + 1 / 2 ^ 26) (by norm_num)
  -- the sums
  have d2 : |p2 + b - y2| ≤ 1 / 8 + 1 / 2 ^ 26 := by
    have : p2 + b - y2 = b - (y2 - p2) := by ring
    rw [this]; exact eb
  have d1 : |p1 + b - y1| ≤ 3 / 8 + 1 / 2 ^ 25 := by
    have : p1 + b - y1 = (p1 - s * x1) + (b - (y2 - p2)) - (p2 - s * x2) +
        (Yd - s) * (x2 - x1) := by
      rw [sub_mul, hYdD]; ring
    rw [this]
    rw [abs_le] at ep1 ep2 eb hsD ⊢
    constructor <;> norm_num at ep1 ep2 eb hsD ⊢ <;> linarith
  have a2 : |p2 + b| ≤ 2 ^ 26 := by
    rw [abs_le] at d2 ⊢
    constructor <;> norm_num at d2 ⊢ <;> linarith
  have a1 : |p1 + b| ≤ 2 ^ 26 := by
    rw [abs_le] at d1 ⊢
    constructor <;> norm_num at d1 ⊢ <;> linarith
  have er1 := err_le hr1 a1 (e := 1 / 2 ^ 26) (by norm_num)
  have er2 := err_le hr2 a2 (e := 1 / 2 ^ 26) (by norm_num)
  constructor
  · have : r1 - y1 = (r1 - (p1 + b)) + (p1 + b - y1) := by ring
    rw [this, abs_lt]
    rw [abs_le] at er1 d1
    constructor <;> norm_num at er1 d1 ⊢ <;> linarith
  · have : r2 - y2 = (r2 - (p2 + b)) + (p2 + b - y2) := by ring
    rw [this, abs_lt]
    rw [abs_le] at er2 d2
    constructor <;> norm_num at er2 d2 ⊢ <;> linarith

theorem roundHalfAway_eq_of_close (r : ℚ) (n : Int) (h : |r - n| < 1 / 2) :
    roundHalfAway r = n := by
  rw [abs_lt] at h
  unfold roundHalfAway
  split_ifs
  · rw [Int.floor_eq_iff]; constructor <;> linarith
  · rw [Int.ceil_eq_iff]; constructor <;> linarith

/-- A `float64` within half a millisecond of a time `n` is rounded and converted to `n`. -/
theorem round_to_target (cv : Conv) (r : ℚ) (n : Nat) (hr : IsF64 r) (hn : n < 2 ^ 25)
    (h : |r - n| < 1 / 2) : F64.toUint cv (roundFloat64 cv (.fin r)) = n := by
  have hn2 : n < 33554432 := by omega
  have hnq : (n : ℚ) < 33554432 := by exact_mod_cast hn2
  have hn0 : (0 : ℚ) ≤ n := by positivity
  have hrabs : |r| < 2 ^ 26 := by
    rw [abs_lt] at h ⊢
    constructor <;> norm_num <;> linarith
  have htr : |(truncQ r : ℚ)| < 2 ^ 26 := lt_of_le_of_lt (truncQ_abs_le r) hrabs
  have htr2 : |truncQ r| < 2 ^ 26 := by
    have : ((|truncQ r| : Int) : ℚ) < ((2 ^ 26 : Int) : ℚ) := by
      rw [Int.cast_abs]; exact lt_of_lt_of_le htr (by norm_num)
    exact_mod_cast this
  have hrange : -(2 ^ 63) ≤ truncQ r ∧ truncQ r < 2 ^ 63 := by
    rw [abs_lt] at htr2
    constructor <;> omega
  have hround : roundHalfAway r = (n : Int) := roundHalfAway_eq_of_close r n (by simpa using h)
  rw [roundFloat64_eq cv hr hrange, hround]
  have := toUint_nat cv n (lt_trans hn (by norm_num))
  simpa using this

/-- The floating-point computation of `sync_subs` at the two anchors, for anchors and
targets below `2 ^ 25`: every rounding gives a finite value and the two results are within
half a millisecond of the targets. -/
theorem sync_anchor_values {x1 x2 y1 y2 : ℚ}
    (hx1 : 0 ≤ x1) (hx12 : x1 + 1 ≤ x2) (hx2 : x2 ≤ 2 ^ 25)
    (hy1 : 0 ≤ y1) (hy12 : y1 ≤ y2) (hy2 : y2 ≤ 2 ^ 25) :
    ∃ s p1 p2 b r1 r2, F64.ofRat ((y2 - y1) / (x2 - x1)) = .fin s ∧
      F64.ofRat (s * x1) = .fin p1 ∧ F64.ofRat (s * x2) = .fin p2 ∧
      F64.ofRat (y2 - p2) = .fin b ∧
      F64.ofRat (p1 + b) = .fin r1 ∧ F64.ofRat (p2 + b) = .fin r2 ∧
      IsF64 r1 ∧ IsF64 r2 ∧ |r1 - y1| < 1 / 2 ∧ |r2 - y2| < 1 / 2 := by
  -- the slope
  have hYd0 : 0 ≤ (y2 - y1) / (x2 - x1) := div_nonneg (by linarith) (by linarith)
  have hYdle : (y2 - y1) / (x2 - x1) ≤ 2 ^ 25 := by
    rw [div_le_iff₀ (by linarith)]
    nlinarith
  have hYdabs : |(y2 - y1) / (x2 - x1)| ≤ 2 ^ 25 := by rw [abs_of_nonneg hYd0]; exact hYdle
  obtain ⟨s, hs1, _, hs3⟩ := ofRat_error ((y2 - y1) / (x2 - x1))
    (le_trans hYdabs (by norm_num))
  have hsabs : |s| ≤ 2 ^ 26 :=
    le_trans (abs_le_of_err (err_le hs3 hYdabs (M := 2 ^ 25) (e := 1) (by norm_num)) hYdabs)
      (by norm_num)
  -- the products
  have hprod : ∀ t : ℚ, 0 ≤ t → t ≤ 2 ^ 25 → |s * t| ≤ 2 ^ 51 := by
    intro t h0 h1
    rw [abs_mul, abs_of_nonneg h0]
    calc |s| * t ≤ 2 ^ 26 * 2 ^ 25 := mul_le_mul hsabs h1 h0 (by norm_num)
      _ = 2 ^ 51 := by norm_num
  have hsx1 := hprod x1 hx1 (by linarith)
  have hsx2 := hprod x2 (by linarith) hx2
  obtain ⟨p2, hp21, _, hp23⟩ := ofRat_error (s * x2) (le_trans hsx2 (by norm_num))
  obtain ⟨p1, hp11, _, hp13⟩ := ofRat_error (s * x1) (le_trans hsx1 (by norm_num))
  have hp2abs : |p2| ≤ 2 ^ 52 :=
    le_trans (abs_le_of_err (err_le hp23 hsx2 (M := 2 ^ 51) (e := 1) (by norm_num)) hsx2)
      (by norm_num)
  have hp1abs : |p1| ≤ 2 ^ 52 :=
    le_trans (abs_le_of_err (err_le hp13 hsx1 (M := 2 ^ 51) (e := 1) (by norm_num)) hsx1)
      (by norm_num)
  -- the intercept
  have hq : |y2 - p2| ≤ 2 ^ 53 := by
    rw [abs_le] at hp2abs ⊢
    constructor <;> norm_num at hp2abs hy2 ⊢ <;> linarith
  obtain ⟨b, hb1, _, hb3⟩ := ofRat_error (y2 - p2) (le_trans hq (by norm_num))
  have hbabs : |b| ≤ 2 ^ 54 :=
    le_trans (abs_le_of_err (err_le hb3 hq (M := 2 ^ 53) (e := 2) (by norm_num)) hq)
      (by norm_num)
  -- the sums
  have hsum : ∀ p : ℚ, |p| ≤ 2 ^ 52 → |p + b| ≤ 2 ^ 1000 := by
    intro p hp
    have := abs_add p b
    have h3 : (2 : ℚ) ^ 52 + 2 ^ 54 ≤ 2 ^ 1000 := by norm_num
    linarith
  obtain ⟨r2, hr21, hr22, hr23⟩ := ofRat_error (p2 + b) (hsum p2 hp2abs)
  obtain ⟨r1, hr11, hr12, hr13⟩ := ofRat_error (p1 + b) (hsum p1 hp1abs)
  obtain ⟨e1, e2⟩ := endpoint_error hx1 hx12 hx2 hy1 hy12 hy2 hs3 hp13 hp23 hb3 hr13 hr23
  exact ⟨s, p1, p2, b, r1, r2, hs1, hp11, hp21, hb1, hr11, hr21, hr12, hr22, e1, e2⟩

theorem map_endpoints {α β : Type} (f : α → β) (l : List α) (a z : α)
    (hf : l.head? = some a) (hl : l.getLast? = some z) :
    (l.map f).head? = some (f a) ∧ (l.map f).getLast? = some (f z) := by
  rw [List.head?_map, List.getLast?_map, hf, hl]
  exact ⟨rfl, rfl⟩

theorem sync_subs_endpoints_aux (cv : Conv) (subs : List subtitle) (first last : subtitle)
    (y1 y2 : Nat) (hf : subs.head? = some first) (hl : subs.getLast? = some last)
    (hlt : first.start < last.start) (hx : last.start < 2 ^ 25)
    (hy : y1 ≤ y2) (hy2 : y2 < 2 ^ 25) :
    ∃ out fo lo, sync_subs cv subs y1 y2 = some out ∧ out.head? = some fo ∧
      out.getLast? = some lo ∧ fo.start = y1 ∧ lo.start = y2 := by
  have c64 : (2 : Nat) ^ 25 < 2 ^ 64 := by norm_num
  have hx1q : (0 : ℚ) ≤ (first.start : ℚ) := by positivity
  have hx12q : (first.start : ℚ) + 1 ≤ last.start := by exact_mod_cast hlt
  have hx2q : (last.start : ℚ) ≤ 2 ^ 25 := by exact_mod_cast le_of_lt hx
  have hy1q : (0 : ℚ) ≤ (y1 : ℚ) := by positivity
  have hy12q : (y1 : ℚ) ≤ y2 := by exact_mod_cast hy
  have hy2q : (y2 : ℚ) ≤ 2 ^ 25 := by exact_mod_cast le_of_lt hy2
  have hDne : ((last.start - first.start : Nat) : ℚ) ≠ 0 := by
    have : 0 < last.start - first.start := by omega
    exact_mod_cast (ne_of_gt this)
  have hYc : ((y2 - y1 : Nat) : ℚ) = (y2 : ℚ) - y1 := Nat.cast_sub hy
  have hDc : ((last.start - first.start : Nat) : ℚ) = (last.start : ℚ) - first.start :=
    Nat.cast_sub (le_of_lt hlt)
  obtain ⟨s, p1, p2, b, r1, r2, hs1, hp11, hp21, hb1, hr11, hr21, hr12, hr22, e1, e2⟩ :=
    sync_anchor_values hx1q hx12q hx2q hy1q hy12q hy2q
  unfold sync_subs
  rw [hf, hl]
  simp only []
  rw [wrap_sub _ _ hy (lt_trans hy2 c64), wrap_sub _ _ (le_of_lt hlt) (lt_trans hx c64),
    ofInt_nat _ (by omega), ofInt_nat _ (by omega), ofInt_nat _ (by omega),
    ofInt_nat _ (by omega), F64_div_fin _ _ hDne, hYc, hDc, hs1, F64_mul_fin, hp21, F64_sub_fin, hb1]
  refine ⟨_, _, _, rfl, (map_endpoints _ subs first last hf hl).1,
    (map_endpoints _ subs first last hf hl).2, ?_, ?_⟩
  · simp only []
    rw [ofInt_nat _ (by omega), F64_mul_fin, hp11, F64_add_fin, hr11]
    exact round_to_target cv r1 y1 hr12 (lt_of_le_of_lt hy hy2) e1
  · simp only []
    rw [ofInt_nat _ (by omega), F64_mul_fin, hp21, F64_add_fin, hr21]
    exact round_to_target cv r2 y2 hr22 hy2 e2

/-- C2 (as stated, refuted): (1) with the cues out of order (first start 1, last start 0) and
targets 0 and 1, the unsigned difference of the starts wraps to `2 ^ 64 - 1` and both cues
end up at 1, so the first cue does not start at the first target; (2) with starts 0 and 1 and
the last target `2 ^ 53 + 1`, the last cue starts at `2 ^ 53`; (3) with starts 132120736 and
132120737 (about 37 hours) and targets 63 and 132127418, the first cue starts at 62. -/
theorem endpoint_counterexample :
    sync_subs zeroConv [⟨[], 1, 1⟩, ⟨[], 0, 0⟩] 0 1 = some [⟨[], 1, 1⟩, ⟨[], 1, 1⟩] ∧
    sync_subs zeroConv [⟨[], 0, 0⟩, ⟨[], 1, 1⟩] 0 9007199254740993 =
      some [⟨[], 0, 0⟩, ⟨[], 9007199254740992, 9007199254740992⟩] ∧
    sync_subs zeroConv [⟨[], 132120736, 132120736⟩, ⟨[], 132120737, 132120737⟩] 63 132127418 =
      some [⟨[], 62, 62⟩, ⟨[], 132127418, 132127418⟩] := by
  refine ⟨?_, ?_, ?_⟩ <;> decide!

/-- C2 (amended): endpoint exactness. For every document whose first cue starts strictly
before its last cue, with the last start below `2 ^ 25` ms (about 9.3 hours), and for all
targets `synced_first_ms ≤ synced_last_ms < 2 ^ 25`, after `sync_subs` the first cue starts
exactly at `synced_first_ms` and the last cue exactly at `synced_last_ms`, whatever the
implementation-dependent conversions do. -/
theorem sync_subs_endpoints (cv : Conv) (subs : List subtitle) (first last : subtitle)
    (synced_first_ms synced_last_ms : Nat)
    (hf : subs.head? = some first) (hl : subs.getLast? = some last)
    (hlt : first.start < last.start) (hx : last.start < 2 ^ 25)
    (hy : synced_first_ms ≤ synced_last_ms) (hy2 : synced_last_ms < 2 ^ 25) :
    ∃ out fo lo, sync_subs cv subs synced_first_ms synced_last_ms = some out ∧
      out.head? = some fo ∧ out.getLast? = some lo ∧
      fo.start = synced_first_ms ∧ lo.start = synced_last_ms :=
  sync_subs_endpoints_aux cv subs first last synced_first_ms synced_last_ms hf hl hlt hx hy hy2

/-- Witness for C2 (amended): the two cues of the end-to-end scenario, resynced to 0 and
60000 ms. -/
theorem sync_subs_endpoints_witness :
    ([⟨[], 10000, 12000⟩, ⟨[], 100000, 102000⟩] : List subtitle).head? =
      some ⟨[], 10000, 12000⟩ ∧
    ([⟨[], 10000, 12000⟩, ⟨[], 100000, 102000⟩] : List subtitle).getLast? =
      some ⟨[], 100000, 102000⟩ ∧
    (10000 < 100000 ∧ 100000 < 2 ^ 25 ∧ 0 ≤ 60000 ∧ 60000 < 2 ^ 25) ∧
    ∃ out fo lo,
      sync_subs zeroConv [⟨[], 10000, 12000⟩, ⟨[], 100000, 102000⟩] 0 60000 = some out ∧
      out.head? = some fo ∧ out.getLast? = some lo ∧ fo.start = 0 ∧ lo.start = 60000 :=
  ⟨rfl, rfl, by decide,
    sync_subs_endpoints zeroConv [⟨[], 10000, 12000⟩, ⟨[], 100000, 102000⟩]
      ⟨[], 10000, 12000⟩ ⟨[], 100000, 102000⟩ 0 60000 rfl rfl
      (by decide) (by decide) (by decide) (by decide)⟩

theorem Sscanf4_fields {w1 d1 w2 d2 w3 d3 w4 d4 tail : List Nat}
    (hw : IsBlank w1 ∧ IsBlank w2 ∧ IsBlank w3 ∧ IsBlank w4)
    (hd : IsNumeral d1 ∧ IsNumeral d2 ∧ IsNumeral d3 ∧ IsNumeral d4)
    (hv : decVal d1 < 2 ^ 64 ∧ decVal d2 < 2 ^ 64 ∧ decVal d3 < 2 ^ 64 ∧ decVal d4 < 2 ^ 64)
    (ht : ∀ b ∈ tail.head?, isNumberByte b = false) :
    Sscanf4 (w1 ++ d1 ++ 58 :: (w2 ++ d2 ++ 58 :: (w3 ++ d3 ++ 44 :: (w4 ++ d4 ++ tail)))) =
      some (decVal d1, decVal d2, decVal d3, decVal d4) := by
  unfold Sscanf4
  rw [scanUint_blank_numeral hw.1 hd.1 hv.1 _ (by intro b hb; simp at hb; subst hb; decide)]
  simp only [expectByte, if_true]
  rw [scanUint_blank_numeral hw.2.1 hd.2.1 hv.2.1 _ (by intro b hb; simp at hb; subst hb; decide)]
  simp only [expectByte, if_true]
  rw [scanUint_blank_numeral hw.2.2.1 hd.2.2.1 hv.2.2.1 _
    (by intro b hb; simp at hb; subst hb; decide)]
  simp only [expectByte, if_true]
  rw [scanUint_blank_numeral hw.2.2.2 hd.2.2.2 hv.2.2.2 _ ht]

theorem time_to_msecs_sum (h m s ms : Nat) :
    wrap (wrap (wrap (wrap (wrap (wrap (h * 60) * 60) * 1000) + wrap (wrap (m * 60) * 1000)) +
      wrap (s * 1000)) + ms) = (h * 3600000 + m * 60000 + s * 1000 + ms) % 2 ^ 64 := by
  unfold wrap intBits
  omega

/-- C11 (as stated, refuted): the text `1.2` is rejected and the error names `1,2`, the text
after the replacement of its first `.`, not the text that was passed in. -/
theorem error_text_counterexample :
    time_to_msecs (ascii "1.2") = .error (.cannotConvert (ascii "1,2")) ∧
    time_to_msecs (ascii "1.2") ≠ .error (.cannotConvert (ascii "1.2")) := by
  decide

/-- C11 (amended): whenever `time_to_msecs` fails, the error names the text in which the first
`.` has been replaced by `,`; this is the text that was passed in exactly when that text
contains no `.`. -/
theorem time_to_msecs_error_text (tm : List Nat) (e : Err) (h : time_to_msecs tm = .error e) :
    e = .cannotConvert (replaceFirstDot tm) ∧ (e = .cannotConvert tm ↔ 46 ∉ tm) := by
  have he : e = .cannotConvert (replaceFirstDot tm) := by
    unfold time_to_msecs at h
    simp only [] at h
    split at h
    · simp only [Except.error.injEq] at h
      exact h.symm
    · exact absurd h (by simp)
  refine ⟨he, ?_⟩
  rw [he]
  constructor
  · intro h2 hmem
    simp only [Err.cannotConvert.injEq] at h2
    have key : ∀ l : List Nat, 46 ∈ l → replaceFirstDot l ≠ l := by
      intro l
      induction l with
      | nil => intro hm; simp at hm
      | cons b t ih =>
        intro hm
        unfold replaceFirstDot
        by_cases hb : b = 46
        · rw [if_pos hb, hb]; simp
        · rw [if_neg hb]
          have : 46 ∈ t := by
            rcases List.mem_cons.mp hm with h3 | h3
            · exact absurd h3.symm hb
            · exact h3
          simpa using ih this
    exact key tm hmem h2
  · intro hn
    rw [replaceFirstDot_of_not_mem _ hn]

/-- Witness for C11 (amended): the text `x`. -/
theorem time_to_msecs_error_text_witness :
    time_to_msecs (ascii "x") = .error (.cannotConvert (ascii "x")) ∧
    (Err.cannotConvert (ascii "x") = .cannotConvert (replaceFirstDot (ascii "x")) ∧
      (Err.cannotConvert (ascii "x") = .cannotConvert (ascii "x") ↔ 46 ∉ ascii "x")) :=
  ⟨by decide, time_to_msecs_error_text (ascii "x") (.cannotConvert (ascii "x")) (by decide)⟩

/-- C20: `read_srt` applied to the empty input succeeds with the empty document, `write_srt`
applied to the empty document writes nothing, and `sync_subs` applied to the empty document
dereferences a nil element: a successful parse does not establish that the document is
non-empty. -/
theorem empty_document :
    read_srt [] = .ok [] ∧ write_srt [] = [] ∧
    ∀ (cv : Conv) (synced_first_ms synced_last_ms : Nat),
      sync_subs cv [] synced_first_ms synced_last_ms = none := by
  refine ⟨by decide, rfl, fun _ _ _ => rfl⟩

theorem digitsRev_length (fuel : Nat) : ∀ n k, n ≤ fuel →
    (n < 10 ^ (k + 1) → (digitsRev fuel n).length ≤ k + 1) ∧
      (10 ^ k ≤ n → k + 1 ≤ (digitsRev fuel n).length) := by
  induction fuel with
  | zero =>
    intro n k h
    have : n = 0 := by omega
    subst this
    have hp : 0 < 10 ^ k := Nat.pow_pos (by norm_num)
    simp only [digitsRev, List.length_singleton]
    exact ⟨fun _ => by omega, fun h2 => by omega⟩
  | succ f ih =>
    intro n k h
    unfold digitsRev
    by_cases h10 : n < 10
    · rw [if_pos h10]
      simp only [List.length_singleton]
      refine ⟨fun _ => by omega, fun h2 => ?_⟩
      cases k with
      | zero => omega
      | succ j =>
        have hp : 0 < 10 ^ j := Nat.pow_pos (by norm_num)
        rw [Nat.pow_succ] at h2
        omega
    · rw [if_neg h10]
      simp only [List.length_cons]
      cases k with
      | zero => exact ⟨fun h2 => by omega, fun _ => by omega⟩
      | succ j =>
        obtain ⟨i1, i2⟩ := ih (n / 10) j (by omega)
        rw [Nat.pow_succ]
        constructor
        · intro h2
          have := i1 (by rw [Nat.pow_succ]; omega)
          omega
        · intro h2
          have := i2 (by omega)
          omega

theorem digitsRev_getLast (fuel : Nat) : ∀ n, n ≤ fuel → 1 ≤ n →
    (digitsRev fuel n).getLast? ≠ some 48 := by
  induction fuel with
  | zero => intro n h h1; omega
  | succ f ih =>
    intro n h h1
    unfold digitsRev
    by_cases h10 : n < 10
    · rw [if_pos h10]
      simp only [List.getLast?_singleton, ne_eq, Option.some.injEq]
      omega
    · rw [if_neg h10]
      have hne := (digitsRev_spec f (n / 10) (by omega)).2.2
      obtain ⟨a, l, hl⟩ := List.exists_cons_of_ne_nil hne
      rw [hl, List.getLast?_cons_cons, ← hl]
      exact ih (n / 10) (by omega) (by omega)

theorem fmtUintPad_length (w n : Nat) :
    (fmtUintPad w n).length = max w (fmtUint n).length := by
  simp only [fmtUintPad, List.length_append, List.length_replicate]
  omega

theorem fmtUint_length_le (n k : Nat) (h : n < 10 ^ (k + 1)) : (fmtUint n).length ≤ k + 1 := by
  simp only [fmtUint, List.length_reverse]
  exact (digitsRev_length n n k le_rfl).1 h

theorem fmtUint_length_ge (n k : Nat) (h : 10 ^ k ≤ n) : k + 1 ≤ (fmtUint n).length := by
  simp only [fmtUint, List.length_reverse]
  exact (digitsRev_length n n k le_rfl).2 h

theorem fmtUint_length_pos (n : Nat) : 1 ≤ (fmtUint n).length := by
  have := (fmtUint_numeral n).1
  exact List.length_pos.mpr this

/-- The padded field: at least `w` bytes, and no `0` in front beyond that width. -/
theorem fmtUintPad_head (w n : Nat) (hw : 1 ≤ w) (h : w < (fmtUintPad w n).length) :
    (fmtUintPad w n).head? ≠ some 48 := by
  rw [fmtUintPad_length] at h
  have hl : w < (fmtUint n).length := by omega
  have hn : 1 ≤ n := by
    by_contra hc
    have : n < 10 ^ (0 + 1) := by omega
    have := fmtUint_length_le n 0 this
    omega
  have hz : w - (fmtUint n).length = 0 := by omega
  unfold fmtUintPad
  rw [hz, List.replicate_zero, List.nil_append, fmtUint, List.head?_reverse]
  exact digitsRev_getLast n n le_rfl hn

theorem count_numeral {ds : List Nat} (hd : IsNumeral ds) (c : Nat) (hc : isDigit c = false) :
    ds.count c = 0 :=
  List.count_eq_zero.mpr (not_mem_numeral hd c hc)

theorem msecs_to_time_eq (ms : Nat) :
    msecs_to_time ms = fmtUintPad 2 (ms / 3600000) ++ [58] ++
      fmtUintPad 2 (ms % 3600000 / 60000) ++ [58] ++ fmtUintPad 2 (ms % 60000 / 1000) ++ [44] ++
      fmtUintPad 3 (ms % 1000) := by
  have e1 : ms % (60 * 60 * 1000) % (60 * 1000) / 1000 = ms % 60000 / 1000 := by omega
  have e2 : ms % (60 * 60 * 1000) % (60 * 1000) % 1000 = ms % 1000 := by omega
  simp only [msecs_to_time, e1, e2]

theorem fmtUintPad_length_eq (w n : Nat) (hw : 1 ≤ w) (h : n < 10 ^ w) :
    (fmtUintPad w n).length = w := by
  obtain ⟨k, rfl⟩ : ∃ k, w = k + 1 := ⟨w - 1, by omega⟩
  rw [fmtUintPad_length]
  have := fmtUint_length_le n k h
  omega

/-- C12: the text written by `msecs_to_time` is `H : M : S , F`, four numerals whose values
are the hours `ms / 3600000`, the minutes `ms % 3600000 / 60000`, the seconds
`ms % 60000 / 1000` and the milliseconds `ms % 1000`; `H` has at least two digits and no
padding beyond two, `M` and `S` have exactly two digits and `F` exactly three. The text has
exactly two `:` and one `,`, minutes and seconds are below 60, and the text has 12 bytes when
`ms` is below 100 hours. -/
theorem msecs_to_time_format (ms : Nat) :
    ∃ H M S F : List Nat,
      msecs_to_time ms = H ++ [58] ++ M ++ [58] ++ S ++ [44] ++ F ∧
      (IsNumeral H ∧ decVal H = ms / 3600000 ∧ 2 ≤ H.length ∧
        (2 < H.length → H.head? ≠ some 48)) ∧
      (IsNumeral M ∧ decVal M = ms % 3600000 / 60000 ∧ M.length = 2) ∧
      (IsNumeral S ∧ decVal S = ms % 60000 / 1000 ∧ S.length = 2) ∧
      (IsNumeral F ∧ decVal F = ms % 1000 ∧ F.length = 3) ∧
      (msecs_to_time ms).count 58 = 2 ∧ (msecs_to_time ms).count 44 = 1 ∧
      decVal M < 60 ∧ decVal S < 60 ∧
      (ms < 100 * 3600000 → (msecs_to_time ms).length = 12) := by
  have hM : ms % 3600000 / 60000 < 60 := by omega
  have hS : ms % 60000 / 1000 < 60 := by omega
  have hF : ms % 1000 < 1000 := by omega
  have lM := fmtUintPad_length_eq 2 (ms % 3600000 / 60000) (by norm_num) (by norm_num; omega)
  have lS := fmtUintPad_length_eq 2 (ms % 60000 / 1000) (by norm_num) (by norm_num; omega)
  have lF := fmtUintPad_length_eq 3 (ms % 1000) (by norm_num) (by norm_num; omega)
  have nH := fmtUintPad_numeral 2 (ms / 3600000)
  have nM := fmtUintPad_numeral 2 (ms % 3600000 / 60000)
  have nS := fmtUintPad_numeral 2 (ms % 60000 / 1000)
  have nF := fmtUintPad_numeral 3 (ms % 1000)
  refine ⟨fmtUintPad 2 (ms / 3600000), fmtUintPad 2 (ms % 3600000 / 60000),
    fmtUintPad 2 (ms % 60000 / 1000), fmtUintPad 3 (ms % 1000), msecs_to_time_eq ms,
    ⟨nH, decVal_fmtUintPad _ _, ?_, fmtUintPad_head 2 _ (by norm_num)⟩,
    ⟨nM, decVal_fmtUintPad _ _, lM⟩, ⟨nS, decVal_fmtUintPad _ _, lS⟩,
    ⟨nF, decVal_fmtUintPad _ _, lF⟩, ?_, ?_, ?_, ?_, ?_⟩
  · rw [fmtUintPad_length]; omega
  · rw [msecs_to_time_eq]
    simp only [List.count_append, count_numeral nH 58 (by decide),
      count_numeral nM 58 (by decide), count_numeral nS 58 (by decide),
      count_numeral nF 58 (by decide)]
    decide
  · rw [msecs_to_time_eq]
    simp only [List.count_append, count_numeral nH 44 (by decide),
      count_numeral nM 44 (by decide), count_numeral nS 44 (by decide),
      count_numeral nF 44 (by decide)]
    decide
  · rw [decVal_fmtUintPad]; exact hM
  · rw [decVal_fmtUintPad]; exact hS
  · intro h
    have lH := fmtUintPad_length_eq 2 (ms / 3600000) (by norm_num) (by norm_num; omega)
    rw [msecs_to_time_eq]
    simp only [List.length_append, List.length_singleton, lH, lM, lS, lF]

/-- Witness for C12: one second and a half. -/
theorem msecs_to_time_format_witness :
    (1500 : Nat) < 100 * 3600000 ∧ msecs_to_time 1500 = ascii "00:00:01,500" ∧
    ∃ H M S F : List Nat,
      msecs_to_time 1500 = H ++ [58] ++ M ++ [58] ++ S ++ [44] ++ F ∧
      (IsNumeral H ∧ decVal H = 1500 / 3600000 ∧ 2 ≤ H.length ∧
        (2 < H.length → H.head? ≠ some 48)) ∧
      (IsNumeral M ∧ decVal M = 1500 % 3600000 / 60000 ∧ M.length = 2) ∧
      (IsNumeral S ∧ decVal S = 1500 % 60000 / 1000 ∧ S.length = 2) ∧
      (IsNumeral F ∧ decVal F = 1500 % 1000 ∧ F.length = 3) ∧
      (msecs_to_time 1500).count 58 = 2 ∧ (msecs_to_time 1500).count 44 = 1 ∧
      decVal M < 60 ∧ decVal S < 60 ∧
      (1500 < 100 * 3600000 → (msecs_to_time 1500).length = 12) :=
  ⟨by decide, by decide, msecs_to_time_format 1500⟩

/-- C19: a text that `time_to_msecs` accepts has, after the replacement of its first `.`, four
numerals `d1 : d2 : d3 , d4` (each possibly preceded by white space, and text after the
fourth ignored), and the result is `d1 * 3600000 + d2 * 60000 + d3 * 1000 + d4` reduced
modulo `2 ^ 64`, whatever the values of the fields. So `0:00:01,5` gives 1005 and
`0:90:00,000` gives 5400000, and different texts, `0:90:00,000` and `1:30:00,000` among
them, give the same result. -/
theorem time_to_msecs_value :
    (∀ tm w1 d1 w2 d2 w3 d3 w4 d4 tail,
      replaceFirstDot tm =
        w1 ++ d1 ++ 58 :: (w2 ++ d2 ++ 58 :: (w3 ++ d3 ++ 44 :: (w4 ++ d4 ++ tail))) →
      (IsBlank w1 ∧ IsBlank w2 ∧ IsBlank w3 ∧ IsBlank w4) →
      (IsNumeral d1 ∧ IsNumeral d2 ∧ IsNumeral d3 ∧ IsNumeral d4) →
      (decVal d1 < 2 ^ 64 ∧ decVal d2 < 2 ^ 64 ∧ decVal d3 < 2 ^ 64 ∧ decVal d4 < 2 ^ 64) →
      (∀ b ∈ tail.head?, isNumberByte b = false) →
      time_to_msecs tm =
        .ok ((decVal d1 * 3600000 + decVal d2 * 60000 + decVal d3 * 1000 + decVal d4) %
          2 ^ 64)) ∧
    (∀ tm ms, time_to_msecs tm = .ok ms →
      ∃ w1 d1 w2 d2 w3 d3 w4 d4 tail,
        replaceFirstDot tm =
          w1 ++ d1 ++ 58 :: (w2 ++ d2 ++ 58 :: (w3 ++ d3 ++ 44 :: (w4 ++ d4 ++ tail))) ∧
        (IsBlank w1 ∧ IsBlank w2 ∧ IsBlank w3 ∧ IsBlank w4) ∧
        (IsNumeral d1 ∧ IsNumeral d2 ∧ IsNumeral d3 ∧ IsNumeral d4) ∧
        ms = (decVal d1 * 3600000 + decVal d2 * 60000 + decVal d3 * 1000 + decVal d4) %
          2 ^ 64) ∧
    time_to_msecs (ascii "0:00:01,5") = .ok 1005 ∧
    time_to_msecs (ascii "0:90:00,000") = .ok 5400000 ∧
    time_to_msecs (ascii "1:30:00,000") = .ok 5400000 ∧
    time_to_msecs (ascii "0:0:0,18446744073709551615") = .ok 18446744073709551615 ∧
    time_to_msecs (ascii "0:0:1,18446744073709550616") = .ok 0 := by
  refine ⟨?_, ?_, by decide, by decide, by decide, by decide, by decide⟩
  · intro tm w1 d1 w2 d2 w3 d3 w4 d4 tail ht hw hd hv htail
    unfold time_to_msecs
    simp only [ht, Sscanf4_fields hw hd hv htail, time_to_msecs_sum]
  · intro tm ms h
    have hs := (time_to_msecs_ok_iff tm).mp ⟨ms, h⟩
    obtain ⟨w1, d1, w2, d2, w3, d3, w4, d4, tail, ht, hw, hd, hv, htail⟩ := hs
    refine ⟨w1, d1, w2, d2, w3, d3, w4, d4, tail, ht, hw, hd, ?_⟩
    unfold time_to_msecs at h
    simp only [ht, Sscanf4_fields hw hd hv htail, time_to_msecs_sum, Except.ok.injEq] at h
    exact h.symm

/-- Witness for C19: the text `0:90:00,000`. -/
theorem time_to_msecs_value_witness :
    time_to_msecs (ascii "0:90:00,000") =
      .ok ((decVal (ascii "0") * 3600000 + decVal (ascii "90") * 60000 +
        decVal (ascii "00") * 1000 + decVal (ascii "000")) % 2 ^ 64) :=
  time_to_msecs_value.1 (ascii "0:90:00,000") [] (ascii "0") [] (ascii "90") [] (ascii "00") []
    (ascii "000") [] (by decide) ⟨⟨[], by simp, rfl⟩, ⟨[], by simp, rfl⟩, ⟨[], by simp, rfl⟩,
      ⟨[], by simp, rfl⟩⟩ (by decide) (by decide) (by simp)

theorem dropCR_of_clean (l : List Nat) (h : l.getLast? ≠ some 13) : dropCR l = l := by
  unfold dropCR
  rw [if_neg h]

/-- One terminated line is consumed by one iteration of the outer loop of `read_srt`. -/
theorem read_srt_loop_nl {nl : List Nat} (hnl : IsLineEnd nl) (st : ReadState) (l rest : List Nat)
    (hl : IsLine nl l) (fuel : Nat) (hfuel : (l ++ nl ++ rest).length < fuel) :
    read_srt_loop fuel st (l ++ nl ++ rest) =
      match read_srt_line st l false with
      | .error e => .error e
      | .ok (st1, _) => read_srt_loop fuel st1 rest := by
  rcases hnl with rfl | rfl
  · have e : l ++ [10] ++ rest = l ++ 10 :: rest := by simp
    rw [e] at hfuel ⊢
    rw [read_srt_loop_line st l rest hl.1 fuel hfuel, dropCR_of_clean l (hl.2 rfl)]
  · have e : l ++ [13, 10] ++ rest = (l ++ [13]) ++ 10 :: rest := by simp
    have h10 : 10 ∉ l ++ [13] := by
      simp only [List.mem_append, List.mem_singleton, not_or]
      exact ⟨hl.1, by decide⟩
    rw [e] at hfuel ⊢
    rw [read_srt_loop_line st _ rest h10 fuel hfuel, dropCR_append_cr]

theorem IsLine_nil (nl : List Nat) : IsLine nl [] :=
  ⟨by simp, fun _ => by simp⟩

theorem IsLine_numeral (nl : List Nat) {ds : List Nat} (hd : IsNumeral ds) : IsLine nl ds := by
  refine ⟨not_mem_numeral hd 10 (by decide), fun _ h => ?_⟩
  exact not_mem_numeral hd 13 (by decide) (List.mem_of_getLast?_eq_some h)

theorem length_nl_pos {nl : List Nat} (hnl : IsLineEnd nl) : 0 < nl.length := by
  rcases hnl with rfl | rfl <;> simp

/-- Reading the body lines of a cue and the blank line after them. -/
theorem read_srt_loop_body {nl : List Nat} (hnl : IsLineEnd nl) (rest : List Nat)
    (subs : List subtitle) :
    ∀ (lines : List (List Nat)), (∀ l ∈ lines, l ≠ [] ∧ IsLine nl l) →
    ∀ (sub : subtitle) (fuel : Nat), (joinLines nl lines ++ nl ++ rest).length < fuel →
    read_srt_loop fuel { state := 2, sub := sub, subs := subs }
        (joinLines nl lines ++ nl ++ rest) =
      read_srt_loop fuel
        { state := 0, sub := newSubtitle,
          subs := subs ++ [{ sub with text := sub.text ++ crlfLines lines }] } rest := by
  intro lines
  induction lines with
  | nil =>
    intro _ sub fuel hfuel
    have e : joinLines nl [] ++ nl ++ rest = [] ++ nl ++ rest := rfl
    rw [e] at hfuel ⊢
    rw [read_srt_loop_nl hnl _ [] rest (IsLine_nil nl) fuel hfuel, read_srt_line_blank _ rfl]
    simp [crlfLines]
  | cons l ls ih =>
    intro hl sub fuel hfuel
    obtain ⟨hne, hline⟩ := hl l (List.mem_cons_self _ _)
    have e : joinLines nl (l :: ls) ++ nl ++ rest = l ++ nl ++ (joinLines nl ls ++ nl ++ rest) := by
      simp [joinLines, List.append_assoc]
    rw [e] at hfuel ⊢
    rw [read_srt_loop_nl hnl _ l _ hline fuel hfuel, read_srt_line_text _ rfl l hne]
    simp only []
    rw [ih (fun x hx => hl x (List.mem_cons_of_mem _ hx)) _ fuel
      (by simp only [List.length_append] at hfuel ⊢; omega)]
    simp [crlfLines, List.append_assoc]

/-- Reading one well-formed cue. -/
theorem read_srt_loop_input_cue {nl : List Nat} (hnl : IsLineEnd nl) (c : InputCue)
    (sub : subtitle) (hc : CueOf nl c sub) (rest : List Nat) (subs : List subtitle) (fuel : Nat)
    (hfuel : (cueInput nl c ++ rest).length < fuel) :
    read_srt_loop fuel { state := 0, sub := newSubtitle, subs := subs } (cueInput nl c ++ rest) =
      read_srt_loop fuel { state := 0, sub := newSubtitle, subs := subs ++ [sub] } rest := by
  obtain ⟨⟨hd, hv⟩, ⟨ha, hb, htl⟩, ⟨hs, he⟩, hlines, htext⟩ := hc
  have e : cueInput nl c ++ rest = c.index ++ nl ++
      ((c.first ++ ascii " --> " ++ c.last) ++ nl ++ (joinLines nl c.lines ++ nl ++ rest)) := by
    simp [cueInput, List.append_assoc]
  rw [e] at hfuel ⊢
  rw [read_srt_loop_nl hnl _ c.index _ (IsLine_numeral nl hd) fuel hfuel,
    read_srt_line_index _ rfl c.index hd hv]
  simp only []
  have hf2 : ((c.first ++ ascii " --> " ++ c.last) ++ nl ++
      (joinLines nl c.lines ++ nl ++ rest)).length < fuel := by
    simp only [List.length_append] at hfuel ⊢; omega
  rw [read_srt_loop_nl hnl _ _ _ htl fuel hf2,
    read_srt_line_timing_ok _ rfl c.first c.last ha hb sub.start sub.end_ hs he]
  simp only []
  rw [read_srt_loop_body hnl rest subs c.lines hlines _ fuel
    (by simp only [List.length_append] at hf2 ⊢; omega)]
  have : (⟨newSubtitle.text ++ crlfLines c.lines, sub.start, sub.end_⟩ : subtitle) = sub := by
    rw [← htext]; simp [newSubtitle]
  simp only [this]

/-- Reading a well-formed input. -/
theorem read_srt_loop_input {nl : List Nat} (hnl : IsLineEnd nl) :
    ∀ (cues : List InputCue) (doc : List subtitle), List.Forall₂ (CueOf nl) cues doc →
    ∀ (subs : List subtitle) (fuel : Nat), (srtInput nl cues).length < fuel →
    read_srt_loop fuel { state := 0, sub := newSubtitle, subs := subs } (srtInput nl cues) =
      .ok (subs ++ doc) := by
  intro cues doc h
  induction h with
  | nil =>
    intro subs fuel hfuel
    obtain ⟨f, rfl⟩ : ∃ f, fuel = f + 1 := ⟨fuel - 1, by omega⟩
    simp only [srtInput, List.append_nil]
    exact read_srt_loop_end _ rfl f
  | cons hc _ ih =>
    intro subs fuel hfuel
    simp only [srtInput] at hfuel ⊢
    rw [read_srt_loop_input_cue hnl _ _ hc _ subs fuel hfuel,
      ih _ fuel (by simp only [List.length_append] at hfuel ⊢; omega)]
    simp

theorem read_srt_input {nl : List Nat} (hnl : IsLineEnd nl) (cues : List InputCue)
    (doc : List subtitle) (h : List.Forall₂ (CueOf nl) cues doc) :
    read_srt (srtInput nl cues) = .ok doc := by
  unfold read_srt
  rw [read_srt_loop_input hnl cues doc h [] _ (by omega)]
  simp

theorem CueOf_of_same {nl : List Nat} {c1 c2 : InputCue} {sub : subtitle}
    (h : CueOf nl c1 sub) (hs : SameButIndex c1 c2) : CueOf nl c2 sub := by
  obtain ⟨e1, e2, e3, hd, hv⟩ := hs
  obtain ⟨_, h2, h3, h4, h5⟩ := h
  unfold CueOf
  rw [e1, e2, e3]
  exact ⟨⟨hd, hv⟩, h2, h3, h4, h5⟩

theorem Forall₂_CueOf_of_same {nl : List Nat} :
    ∀ (cues1 : List InputCue) (doc : List subtitle), List.Forall₂ (CueOf nl) cues1 doc →
    ∀ cues2, List.Forall₂ SameButIndex cues1 cues2 → List.Forall₂ (CueOf nl) cues2 doc := by
  intro cues1 doc h
  induction h with
  | nil =>
    intro cues2 h2
    cases h2
    exact List.Forall₂.nil
  | cons hc _ ih =>
    intro cues2 h2
    cases h2 with
    | cons hs ht => exact List.Forall₂.cons (CueOf_of_same hc hs) (ih _ ht)

theorem CueOf_crlf {c : InputCue} {sub : subtitle} (h : CueOf [10] c sub) :
    CueOf [13, 10] c sub := by
  obtain ⟨h1, ⟨ha, hb, hl⟩, h3, h4, h5⟩ := h
  exact ⟨h1, ⟨ha, hb, hl.1, fun e => absurd e (by decide)⟩, h3,
    fun l hm => ⟨(h4 l hm).1, (h4 l hm).2.1, fun e => absurd e (by decide)⟩, h5⟩

theorem Forall₂_CueOf_text {nl : List Nat} :
    ∀ (cues : List InputCue) (doc : List subtitle), List.Forall₂ (CueOf nl) cues doc →
    doc.map subtitle.text = cues.map (fun c => crlfLines c.lines) := by
  intro cues doc h
  induction h with
  | nil => rfl
  | cons hc _ ih =>
    simp only [List.map_cons, ih, hc.2.2.2.2]

/-- Reading the body lines of the last cue when the input ends after them. -/
theorem read_srt_loop_body_open {nl : List Nat} (hnl : IsLineEnd nl) (subs : List subtitle) :
    ∀ (lines : List (List Nat)), (∀ l ∈ lines, l ≠ [] ∧ IsLine nl l) →
    ∀ (sub : subtitle) (fuel : Nat), (joinLines nl lines).length < fuel →
    read_srt_loop fuel { state := 2, sub := sub, subs := subs } (joinLines nl lines) =
      .ok (subs ++ [{ sub with text := sub.text ++ crlfLines lines }]) := by
  intro lines
  induction lines with
  | nil =>
    intro _ sub fuel hfuel
    obtain ⟨f, rfl⟩ : ∃ f, fuel = f + 1 := ⟨fuel - 1, by omega⟩
    rw [joinLines, read_srt_loop]
    simp only [List.length_nil, readLn_nil]
    rw [read_srt_line_blank { state := 2, sub := sub, subs := subs } rfl true]
    simp [crlfLines]
  | cons l ls ih =>
    intro hl sub fuel hfuel
    obtain ⟨hne, hline⟩ := hl l (List.mem_cons_self _ _)
    rw [joinLines] at hfuel ⊢
    rw [read_srt_loop_nl hnl _ l _ hline fuel hfuel, read_srt_line_text _ rfl l hne]
    simp only []
    rw [ih (fun x hx => hl x (List.mem_cons_of_mem _ hx)) _ fuel
      (by simp only [List.length_append] at hfuel ⊢; omega)]
    simp [crlfLines, List.append_assoc]

/-- Reading a last cue that has no blank line after it. -/
theorem read_srt_loop_input_open {nl : List Nat} (hnl : IsLineEnd nl) (c : InputCue)
    (sub : subtitle) (hc : CueOf nl c sub) (subs : List subtitle) (fuel : Nat)
    (hfuel : (cueInputOpen nl c).length < fuel) :
    read_srt_loop fuel { state := 0, sub := newSubtitle, subs := subs } (cueInputOpen nl c) =
      .ok (subs ++ [sub]) := by
  obtain ⟨⟨hd, hv⟩, ⟨ha, hb, htl⟩, ⟨hs, he⟩, hlines, htext⟩ := hc
  have e : cueInputOpen nl c = c.index ++ nl ++
      ((c.first ++ ascii " --> " ++ c.last) ++ nl ++ joinLines nl c.lines) := by
    simp [cueInputOpen, List.append_assoc]
  rw [e] at hfuel ⊢
  rw [read_srt_loop_nl hnl _ c.index _ (IsLine_numeral nl hd) fuel hfuel,
    read_srt_line_index _ rfl c.index hd hv]
  simp only []
  have hf2 : ((c.first ++ ascii " --> " ++ c.last) ++ nl ++ joinLines nl c.lines).length <
      fuel := by
    simp only [List.length_append] at hfuel ⊢; omega
  rw [read_srt_loop_nl hnl _ _ _ htl fuel hf2,
    read_srt_line_timing_ok _ rfl c.first c.last ha hb sub.start sub.end_ hs he]
  simp only []
  rw [read_srt_loop_body_open hnl subs c.lines hlines _ fuel
    (by simp only [List.length_append] at hf2 ⊢; omega)]
  have : (⟨newSubtitle.text ++ crlfLines c.lines, sub.start, sub.end_⟩ : subtitle) = sub := by
    rw [← htext]; simp [newSubtitle]
  simp only [this]

/-- Reading a well-formed input whose last cue has no blank line after it. -/
theorem read_srt_input_open {nl : List Nat} (hnl : IsLineEnd nl) :
    ∀ (cues : List InputCue) (doc : List subtitle), List.Forall₂ (CueOf nl) cues doc →
    ∀ (c : InputCue) (sub : subtitle), CueOf nl c sub →
    ∀ (subs : List subtitle) (fuel : Nat), (srtInput nl cues ++ cueInputOpen nl c).length < fuel →
    read_srt_loop fuel { state := 0, sub := newSubtitle, subs := subs }
        (srtInput nl cues ++ cueInputOpen nl c) = .ok (subs ++ (doc ++ [sub])) := by
  intro cues doc h
  induction h with
  | nil =>
    intro c sub hc subs fuel hfuel
    simp only [srtInput, List.nil_append] at hfuel ⊢
    exact read_srt_loop_input_open hnl c sub hc subs fuel hfuel
  | cons hc1 _ ih =>
    intro c sub hc subs fuel hfuel
    simp only [srtInput, List.append_assoc] at hfuel ⊢
    rw [read_srt_loop_input_cue hnl _ _ hc1 _ subs fuel hfuel,
      ih c sub hc _ fuel (by simp only [List.length_append] at hfuel ⊢; omega)]
    simp

/-- C13: the values on the index lines do not influence the result. In any state of the loop
of `read_srt` that expects an index line, two inputs that differ only in that line, both
lines being numerals that fit `uint`, give the same result, whatever follows; two well-formed
inputs that differ only in their index lines are parsed to the same document; and
`write_srt` numbers the cues of a document `1, 2, ...` by position. -/
theorem index_values_ignored (nl : List Nat) (hnl : IsLineEnd nl) :
    (∀ (st : ReadState) (d1 d2 rest : List Nat) (f1 f2 : Nat), st.state = 0 →
      IsNumeral d1 → decVal d1 < 2 ^ 64 → IsNumeral d2 → decVal d2 < 2 ^ 64 →
      (d1 ++ nl ++ rest).length < f1 → (d2 ++ nl ++ rest).length < f2 →
      read_srt_loop f1 st (d1 ++ nl ++ rest) = read_srt_loop f2 st (d2 ++ nl ++ rest)) ∧
    (∀ (d1 d2 rest : List Nat),
      IsNumeral d1 → decVal d1 < 2 ^ 64 → IsNumeral d2 → decVal d2 < 2 ^ 64 →
      read_srt (d1 ++ nl ++ rest) = read_srt (d2 ++ nl ++ rest)) ∧
    (∀ (cues1 cues2 : List InputCue) (doc : List subtitle),
      List.Forall₂ (CueOf nl) cues1 doc → List.Forall₂ SameButIndex cues1 cues2 →
      read_srt (srtInput nl cues1) = .ok doc ∧ read_srt (srtInput nl cues2) = .ok doc ∧
        (doc.length < 2 ^ 63 → write_srt doc = srtBytes doc)) := by
  have step : ∀ (st : ReadState) (d1 d2 rest : List Nat) (f1 f2 : Nat), st.state = 0 →
      IsNumeral d1 → decVal d1 < 2 ^ 64 → IsNumeral d2 → decVal d2 < 2 ^ 64 →
      (d1 ++ nl ++ rest).length < f1 → (d2 ++ nl ++ rest).length < f2 →
      read_srt_loop f1 st (d1 ++ nl ++ rest) = read_srt_loop f2 st (d2 ++ nl ++ rest) := by
    intro st d1 d2 rest f1 f2 h0 hd1 hv1 hd2 hv2 hf1 hf2
    rw [read_srt_loop_nl hnl st d1 rest (IsLine_numeral nl hd1) f1 hf1,
      read_srt_loop_nl hnl st d2 rest (IsLine_numeral nl hd2) f2 hf2,
      read_srt_line_index st h0 d1 hd1 hv1, read_srt_line_index st h0 d2 hd2 hv2]
    simp only [List.length_append] at hf1 hf2
    exact read_srt_loop_fuel _ _ _ (by omega) _ (by omega)
  refine ⟨step, ?_, ?_⟩
  · intro d1 d2 rest hd1 hv1 hd2 hv2
    exact step _ d1 d2 rest _ _ rfl hd1 hv1 hd2 hv2 (by omega) (by omega)
  · intro cues1 cues2 doc h1 h2
    refine ⟨read_srt_input hnl cues1 doc h1,
      read_srt_input hnl cues2 doc (Forall₂_CueOf_of_same cues1 doc h1 cues2 h2), fun hlen => ?_⟩
    have := write_srt_loop_eq_spec doc 0 (by simpa using hlen)
    simpa [write_srt, srtBytes] using this

/-- Witness for C13: line feeds as line ends, and the first index line `7` against `3`. -/
theorem index_values_ignored_witness :
    IsLineEnd [10] ∧
    read_srt (ascii "7" ++ [10] ++ ascii "00:00:01,000 --> 00:00:02,000\nHi\n\n") =
      read_srt (ascii "3" ++ [10] ++ ascii "00:00:01,000 --> 00:00:02,000\nHi\n\n") :=
  ⟨Or.inl rfl, (index_values_ignored [10] (Or.inl rfl)).2.1 (ascii "7") (ascii "3")
    (ascii "00:00:01,000 --> 00:00:02,000\nHi\n\n") (by decide) (by decide) (by decide)
    (by decide)⟩

/-- C14: line terminators are normalized and nothing else in the text changes. A well-formed
input, with LF or with CRLF line ends, and with or without a blank line after its last cue,
is parsed to the document whose texts are the body lines of the cues, byte for byte, each
followed by CRLF; and an input with LF line ends and the same input with CRLF line ends are
parsed to the same document. -/
theorem read_srt_text_normalized (nl : List Nat) (hnl : IsLineEnd nl) (cues : List InputCue)
    (doc : List subtitle) (h : List.Forall₂ (CueOf nl) cues doc) :
    read_srt (srtInput nl cues) = .ok doc ∧
    doc.map subtitle.text = cues.map (fun c => crlfLines c.lines) ∧
    (∀ c sub, CueOf nl c sub →
      read_srt (srtInput nl cues ++ cueInputOpen nl c) = .ok (doc ++ [sub])) ∧
    (nl = [10] → read_srt (srtInput [13, 10] cues) = .ok doc) := by
  refine ⟨read_srt_input hnl cues doc h, Forall₂_CueOf_text cues doc h, ?_, ?_⟩
  · intro c sub hc
    unfold read_srt
    rw [read_srt_input_open hnl cues doc h c sub hc [] _ (by omega)]
    simp
  · intro e
    subst e
    exact read_srt_input (Or.inr rfl) cues doc (List.Forall₂.imp (fun _ _ hc => CueOf_crlf hc) h)

/-- Witness for C14: one cue with index `7` and the body lines `Hello` and `you`. -/
theorem read_srt_text_normalized_witness :
    IsLineEnd [10] ∧
    srtInput [10] [⟨ascii "7", ascii "00:00:01,000", ascii "00:00:02,000",
        [ascii "Hello", ascii "you"]⟩] =
      ascii "7\n00:00:01,000 --> 00:00:02,000\nHello\nyou\n\n" ∧
    srtInput [13, 10] [⟨ascii "7", ascii "00:00:01,000", ascii "00:00:02,000",
        [ascii "Hello", ascii "you"]⟩] =
      ascii "7\r\n00:00:01,000 --> 00:00:02,000\r\nHello\r\nyou\r\n\r\n" ∧
    read_srt (srtInput [10] [⟨ascii "7", ascii "00:00:01,000", ascii "00:00:02,000",
        [ascii "Hello", ascii "you"]⟩]) = .ok [⟨ascii "Hello\r\nyou\r\n", 1000, 2000⟩] ∧
    read_srt (srtInput [13, 10] [⟨ascii "7", ascii "00:00:01,000", ascii "00:00:02,000",
        [ascii "Hello", ascii "you"]⟩]) = .ok [⟨ascii "Hello\r\nyou\r\n", 1000, 2000⟩] :=
  have hc : CueOf [10] ⟨ascii "7", ascii "00:00:01,000", ascii "00:00:02,000",
      [ascii "Hello", ascii "you"]⟩ ⟨ascii "Hello\r\nyou\r\n", 1000, 2000⟩ := by
    unfold CueOf IsLine
    decide
  have h := read_srt_text_normalized [10] (Or.inl rfl) _ _ (List.Forall₂.cons hc List.Forall₂.nil)
  ⟨Or.inl rfl, by decide, by decide, h.1, h.2.2.2 rfl⟩

theorem sync_subs_eq_map (cv : Conv) (subs : List subtitle) (first last : subtitle)
    (synced_first_ms synced_last_ms : Nat)
    (hf : subs.head? = some first) (hl : subs.getLast? = some last) :
    sync_subs cv subs synced_first_ms synced_last_ms =
      some (subs.map fun sub =>
        { sub with
          start := syncPoint cv
            (syncSlope synced_first_ms synced_last_ms first.start last.start)
            (syncYint synced_first_ms synced_last_ms first.start last.start) sub.start,
          end_ := syncPoint cv
            (syncSlope synced_first_ms synced_last_ms first.start last.start)
            (syncYint synced_first_ms synced_last_ms first.start last.start) sub.end_ }) := by
  unfold sync_subs
  rw [hf, hl]
  rfl

theorem exists_head_getLast {α : Type} (l : List α) (h : l ≠ []) :
    ∃ a z, l.head? = some a ∧ l.getLast? = some z := by
  refine ⟨l.head h, l.getLast h, List.head?_eq_head h, List.getLast?_eq_getLast _ h⟩

/-- C15: `sync_subs` changes timestamps only. For every non-empty document and all targets
the call returns a document with the same number of cues, with the same texts in the same
order, in which the start and the end of every cue are
`uint(roundFloat64(slope * float64(old) + yint))` for one `slope` and one `yint`, computed
from the targets and from the starts that the first and the last cue had before the call. -/
theorem sync_subs_frame (cv : Conv) (subs : List subtitle) (synced_first_ms synced_last_ms : Nat)
    (hne : subs ≠ []) :
    ∃ (first last : subtitle) (out : List subtitle) (slope yint : F64),
      subs.head? = some first ∧ subs.getLast? = some last ∧
      sync_subs cv subs synced_first_ms synced_last_ms = some out ∧
      out.length = subs.length ∧ out.map subtitle.text = subs.map subtitle.text ∧
      slope = F64.div (F64.ofInt (wrap (synced_last_ms + 2 ^ 64 - synced_first_ms)))
        (F64.ofInt (wrap (last.start + 2 ^ 64 - first.start))) ∧
      yint = F64.sub (F64.ofInt synced_last_ms) (F64.mul slope (F64.ofInt last.start)) ∧
      ∀ (i : Nat) (old new : subtitle), subs[i]? = some old → out[i]? = some new →
        new.text = old.text ∧
        new.start = F64.toUint cv (roundFloat64 cv
          (F64.add (F64.mul slope (F64.ofInt old.start)) yint)) ∧
        new.end_ = F64.toUint cv (roundFloat64 cv
          (F64.add (F64.mul slope (F64.ofInt old.end_)) yint)) := by
  obtain ⟨first, last, hf, hl⟩ := exists_head_getLast subs hne
  refine ⟨first, last, _, _, _, hf, hl,
    sync_subs_eq_map cv subs first last synced_first_ms synced_last_ms hf hl, ?_, ?_, rfl, rfl, ?_⟩
  · simp
  · simp [List.map_map, Function.comp_def]
  · intro i old new ho hn
    rw [List.getElem?_map, ho] at hn
    simp only [Option.map_some', Option.some.injEq] at hn
    subst hn
    exact ⟨rfl, rfl, rfl⟩

/-- Witness for C15: the two cues of the end-to-end scenario. -/
theorem sync_subs_frame_witness :
    ([⟨ascii "Hello\r\n", 10000, 12000⟩, ⟨ascii "World\r\n", 100000, 102000⟩] :
      List subtitle) ≠ [] ∧
    ∃ (first last : subtitle) (out : List subtitle) (slope yint : F64),
      ([⟨ascii "Hello\r\n", 10000, 12000⟩, ⟨ascii "World\r\n", 100000, 102000⟩] :
        List subtitle).head? = some first ∧
      ([⟨ascii "Hello\r\n", 10000, 12000⟩, ⟨ascii "World\r\n", 100000, 102000⟩] :
        List subtitle).getLast? = some last ∧
      sync_subs zeroConv
        [⟨ascii "Hello\r\n", 10000, 12000⟩, ⟨ascii "World\r\n", 100000, 102000⟩] 0 60000 =
          some out ∧
      out.length = 2 ∧
      out.map subtitle.text = [ascii "Hello\r\n", ascii "World\r\n"] ∧
      slope = F64.div (F64.ofInt (wrap (60000 + 2 ^ 64 - 0)))
        (F64.ofInt (wrap (last.start + 2 ^ 64 - first.start))) ∧
      yint = F64.sub (F64.ofInt (60000 : Nat)) (F64.mul slope (F64.ofInt last.start)) ∧
      ∀ (i : Nat) (old new : subtitle),
        ([⟨ascii "Hello\r\n", 10000, 12000⟩, ⟨ascii "World\r\n", 100000, 102000⟩] :
          List subtitle)[i]? = some old → out[i]? = some new →
        new.text = old.text ∧
        new.start = F64.toUint zeroConv (roundFloat64 zeroConv
          (F64.add (F64.mul slope (F64.ofInt old.start)) yint)) ∧
        new.end_ = F64.toUint zeroConv (roundFloat64 zeroConv
          (F64.add (F64.mul slope (F64.ofInt old.end_)) yint)) :=
  ⟨by simp, sync_subs_frame zeroConv
    [⟨ascii "Hello\r\n", 10000, 12000⟩, ⟨ascii "World\r\n", 100000, 102000⟩] 0 60000 (by simp)⟩

/-- The value of `uint(roundFloat64(slope * float64(t) + yint))` from the values of its
parts, when the sum is within half a unit of `n`. -/
theorem syncPoint_eval (cv : Conv) (s c p r : ℚ) (t n : Nat) (ht : t ≤ 2 ^ 53)
    (hp : F64.ofRat (s * t) = .fin p) (hr : F64.ofRat (p + c) = .fin r)
    (hb : |p + c| ≤ 2 ^ 1000) (hn : n < 2 ^ 25) (h : |r - n| < 1 / 2) :
    syncPoint cv (.fin s) (.fin c) t = n := by
  obtain ⟨y, hy, hIs, _⟩ := ofRat_error (p + c) hb
  rw [hr] at hy
  simp only [F64.fin.injEq] at hy
  subst hy
  unfold syncPoint
  rw [ofInt_nat _ ht, F64_mul_fin, hp, F64_add_fin, hr]
  exact round_to_target cv r n hIs hn h

/-- C16: the end-to-end scenario. The input with the two cues `Hello` (10 s to 12 s) and
`World` (100 s to 102 s) is parsed to a document of two cues; `sync_subs` with the targets 0
and 60000 moves the starts to 0 and 60000 ms (and the ends to 1333 and 61333 ms) and leaves
the texts alone; and `write_srt` writes the two cues in that order with the index lines `1`
and `2`, every line ending in CRLF. -/
theorem end_to_end_scenario (cv : Conv) :
    read_srt (ascii ("1\n00:00:10,000 --> 00:00:12,000\nHello\n\n" ++
        "2\n00:01:40,000 --> 00:01:42,000\nWorld\n\n")) =
      .ok [⟨ascii "Hello\r\n", 10000, 12000⟩, ⟨ascii "World\r\n", 100000, 102000⟩] ∧
    sync_subs cv [⟨ascii "Hello\r\n", 10000, 12000⟩, ⟨ascii "World\r\n", 100000, 102000⟩]
        0 60000 =
      some [⟨ascii "Hello\r\n", 0, 1333⟩, ⟨ascii "World\r\n", 60000, 61333⟩] ∧
    write_srt [⟨ascii "Hello\r\n", 0, 1333⟩, ⟨ascii "World\r\n", 60000, 61333⟩] =
      ascii ("1\r\n00:00:00,000 --> 00:00:01,333\r\nHello\r\n\r\n" ++
        "2\r\n00:01:00,000 --> 00:01:01,333\r\nWorld\r\n\r\n") ∧
    IsCRLFLines
      (write_srt [⟨ascii "Hello\r\n", 0, 1333⟩, ⟨ascii "World\r\n", 60000, 61333⟩]) := by
  have hs : syncSlope 0 60000 10000 100000 = .fin (6004799503160661 / 9007199254740992) := by
    decide!
  have hc : syncYint 0 60000 10000 100000 = .fin (-229064922453333 / 34359738368) := by
    decide!
  refine ⟨by decide, ?_, by decide, ?_⟩
  · rw [sync_subs_eq_map cv
      [⟨ascii "Hello\r\n", 10000, 12000⟩, ⟨ascii "World\r\n", 100000, 102000⟩]
      ⟨ascii "Hello\r\n", 10000, 12000⟩
      ⟨ascii "World\r\n", 100000, 102000⟩ 0 60000 rfl rfl]
    simp only [hs, hc, List.map_cons, List.map_nil]
    rw [syncPoint_eval cv _ _ (3665038759253333 / 549755813888) (5 / 549755813888) 10000 0
        (by norm_num) (by decide!) (by decide!) (by norm_num [abs_le]) (by norm_num)
        (by norm_num [abs_lt]),
      syncPoint_eval cv _ _ 8000 (45812984490667 / 34359738368) 12000 1333
        (by norm_num) (by decide!) (by decide!) (by norm_num [abs_le]) (by norm_num)
        (by norm_num [abs_lt]),
      syncPoint_eval cv _ _ (2290649224533333 / 34359738368) 60000 100000 60000
        (by norm_num) (by decide!) (by decide!) (by norm_num [abs_le]) (by norm_num)
        (by norm_num [abs_lt]),
      syncPoint_eval cv _ _ 68000 (2107397286570667 / 34359738368) 102000 61333
        (by norm_num) (by decide!) (by decide!) (by norm_num [abs_le]) (by norm_num)
        (by norm_num [abs_lt])]
  · exact ⟨[ascii "1", ascii "00:00:00,000 --> 00:00:01,333", ascii "Hello", [],
      ascii "2", ascii "00:01:00,000 --> 00:01:01,333", ascii "World", []], by decide, by decide⟩

theorem roundHalfEven_mono {x y : ℚ} (h : x ≤ y) : roundHalfEven x ≤ roundHalfEven y := by
  have hx1 := Int.floor_le x
  have hx2 := Int.lt_floor_add_one x
  have hy1 := Int.floor_le y
  have hy2 := Int.lt_floor_add_one y
  have hfl : ⌊x⌋ ≤ ⌊y⌋ := Int.floor_le_floor h
  have hlo : ∀ z : ℚ, ⌊z⌋ ≤ roundHalfEven z := by
    intro z; unfold roundHalfEven; split_ifs <;> omega
  have hhi : ∀ z : ℚ, roundHalfEven z ≤ ⌊z⌋ + 1 := by
    intro z; unfold roundHalfEven; split_ifs <;> omega
  by_cases hlt : ⌊x⌋ < ⌊y⌋
  · have := hhi x
    have := hlo y
    omega
  · have heq : ⌊x⌋ = ⌊y⌋ := by omega
    have heq2 : (⌊x⌋ : ℚ) = ⌊y⌋ := by exact_mod_cast heq
    unfold roundHalfEven
    rw [heq]
    split_ifs with a1 a2 a3 b1 b2 b3 <;> first
      | omega
      | (exfalso; rw [heq2] at *; linarith)

theorem roundHalfEven_le_of_le {x : ℚ} {n : Int} (h : x ≤ n) : roundHalfEven x ≤ n := by
  have := roundHalfEven_mono h
  rwa [roundHalfEven_intCast] at this

theorem roundHalfEven_ge_of_ge {x : ℚ} {n : Int} (h : (n : ℚ) ≤ x) : n ≤ roundHalfEven x := by
  have := roundHalfEven_mono h
  rwa [roundHalfEven_intCast] at this

theorem ofRat_fin_eq {x v : ℚ} (h : F64.ofRat x = .fin v) :
    v = roundHalfEven (x / ulp x) * ulp x := by
  unfold F64.ofRat at h
  simp only [] at h
  split_ifs at h
  simp only [F64.fin.injEq] at h
  exact h.symm

/-- A value at or below a multiple of the unit in the last place is rounded to a value at or
below that multiple. -/
theorem grid_le (z : ℚ) (n : Int) (h : z ≤ n * ulp z) :
    (roundHalfEven (z / ulp z) : ℚ) * ulp z ≤ n * ulp z := by
  have hu := ulp_pos z
  have h1 : z / ulp z ≤ n := by rw [div_le_iff₀ hu]; exact h
  have h2 : (roundHalfEven (z / ulp z) : ℚ) ≤ n := by exact_mod_cast roundHalfEven_le_of_le h1
  exact mul_le_mul_of_nonneg_right h2 (le_of_lt hu)

theorem grid_ge (z : ℚ) (n : Int) (h : n * ulp z ≤ z) :
    n * ulp z ≤ (roundHalfEven (z / ulp z) : ℚ) * ulp z := by
  have hu := ulp_pos z
  have h1 : (n : ℚ) ≤ z / ulp z := by rw [le_div_iff₀ hu]; exact h
  have h2 : (n : ℚ) ≤ roundHalfEven (z / ulp z) := by exact_mod_cast roundHalfEven_ge_of_ge h1
  exact mul_le_mul_of_nonneg_right h2 (le_of_lt hu)

theorem two_zpow_split (E : Int) (k : Nat) :
    (2 : ℚ) ^ (E + k) = ((2 ^ k : Int) : ℚ) * 2 ^ E := by
  rw [zpow_add₀ (by norm_num : (2 : ℚ) ≠ 0), mul_comm]
  push_cast
  rw [zpow_natCast]

theorem two_zpow_mono {a b : Int} (h : a ≤ b) : (2 : ℚ) ^ a ≤ 2 ^ b :=
  zpow_le_zpow_right₀ (by norm_num) h

/-- The exponent of the binade of `z`, not below the subnormal range. -/
theorem ulp_eq (z : ℚ) : ulp z = 2 ^ (max (ratLog2 z.num.natAbs z.den) (-1022) - 52) := rfl

/-- A positive value is rounded to at most the power of two that ends its binade. -/
theorem rounded_le_top (z : ℚ) (hz : 0 < z) :
    (roundHalfEven (z / ulp z) : ℚ) * ulp z ≤
      2 ^ (max (ratLog2 z.num.natAbs z.den) (-1022) + 1) := by
  obtain ⟨_, hi⟩ := abs_bracket z (ne_of_gt hz)
  rw [abs_of_pos hz] at hi
  set L := ratLog2 z.num.natAbs z.den
  have e : (2 : ℚ) ^ (max L (-1022) + 1) = ((2 ^ 53 : Int) : ℚ) * ulp z := by
    rw [ulp_eq, ← two_zpow_split]
    congr 1
    push_cast
    ring
  rw [e]
  apply grid_le
  rw [← e]
  exact le_trans (le_of_lt hi) (two_zpow_mono (by omega))

/-- A positive value in the normal range is rounded to at least the power of two that starts
its binade. -/
theorem rounded_ge_bottom (z : ℚ) (hz : 0 < z) (hn : -1022 ≤ ratLog2 z.num.natAbs z.den) :
    (2 : ℚ) ^ (max (ratLog2 z.num.natAbs z.den) (-1022)) ≤
      (roundHalfEven (z / ulp z) : ℚ) * ulp z := by
  obtain ⟨lo, _⟩ := abs_bracket z (ne_of_gt hz)
  rw [abs_of_pos hz] at lo
  set L := ratLog2 z.num.natAbs z.den
  have e : (2 : ℚ) ^ (max L (-1022)) = ((2 ^ 52 : Int) : ℚ) * ulp z := by
    rw [ulp_eq, ← two_zpow_split]
    congr 1
    push_cast
    ring
  rw [e]
  apply grid_ge
  rw [← e, max_eq_left hn]
  exact lo

theorem rounded_ge_top_neg (z : ℚ) (hz : z < 0) :
    -(2 : ℚ) ^ (max (ratLog2 z.num.natAbs z.den) (-1022) + 1) ≤
      (roundHalfEven (z / ulp z) : ℚ) * ulp z := by
  obtain ⟨_, hi⟩ := abs_bracket z (ne_of_lt hz)
  rw [abs_of_neg hz] at hi
  set L := ratLog2 z.num.natAbs z.den
  have e : -(2 : ℚ) ^ (max L (-1022) + 1) = ((-(2 ^ 53) : Int) : ℚ) * ulp z := by
    have : (2 : ℚ) ^ (max L (-1022) + 1) = ((2 ^ 53 : Int) : ℚ) * ulp z := by
      rw [ulp_eq, ← two_zpow_split]
      congr 1
      push_cast
      ring
    rw [this]
    push_cast
    ring
  rw [e]
  apply grid_ge
  rw [← e]
  have := two_zpow_mono (show L + 1 ≤ max L (-1022) + 1 by omega)
  linarith

theorem rounded_le_bottom_neg (z : ℚ) (hz : z < 0)
    (hn : -1022 ≤ ratLog2 z.num.natAbs z.den) :
    (roundHalfEven (z / ulp z) : ℚ) * ulp z ≤
      -(2 : ℚ) ^ (max (ratLog2 z.num.natAbs z.den) (-1022)) := by
  obtain ⟨lo, _⟩ := abs_bracket z (ne_of_lt hz)
  rw [abs_of_neg hz] at lo
  set L := ratLog2 z.num.natAbs z.den
  have e : -(2 : ℚ) ^ (max L (-1022)) = ((-(2 ^ 52) : Int) : ℚ) * ulp z := by
    have : (2 : ℚ) ^ (max L (-1022)) = ((2 ^ 52 : Int) : ℚ) * ulp z := by
      rw [ulp_eq, ← two_zpow_split]
      congr 1
      push_cast
      ring
    rw [this]
    push_cast
    ring
  rw [e]
  apply grid_le
  rw [← e, max_eq_left hn]
  linarith

/-- The binary logarithm is monotone in the magnitude. -/
theorem ratLog2_mono {x y : ℚ} (hx : x ≠ 0) (hy : y ≠ 0) (h : |x| ≤ |y|) :
    ratLog2 x.num.natAbs x.den ≤ ratLog2 y.num.natAbs y.den := by
  obtain ⟨lo, _⟩ := abs_bracket x hx
  obtain ⟨_, hi⟩ := abs_bracket y hy
  have hlt : (2 : ℚ) ^ ratLog2 x.num.natAbs x.den < 2 ^ (ratLog2 y.num.natAbs y.den + 1) :=
    lt_of_le_of_lt (le_trans lo h) hi
  have := (zpow_lt_zpow_iff_right₀ (by norm_num : (1 : ℚ) < 2)).mp hlt
  omega

/-- Rounding to `float64` is monotone. -/
theorem ofRat_mono {x y vx vy : ℚ} (hx : F64.ofRat x = .fin vx) (hy : F64.ofRat y = .fin vy)
    (h : x ≤ y) : vx ≤ vy := by
  rw [ofRat_fin_eq hx, ofRat_fin_eq hy]
  have sign_nonneg : ∀ z : ℚ, 0 ≤ z → 0 ≤ (roundHalfEven (z / ulp z) : ℚ) * ulp z := by
    intro z hz
    have := grid_ge z 0 (by simpa using hz)
    simpa using this
  have sign_nonpos : ∀ z : ℚ, z ≤ 0 → (roundHalfEven (z / ulp z) : ℚ) * ulp z ≤ 0 := by
    intro z hz
    have := grid_le z 0 (by simpa using hz)
    simpa using this
  have same : ulp x = ulp y →
      (roundHalfEven (x / ulp x) : ℚ) * ulp x ≤ roundHalfEven (y / ulp y) * ulp y := by
    intro e
    rw [e]
    have hu := ulp_pos y
    have h1 : x / ulp y ≤ y / ulp y := div_le_div_of_nonneg_right h (le_of_lt hu)
    have h2 : (roundHalfEven (x / ulp y) : ℚ) ≤ roundHalfEven (y / ulp y) := by
      exact_mod_cast roundHalfEven_mono h1
    exact mul_le_mul_of_nonneg_right h2 (le_of_lt hu)
  rcases le_or_lt x 0 with hx0 | hx0
  · rcases le_or_lt 0 y with hy0 | hy0
    · exact le_trans (sign_nonpos x hx0) (sign_nonneg y hy0)
    · -- both negative
      have hxn : x < 0 := lt_of_le_of_lt h hy0
      have hL := ratLog2_mono (ne_of_lt hy0) (ne_of_lt hxn)
        (by rw [abs_of_neg hy0, abs_of_neg hxn]; linarith)
      set Lx := ratLog2 x.num.natAbs x.den
      set Ly := ratLog2 y.num.natAbs y.den
      by_cases heq : max Lx (-1022) = max Ly (-1022)
      · apply same
        rw [ulp_eq, ulp_eq, heq]
      · have hlt : max Ly (-1022) + 1 ≤ max Lx (-1022) := by omega
        have hxn2 : -1022 ≤ Lx := by omega
        have a1 := rounded_le_bottom_neg x hxn hxn2
        have a2 := rounded_ge_top_neg y hy0
        have a3 := two_zpow_mono hlt
        linarith
  · have hy0 : 0 < y := lt_of_lt_of_le hx0 h
    have hL := ratLog2_mono (ne_of_gt hx0) (ne_of_gt hy0)
      (by rw [abs_of_pos hx0, abs_of_pos hy0]; exact h)
    set Lx := ratLog2 x.num.natAbs x.den
    set Ly := ratLog2 y.num.natAbs y.den
    by_cases heq : max Lx (-1022) = max Ly (-1022)
    · apply same
      rw [ulp_eq, ulp_eq, heq]
    · have hlt : max Lx (-1022) + 1 ≤ max Ly (-1022) := by omega
      have hyn : -1022 ≤ Ly := by omega
      have a1 := rounded_le_top x hx0
      have a2 := rounded_ge_bottom y hy0 hyn
      have a3 := two_zpow_mono hlt
      linarith

/-- The error of a rounding, multiplied by a distance `D` of at most `2 ^ 24`. -/
theorem scaled_err {v x N D : ℚ} (h : |v - x| ≤ 2 ^ (-53 : Int) * |x| + 2 ^ (-1075 : Int))
    (hD0 : 0 < D) (hD : D ≤ 2 ^ 24) (hN : |x * D| ≤ N) :
    |(v - x) * D| ≤ 2 ^ (-53 : Int) * N + 2 ^ (-1075 : Int) * 2 ^ 24 := by
  rw [abs_mul, abs_of_pos hD0] at hN ⊢
  have h1 : |v - x| * D ≤ (2 ^ (-53 : Int) * |x| + 2 ^ (-1075 : Int)) * D :=
    mul_le_mul_of_nonneg_right h (le_of_lt hD0)
  have h2 : (2 ^ (-53 : Int) * |x| + 2 ^ (-1075 : Int)) * D =
      2 ^ (-53 : Int) * (|x| * D) + 2 ^ (-1075 : Int) * D := by ring
  have h3 : (2 : ℚ) ^ (-53 : Int) * (|x| * D) ≤ 2 ^ (-53 : Int) * N :=
    mul_le_mul_of_nonneg_left hN (le_of_lt (two_zpow_pos _))
  have h4 : (2 : ℚ) ^ (-1075 : Int) * D ≤ 2 ^ (-1075 : Int) * 2 ^ 24 :=
    mul_le_mul_of_nonneg_left hD (le_of_lt (two_zpow_pos _))
  linarith

theorem abs_add_le_of {u v e f g : ℚ} (hu : |u| ≤ e) (hv : |v| ≤ f) (h : e + f ≤ g) :
    |u + v| ≤ g :=
  le_trans (abs_add u v) (le_trans (add_le_add hu hv) h)

theorem abs_sub_le_of {u v e f g : ℚ} (hu : |u| ≤ e) (hv : |v| ≤ f) (h : e + f ≤ g) :
    |u - v| ≤ g := by
  rw [sub_eq_add_neg]
  exact abs_add_le_of hu (by rwa [abs_neg]) h

theorem mul_le_pow48 {u v : ℚ} (hu0 : 0 ≤ u) (hu : u ≤ 2 ^ 24) (hv0 : 0 ≤ v) (hv : v ≤ 2 ^ 24) :
    0 ≤ u * v ∧ u * v ≤ 2 ^ 48 := by
  refine ⟨mul_nonneg hu0 hv0, ?_⟩
  have := mul_le_mul hu hv hv0 (by norm_num)
  exact le_trans this (by norm_num)

/-- The rounding errors of `sync_subs` at a time `t`, multiplied by the distance `D` of the
two anchors `x1` and `x1 + D`, stay below a quarter when the anchors, the targets `a` and
`a + K` and the time are at most `2 ^ 24`. Here `Yd` is the exact slope and `s`, `p`, `q`,
`c`, `r` are the rounded slope, the rounded products for `t` and for the second anchor, the
rounded intercept and the rounded sum. -/
theorem point_error_core {x1 D a K Yd t s p q c r : ℚ}
    (hx1 : 0 ≤ x1) (hD1 : 1 ≤ D) (hx2 : x1 + D ≤ 2 ^ 24)
    (ha : 0 ≤ a) (hK0 : 0 ≤ K) (hb : a + K ≤ 2 ^ 24) (ht0 : 0 ≤ t) (ht : t ≤ 2 ^ 24)
    (hYdD : Yd * D = K)
    (hs : |s - Yd| ≤ 2 ^ (-53 : Int) * |Yd| + 2 ^ (-1075 : Int))
    (hp : |p - s * t| ≤ 2 ^ (-53 : Int) * |s * t| + 2 ^ (-1075 : Int))
    (hq : |q - s * (x1 + D)| ≤ 2 ^ (-53 : Int) * |s * (x1 + D)| + 2 ^ (-1075 : Int))
    (hc : |c - (a + K - q)| ≤ 2 ^ (-53 : Int) * |a + K - q| + 2 ^ (-1075 : Int))
    (hr : |r - (p + c)| ≤ 2 ^ (-53 : Int) * |p + c| + 2 ^ (-1075 : Int)) :
    |(r - (a + Yd * (t - x1))) * D| ≤ 1 / 4 := by
  have hD0 : (0 : ℚ) < D := by linarith
  have hD2 : D ≤ 2 ^ 24 := by linarith
  have hK2 : K ≤ 2 ^ 24 := by linarith
  -- the slope
  have eS : |(s - Yd) * D| ≤ 1 / 2 ^ 29 + 1 / 2 ^ 60 := by
    refine le_trans (scaled_err hs hD0 hD2 (N := 2 ^ 24) ?_) (by norm_num)
    rw [hYdD, abs_of_nonneg hK0]; exact hK2
  -- a product of the slope and a time
  have prod : ∀ z : ℚ, 0 ≤ z → z ≤ 2 ^ 24 →
      |(s * z - Yd * z) * D| ≤ 1 / 2 ^ 5 + 1 / 2 ^ 36 ∧ |Yd * z * D| ≤ 2 ^ 48 ∧
        |s * z * D| ≤ 2 ^ 48 + 1 := by
    intro z hz0 hz
    have e1 : (s * z - Yd * z) * D = (s - Yd) * D * z := by ring
    have b1 : |(s * z - Yd * z) * D| ≤ 1 / 2 ^ 5 + 1 / 2 ^ 36 := by
      rw [e1, abs_mul, abs_of_nonneg hz0]
      have := mul_le_mul eS hz hz0 (by norm_num)
      refine le_trans this (by norm_num)
    have b2 : |Yd * z * D| ≤ 2 ^ 48 := by
      have e2 : Yd * z * D = K * z := by rw [mul_right_comm, hYdD]
      rw [e2, abs_of_nonneg (mul_nonneg hK0 hz0)]
      exact (mul_le_pow48 hK0 hK2 hz0 hz).2
    refine ⟨b1, b2, ?_⟩
    have e3 : s * z * D = (s * z - Yd * z) * D + Yd * z * D := by ring
    rw [e3]
    exact abs_add_le_of b1 b2 (by norm_num)
  obtain ⟨pt1, pt0, pt2⟩ := prod t ht0 ht
  obtain ⟨px1, px0, px2⟩ := prod (x1 + D) (by linarith) hx2
  have eP : |(p - s * t) * D| ≤ 1 / 2 ^ 5 + 1 / 2 ^ 50 :=
    le_trans (scaled_err hp hD0 hD2 pt2) (by norm_num)
  have eQ : |(q - s * (x1 + D)) * D| ≤ 1 / 2 ^ 5 + 1 / 2 ^ 50 :=
    le_trans (scaled_err hq hD0 hD2 px2) (by norm_num)
  -- the intercept
  have hYx : 0 ≤ Yd * (x1 + D) * D ∧ Yd * (x1 + D) * D ≤ 2 ^ 48 := by
    have e2 : Yd * (x1 + D) * D = K * (x1 + D) := by rw [mul_right_comm, hYdD]
    rw [e2]
    exact mul_le_pow48 hK0 hK2 (by linarith) hx2
  have hbD : 0 ≤ (a + K) * D ∧ (a + K) * D ≤ 2 ^ 48 :=
    mul_le_pow48 (by linarith) hb (le_of_lt hD0) hD2
  have hbY : |(a + K) * D - Yd * (x1 + D) * D| ≤ 2 ^ 48 := by
    obtain ⟨h1, h2⟩ := hYx
    obtain ⟨h3, h4⟩ := hbD
    rw [abs_le]
    constructor <;> linarith
  have hqY : |(q - s * (x1 + D)) * D + (s * (x1 + D) - Yd * (x1 + D)) * D| ≤ 1 / 2 ^ 3 :=
    abs_add_le_of eQ px1 (by norm_num)
  have hbq : |(a + K - q) * D| ≤ 2 ^ 48 + 1 := by
    have e : (a + K - q) * D = ((a + K) * D - Yd * (x1 + D) * D) -
        ((q - s * (x1 + D)) * D + (s * (x1 + D) - Yd * (x1 + D)) * D) := by ring
    rw [e]
    exact abs_sub_le_of hbY hqY (by norm_num)
  have eC : |(c - (a + K - q)) * D| ≤ 1 / 2 ^ 5 + 1 / 2 ^ 50 :=
    le_trans (scaled_err hc hD0 hD2 hbq) (by norm_num)
  -- the sum
  have hyD : |(a + Yd * (t - x1)) * D| ≤ 2 ^ 49 := by
    have e : (a + Yd * (t - x1)) * D = (a * D + K * t) - K * x1 := by
      linear_combination (t - x1) * hYdD
    rw [e]
    obtain ⟨h1, h2⟩ := mul_le_pow48 ha (by linarith : a ≤ 2 ^ 24) (le_of_lt hD0) hD2
    obtain ⟨h3, h4⟩ := mul_le_pow48 hK0 hK2 ht0 ht
    obtain ⟨h5, h6⟩ := mul_le_pow48 hK0 hK2 hx1 (by linarith : x1 ≤ 2 ^ 24)
    rw [abs_le]
    constructor <;> norm_num at h2 h4 h6 ⊢ <;> linarith
  have d1 : |(p - s * t) * D + (s * t - Yd * t) * D| ≤ 2 / 2 ^ 5 + 1 / 2 ^ 35 :=
    abs_add_le_of eP pt1 (by norm_num)
  have d2 : |(p - s * t) * D + (s * t - Yd * t) * D + (c - (a + K - q)) * D| ≤
      3 / 2 ^ 5 + 1 / 2 ^ 34 :=
    abs_add_le_of d1 eC (by norm_num)
  have dsum : |(p + c - (a + Yd * (t - x1))) * D| ≤ 5 / 2 ^ 5 + 1 / 2 ^ 30 := by
    have e : (p + c - (a + Yd * (t - x1))) * D =
        ((p - s * t) * D + (s * t - Yd * t) * D + (c - (a + K - q)) * D) -
          ((q - s * (x1 + D)) * D + (s * (x1 + D) - Yd * (x1 + D)) * D) := by
      linear_combination (-D) * hYdD
    rw [e]
    refine abs_sub_le_of d2 (abs_add_le_of eQ px1 (le_refl _)) (by norm_num)
  have hpc : |(p + c) * D| ≤ 2 ^ 49 + 1 := by
    have e : (p + c) * D = (p + c - (a + Yd * (t - x1))) * D + (a + Yd * (t - x1)) * D := by ring
    rw [e]
    exact abs_add_le_of dsum hyD (by norm_num)
  have eR : |(r - (p + c)) * D| ≤ 1 / 2 ^ 4 + 1 / 2 ^ 50 :=
    le_trans (scaled_err hr hD0 hD2 hpc) (by norm_num)
  have e : (r - (a + Yd * (t - x1))) * D =
      (r - (p + c)) * D + (p + c - (a + Yd * (t - x1))) * D := by ring
  rw [e]
  exact abs_add_le_of eR dsum (by norm_num)

theorem IsF64_zero : IsF64 0 := ⟨0, 0, by norm_num, by norm_num, by simp, by norm_num⟩

theorem ofRat_nonneg {x v : ℚ} (h : F64.ofRat x = .fin v) (hx : 0 ≤ x) : 0 ≤ v :=
  ofRat_mono (ofRat_exact IsF64_zero) h hx

/-- The floating-point computation of `sync_subs` for anchors and targets of at most
`2 ^ 24`: every rounding gives a finite value, the slope is not negative, and at every time
`t` of at most `2 ^ 24` the computed value `r` differs from the exact value of the line
through the anchors by at most a quarter of the reciprocal of the distance of the anchors. -/
theorem sync_point_values {x1 x2 a b : ℚ}
    (hx1 : 0 ≤ x1) (hx12 : x1 + 1 ≤ x2) (hx2 : x2 ≤ 2 ^ 24)
    (ha : 0 ≤ a) (hab : a ≤ b) (hb : b ≤ 2 ^ 24) :
    ∃ s q c, F64.ofRat ((b - a) / (x2 - x1)) = .fin s ∧ F64.ofRat (s * x2) = .fin q ∧
      F64.ofRat (b - q) = .fin c ∧ 0 ≤ s ∧
      ∀ t : ℚ, 0 ≤ t → t ≤ 2 ^ 24 → ∃ p r, F64.ofRat (s * t) = .fin p ∧
        F64.ofRat (p + c) = .fin r ∧ IsF64 r ∧ |r| ≤ 2 ^ 54 ∧
        |(r - (a + (b - a) / (x2 - x1) * (t - x1))) * (x2 - x1)| ≤ 1 / 4 := by
  have hD0 : (0 : ℚ) < x2 - x1 := by linarith
  have hYd0 : 0 ≤ (b - a) / (x2 - x1) := div_nonneg (by linarith) (by linarith)
  have hYdle : (b - a) / (x2 - x1) ≤ 2 ^ 24 := by
    rw [div_le_iff₀ hD0]
    nlinarith
  have hYdabs : |(b - a) / (x2 - x1)| ≤ 2 ^ 24 := by rw [abs_of_nonneg hYd0]; exact hYdle
  obtain ⟨s, hs1, _, hs3⟩ := ofRat_error ((b - a) / (x2 - x1)) (le_trans hYdabs (by norm_num))
  have hsabs : |s| ≤ 2 ^ 25 :=
    le_trans (abs_le_of_err (err_le hs3 hYdabs (M := 2 ^ 24) (e := 1) (by norm_num)) hYdabs)
      (by norm_num)
  have hs0 : 0 ≤ s := ofRat_nonneg hs1 hYd0
  have hprod : ∀ t : ℚ, 0 ≤ t → t ≤ 2 ^ 24 → |s * t| ≤ 2 ^ 49 := by
    intro t h0 h1
    rw [abs_mul, abs_of_nonneg h0]
    calc |s| * t ≤ 2 ^ 25 * 2 ^ 24 := mul_le_mul hsabs h1 h0 (by norm_num)
      _ = 2 ^ 49 := by norm_num
  have hsx2 := hprod x2 (by linarith) hx2
  obtain ⟨q, hq1, _, hq3⟩ := ofRat_error (s * x2) (le_trans hsx2 (by norm_num))
  have hqabs : |q| ≤ 2 ^ 50 :=
    le_trans (abs_le_of_err (err_le hq3 hsx2 (M := 2 ^ 49) (e := 1) (by norm_num)) hsx2)
      (by norm_num)
  have hbq : |b - q| ≤ 2 ^ 51 :=
    abs_sub_le_of (e := 2 ^ 24) (f := 2 ^ 50)
      (by rw [abs_of_nonneg (by linarith)]; exact hb) hqabs (by norm_num)
  obtain ⟨c, hc1, _, hc3⟩ := ofRat_error (b - q) (le_trans hbq (by norm_num))
  have hcabs : |c| ≤ 2 ^ 52 :=
    le_trans (abs_le_of_err (err_le hc3 hbq (M := 2 ^ 51) (e := 1) (by norm_num)) hbq)
      (by norm_num)
  refine ⟨s, q, c, hs1, hq1, hc1, hs0, ?_⟩
  intro t ht0 ht
  have hst := hprod t ht0 ht
  obtain ⟨p, hp1, _, hp3⟩ := ofRat_error (s * t) (le_trans hst (by norm_num))
  have hpabs : |p| ≤ 2 ^ 50 :=
    le_trans (abs_le_of_err (err_le hp3 hst (M := 2 ^ 49) (e := 1) (by norm_num)) hst)
      (by norm_num)
  have hpc : |p + c| ≤ 2 ^ 53 :=
    abs_add_le_of (e := 2 ^ 50) (f := 2 ^ 52) hpabs hcabs (by norm_num)
  obtain ⟨r, hr1, hr2, hr3⟩ := ofRat_error (p + c) (le_trans hpc (by norm_num))
  have hrabs : |r| ≤ 2 ^ 54 :=
    le_trans (abs_le_of_err (err_le hr3 hpc (M := 2 ^ 53) (e := 2) (by norm_num)) hpc)
      (by norm_num)
  refine ⟨p, r, hp1, hr1, hr2, hrabs, ?_⟩
  have e1 : x1 + (x2 - x1) = x2 := by ring
  have e2 : a + (b - a) = b := by ring
  exact @point_error_core x1 (x2 - x1) a (b - a) ((b - a) / (x2 - x1)) t s p q c r
    hx1 (by linarith) (by linarith) ha (by linarith) (by linarith) ht0 ht
    (div_mul_cancel₀ _ (ne_of_gt hD0)) hs3 hp3 (by rw [e1]; exact hq3) (by rw [e2]; exact hc3) hr3

/-- The conversion of a rounded value that is not negative. -/
theorem toUint_roundFloat64 (cv : Conv) {r : ℚ} (hr : IsF64 r) (hb : |r| ≤ 2 ^ 54)
    (h0 : 0 ≤ roundHalfAway r) :
    F64.toUint cv (roundFloat64 cv (.fin r)) = (roundHalfAway r).toNat := by
  have htr : |(truncQ r : ℚ)| ≤ 2 ^ 54 := le_trans (truncQ_abs_le r) hb
  have htr2 : |truncQ r| ≤ 2 ^ 54 := by
    have : ((|truncQ r| : Int) : ℚ) ≤ ((2 ^ 54 : Int) : ℚ) := by
      rw [Int.cast_abs]; exact le_trans htr (by norm_num)
    exact_mod_cast this
  have hrange : -(2 ^ 63) ≤ truncQ r ∧ truncQ r < 2 ^ 63 := by
    rw [abs_le] at htr2
    constructor <;> omega
  have hn : (roundHalfAway r : ℚ) ≤ 2 ^ 54 + 1 := by
    have := (roundHalfAway_spec r).1
    rw [abs_le] at this hb
    linarith
  have hn2 : roundHalfAway r < 2 ^ 64 := by
    have : ((roundHalfAway r : Int) : ℚ) < ((2 ^ 64 : Int) : ℚ) :=
      lt_of_le_of_lt hn (by norm_num)
    exact_mod_cast this
  rw [roundFloat64_eq cv hr hrange]
  unfold F64.toUint
  simp only [truncQ_intCast]
  rw [if_pos ⟨h0, hn2⟩]

theorem roundHalfAway_mono {x y : ℚ} (h : x ≤ y) : roundHalfAway x ≤ roundHalfAway y := by
  unfold roundHalfAway
  split_ifs with hx hy hy
  · exact Int.floor_le_floor (by linarith)
  · exfalso; linarith
  · have h1 : ⌈x - 1 / 2⌉ ≤ 0 := Int.ceil_le.mpr (by push_cast; linarith)
    have h2 : 0 ≤ ⌊y + 1 / 2⌋ := Int.floor_nonneg.mpr (by linarith)
    omega
  · exact Int.ceil_le_ceil (by linarith)

/-- A value close to a point `y` of the grid of step `1 / D` is rounded to an integer within
half a unit of `y`. -/
theorem round_on_grid (r y : ℚ) (D : Nat) (Z : Int) (hD : 0 < D) (hy : y * D = Z)
    (h : |(r - y) * D| ≤ 1 / 4) : |(roundHalfAway r : ℚ) - y| ≤ 1 / 2 := by
  have hDq : (0 : ℚ) < D := by exact_mod_cast hD
  have h1 := (roundHalfAway_spec r).1
  set n := roundHalfAway r
  have h2 : |((n : ℚ) - r) * D| ≤ 1 / 2 * D := by
    rw [abs_mul, abs_of_pos hDq]
    exact mul_le_mul_of_nonneg_right h1 (le_of_lt hDq)
  have h3 : |((n : ℚ) - y) * D| ≤ 1 / 2 * D + 1 / 4 := by
    have e : ((n : ℚ) - y) * D = ((n : ℚ) - r) * D + (r - y) * D := by ring
    rw [e]
    exact abs_add_le_of h2 h (le_refl _)
  have e4 : (((2 * (n * D - Z) : Int)) : ℚ) = 2 * (((n : ℚ) - y) * D) := by
    push_cast
    rw [← hy]
    ring
  have h5 : |((2 * (n * D - Z) : Int) : ℚ)| < ((D + 1 : Int) : ℚ) := by
    rw [e4, abs_mul, abs_of_pos (by norm_num : (0 : ℚ) < 2)]
    push_cast
    linarith
  have h6 : |2 * (n * D - Z)| < (D : Int) + 1 := by
    rw [← Int.cast_abs] at h5
    exact_mod_cast h5
  have h7 : |2 * (n * D - Z)| ≤ (D : Int) := by omega
  have h8 : |((2 * (n * D - Z) : Int) : ℚ)| ≤ (D : ℚ) := by
    rw [← Int.cast_abs]
    exact_mod_cast h7
  rw [e4, abs_mul, abs_of_pos (by norm_num : (0 : ℚ) < 2), abs_mul, abs_of_pos hDq] at h8
  have h9 : |(n : ℚ) - y| * D ≤ 1 / 2 * D := by linarith
  exact le_of_mul_le_mul_right h9 hDq

theorem roundHalfAway_nonneg {r y : ℚ} (hy : 0 ≤ y) (h : |(roundHalfAway r : ℚ) - y| ≤ 1 / 2) :
    0 ≤ roundHalfAway r := by
  rw [abs_le] at h
  have h1 : (-1 : ℚ) < roundHalfAway r := by linarith
  have h2 : ((-1 : Int) : ℚ) < ((roundHalfAway r : Int) : ℚ) := by push_cast; exact h1
  have h3 : (-1 : Int) < roundHalfAway r := by exact_mod_cast h2
  omega

/-- The values that `sync_subs` computes for anchors and targets below `2 ^ 24` ms: `slope`
and `yint` are finite, the new value of every time `t` from the first anchor on and below
`2 ^ 24` is within half a millisecond of the exact value of the line through the anchors,
and the new values are monotone in `t`. -/
theorem sync_points (cv : Conv) (x1 x2 a b : Nat) (hx : x1 < x2) (hx2 : x2 < 2 ^ 24)
    (hab : a ≤ b) (hb : b < 2 ^ 24) :
    ∃ s c : ℚ, syncSlope a b x1 x2 = .fin s ∧ syncYint a b x1 x2 = .fin c ∧
      (∀ t : Nat, x1 ≤ t → t < 2 ^ 24 →
        |((syncPoint cv (.fin s) (.fin c) t : Nat) : ℚ) -
          ((a : ℚ) + ((b : ℚ) - a) / ((x2 : ℚ) - x1) * ((t : ℚ) - x1))| ≤ 1 / 2) ∧
      (∀ t1 t2 : Nat, x1 ≤ t1 → t1 ≤ t2 → t2 < 2 ^ 24 →
        syncPoint cv (.fin s) (.fin c) t1 ≤ syncPoint cv (.fin s) (.fin c) t2) := by
  have c53 : (2 : Nat) ^ 24 < 2 ^ 53 := by norm_num
  have c64 : (2 : Nat) ^ 24 < 2 ^ 64 := by norm_num
  have hx1q : (0 : ℚ) ≤ (x1 : ℚ) := by positivity
  have hx12q : (x1 : ℚ) + 1 ≤ x2 := by exact_mod_cast hx
  have hx2q : (x2 : ℚ) ≤ 2 ^ 24 := by exact_mod_cast le_of_lt hx2
  have haq : (0 : ℚ) ≤ (a : ℚ) := by positivity
  have habq : (a : ℚ) ≤ b := by exact_mod_cast hab
  have hbq : (b : ℚ) ≤ 2 ^ 24 := by exact_mod_cast le_of_lt hb
  have hDpos : 0 < x2 - x1 := by omega
  have hDne : ((x2 - x1 : Nat) : ℚ) ≠ 0 := by exact_mod_cast (ne_of_gt hDpos)
  have hKc : ((b - a : Nat) : ℚ) = (b : ℚ) - a := Nat.cast_sub hab
  have hDc : ((x2 - x1 : Nat) : ℚ) = (x2 : ℚ) - x1 := Nat.cast_sub (le_of_lt hx)
  have hDq0 : (0 : ℚ) < (x2 : ℚ) - x1 := by linarith
  obtain ⟨s, q, c, hs, hq, hc, hs0, hpt⟩ := sync_point_values hx1q hx12q hx2q haq habq hbq
  have hslope : syncSlope a b x1 x2 = .fin s := by
    unfold syncSlope
    rw [wrap_sub _ _ hab (lt_trans hb c64), wrap_sub _ _ (le_of_lt hx) (lt_trans hx2 c64),
      ofInt_nat _ (by omega), ofInt_nat _ (by omega), F64_div_fin _ _ hDne, hKc, hDc, hs]
  have hyint : syncYint a b x1 x2 = .fin c := by
    unfold syncYint
    rw [hslope, ofInt_nat _ (by omega), ofInt_nat _ (by omega), F64_mul_fin, hq, F64_sub_fin, hc]
  -- the value at one time
  have point : ∀ t : Nat, t < 2 ^ 24 → ∃ r : ℚ, IsF64 r ∧ |r| ≤ 2 ^ 54 ∧
      (∃ p, F64.ofRat (s * t) = .fin p ∧ F64.ofRat (p + c) = .fin r) ∧
      |(r - ((a : ℚ) + ((b : ℚ) - a) / ((x2 : ℚ) - x1) * ((t : ℚ) - x1))) * ((x2 : ℚ) - x1)| ≤
        1 / 4 ∧
      (0 ≤ roundHalfAway r → syncPoint cv (.fin s) (.fin c) t = (roundHalfAway r).toNat) := by
    intro t ht
    obtain ⟨p, r, hp, hr, hIs, hrabs, herr⟩ := hpt (t : ℚ) (by positivity)
      (by exact_mod_cast le_of_lt ht)
    refine ⟨r, hIs, hrabs, ⟨p, hp, hr⟩, herr, fun h0 => ?_⟩
    unfold syncPoint
    rw [ofInt_nat _ (by omega), F64_mul_fin, hp, F64_add_fin, hr,
      toUint_roundFloat64 cv hIs hrabs h0]
  -- rounding on the grid
  have close : ∀ t : Nat, x1 ≤ t → t < 2 ^ 24 → ∀ r : ℚ,
      |(r - ((a : ℚ) + ((b : ℚ) - a) / ((x2 : ℚ) - x1) * ((t : ℚ) - x1))) * ((x2 : ℚ) - x1)| ≤
        1 / 4 →
      |(roundHalfAway r : ℚ) -
        ((a : ℚ) + ((b : ℚ) - a) / ((x2 : ℚ) - x1) * ((t : ℚ) - x1))| ≤ 1 / 2 ∧
      0 ≤ roundHalfAway r := by
    intro t hxt ht r herr
    have hy0 : (0 : ℚ) ≤ (a : ℚ) + ((b : ℚ) - a) / ((x2 : ℚ) - x1) * ((t : ℚ) - x1) := by
      have h1 : (0 : ℚ) ≤ ((b : ℚ) - a) / ((x2 : ℚ) - x1) :=
        div_nonneg (by linarith) (le_of_lt hDq0)
      have h2 : (0 : ℚ) ≤ (t : ℚ) - x1 := by
        have : (x1 : ℚ) ≤ t := by exact_mod_cast hxt
        linarith
      have := mul_nonneg h1 h2
      linarith
    have hZ : ((a : ℚ) + ((b : ℚ) - a) / ((x2 : ℚ) - x1) * ((t : ℚ) - x1)) *
        ((x2 - x1 : Nat) : ℚ) =
        (((a : Int) * ((x2 - x1 : Nat) : Int) + ((b - a : Nat) : Int) * ((t - x1 : Nat) : Int) :
          Int) : ℚ) := by
      push_cast
      rw [hDc, hKc, Nat.cast_sub hxt]
      field_simp
    have hcl := round_on_grid r _ (x2 - x1) _ hDpos hZ (by rw [hDc]; exact herr)
    exact ⟨hcl, roundHalfAway_nonneg hy0 hcl⟩
  refine ⟨s, c, hslope, hyint, ?_, ?_⟩
  · intro t hxt ht
    obtain ⟨r, _, _, _, herr, hval⟩ := point t ht
    obtain ⟨hcl, h0⟩ := close t hxt ht r herr
    rw [hval h0]
    have e : (((roundHalfAway r).toNat : Nat) : ℚ) = (roundHalfAway r : ℚ) := by
      have h2 : ((((roundHalfAway r).toNat : Nat) : Int) : ℚ) = ((roundHalfAway r : Int) : ℚ) := by
        rw [Int.toNat_of_nonneg h0]
      rw [← h2, Int.cast_natCast]
    rw [e]
    exact hcl
  · intro t1 t2 hx1t h12 ht2
    obtain ⟨r1, _, _, ⟨p1, hp1, hr1⟩, herr1, hval1⟩ := point t1 (by omega)
    obtain ⟨r2, _, _, ⟨p2, hp2, hr2⟩, herr2, hval2⟩ := point t2 ht2
    obtain ⟨_, h01⟩ := close t1 hx1t (by omega) r1 herr1
    obtain ⟨_, h02⟩ := close t2 (by omega) ht2 r2 herr2
    rw [hval1 h01, hval2 h02]
    have hst : s * (t1 : ℚ) ≤ s * (t2 : ℚ) :=
      mul_le_mul_of_nonneg_left (by exact_mod_cast h12) hs0
    have hp : p1 ≤ p2 := ofRat_mono hp1 hp2 hst
    have hr : r1 ≤ r2 := ofRat_mono hr1 hr2 (by linarith)
    exact Int.toNat_le_toNat (roundHalfAway_mono hr)

/-- C17 (as stated, refuted): in a document whose first cue starts at 94917868 ms and whose
last cue starts at 94917869 ms and ends at 94917871 ms (about 26 hours), with the targets 0
and 94894687, the last cue gets the start 94894688 and the end 284684060; its new duration,
189789372, differs by 2 from the slope 94894687 times its old duration 2. -/
theorem duration_counterexample :
    sync_subs zeroConv [⟨[], 94917868, 94917868⟩, ⟨[], 94917869, 94917871⟩] 0 94894687 =
      some [⟨[], 0, 0⟩, ⟨[], 94894688, 284684060⟩] ∧
    ¬ |((284684060 : ℚ) - 94894688) -
        ((94894687 : ℚ) - 0) / ((94917869 : ℚ) - 94917868) *
          ((94917871 : ℚ) - 94917869)| ≤ 1 := by
  refine ⟨by decide!, ?_⟩
  norm_num [abs_le]

/-- C17 (amended): affine consistency. For every document whose first cue starts strictly
before its last cue and in which every start and end is below `2 ^ 24` ms (about 4.6 hours),
and for all targets `synced_first_ms ≤ synced_last_ms < 2 ^ 24`, `sync_subs` moves every
start and every end that is not below the first cue's start to within half a millisecond of
the exact value `synced_first_ms + slope * (old - first start)`, where `slope` is the
quotient of the distance of the targets and the distance of the first and last start; so the
new duration of such a cue differs from `slope` times its old duration by at most 1 ms. This
holds whatever the implementation-dependent conversions do. -/
theorem sync_subs_durations (cv : Conv) (subs : List subtitle) (first last : subtitle)
    (synced_first_ms synced_last_ms : Nat)
    (hf : subs.head? = some first) (hl : subs.getLast? = some last)
    (hlt : first.start < last.start)
    (hy : synced_first_ms ≤ synced_last_ms) (hy2 : synced_last_ms < 2 ^ 24)
    (hb : ∀ sub ∈ subs, sub.start < 2 ^ 24 ∧ sub.end_ < 2 ^ 24) :
    ∃ out, sync_subs cv subs synced_first_ms synced_last_ms = some out ∧
      ∀ (i : Nat) (old new : subtitle), subs[i]? = some old → out[i]? = some new →
        first.start ≤ old.start → first.start ≤ old.end_ →
        |(new.start : ℚ) - ((synced_first_ms : ℚ) +
          ((synced_last_ms : ℚ) - synced_first_ms) / ((last.start : ℚ) - first.start) *
            ((old.start : ℚ) - first.start))| ≤ 1 / 2 ∧
        |(new.end_ : ℚ) - ((synced_first_ms : ℚ) +
          ((synced_last_ms : ℚ) - synced_first_ms) / ((last.start : ℚ) - first.start) *
            ((old.end_ : ℚ) - first.start))| ≤ 1 / 2 ∧
        |((new.end_ : ℚ) - new.start) -
          ((synced_last_ms : ℚ) - synced_first_ms) / ((last.start : ℚ) - first.start) *
            ((old.end_ : ℚ) - old.start)| ≤ 1 := by
  have hx2 := (hb last (List.mem_of_getLast?_eq_some hl)).1
  obtain ⟨s, c, hs, hc, hclose, _⟩ :=
    sync_points cv first.start last.start synced_first_ms synced_last_ms hlt hx2 hy hy2
  refine ⟨_, sync_subs_eq_map cv subs first last synced_first_ms synced_last_ms hf hl, ?_⟩
  intro i old new ho hn h1 h2
  rw [List.getElem?_map, ho] at hn
  simp only [Option.map_some', Option.some.injEq] at hn
  subst hn
  simp only [hs, hc]
  obtain ⟨b1, b2⟩ := hb old (List.getElem?_mem ho)
  have e1 := hclose old.start h1 b1
  have e2 := hclose old.end_ h2 b2
  refine ⟨e1, e2, ?_⟩
  have e : ((syncPoint cv (.fin s) (.fin c) old.end_ : Nat) : ℚ) -
      (syncPoint cv (.fin s) (.fin c) old.start : Nat) -
      ((synced_last_ms : ℚ) - synced_first_ms) / ((last.start : ℚ) - first.start) *
        ((old.end_ : ℚ) - old.start) =
      (((syncPoint cv (.fin s) (.fin c) old.end_ : Nat) : ℚ) - ((synced_first_ms : ℚ) +
        ((synced_last_ms : ℚ) - synced_first_ms) / ((last.start : ℚ) - first.start) *
          ((old.end_ : ℚ) - first.start))) -
      (((syncPoint cv (.fin s) (.fin c) old.start : Nat) : ℚ) - ((synced_first_ms : ℚ) +
        ((synced_last_ms : ℚ) - synced_first_ms) / ((last.start : ℚ) - first.start) *
          ((old.start : ℚ) - first.start))) := by
    ring
  rw [e]
  exact abs_sub_le_of e2 e1 (by norm_num)

/-- Witness for C17 (amended): the two cues of the end-to-end scenario, resynced to 0 and
60000 ms. -/
theorem sync_subs_durations_witness :
    (([⟨[], 10000, 12000⟩, ⟨[], 100000, 102000⟩] : List subtitle).head? =
        some ⟨[], 10000, 12000⟩ ∧
      ([⟨[], 10000, 12000⟩, ⟨[], 100000, 102000⟩] : List subtitle).getLast? =
        some ⟨[], 100000, 102000⟩ ∧
      10000 < 100000 ∧ 0 ≤ 60000 ∧ 60000 < 2 ^ 24 ∧
      ∀ sub ∈ ([⟨[], 10000, 12000⟩, ⟨[], 100000, 102000⟩] : List subtitle),
        sub.start < 2 ^ 24 ∧ sub.end_ < 2 ^ 24) ∧
    ∃ out, sync_subs zeroConv [⟨[], 10000, 12000⟩, ⟨[], 100000, 102000⟩] 0 60000 = some out ∧
      ∀ (i : Nat) (old new : subtitle),
        ([⟨[], 10000, 12000⟩, ⟨[], 100000, 102000⟩] : List subtitle)[i]? = some old →
        out[i]? = some new → 10000 ≤ old.start → 10000 ≤ old.end_ →
        |(new.start : ℚ) - (((0 : Nat) : ℚ) +
          (((60000 : Nat) : ℚ) - ((0 : Nat) : ℚ)) / (((100000 : Nat) : ℚ) - ((10000 : Nat) : ℚ)) *
            ((old.start : ℚ) - ((10000 : Nat) : ℚ)))| ≤ 1 / 2 ∧
        |(new.end_ : ℚ) - (((0 : Nat) : ℚ) +
          (((60000 : Nat) : ℚ) - ((0 : Nat) : ℚ)) / (((100000 : Nat) : ℚ) - ((10000 : Nat) : ℚ)) *
            ((old.end_ : ℚ) - ((10000 : Nat) : ℚ)))| ≤ 1 / 2 ∧
        |((new.end_ : ℚ) - new.start) -
          (((60000 : Nat) : ℚ) - ((0 : Nat) : ℚ)) / (((100000 : Nat) : ℚ) - ((10000 : Nat) : ℚ)) *
            ((old.end_ : ℚ) - old.start)| ≤ 1 :=
  ⟨⟨rfl, rfl, by decide⟩,
    sync_subs_durations zeroConv [⟨[], 10000, 12000⟩, ⟨[], 100000, 102000⟩]
      ⟨[], 10000, 12000⟩ ⟨[], 100000, 102000⟩ 0 60000 rfl rfl
      (by decide) (by decide) (by decide) (by decide)⟩

theorem syncPoint_eq (cv : Conv) (slope yint : F64) (t : Nat) :
    syncPoint cv slope yint t = F64.toUint cv (syncValue cv slope yint t) := rfl

/-- On every finite `float64`, `roundFloat64` rounds to the nearest integer, ties away from
zero, whatever `int64(f)` gives when `f` does not fit: such an `f` is an integer. -/
theorem roundFloat64_eq_all (cv : Conv) {q : ℚ} (hq : IsF64 q) :
    roundFloat64 cv (.fin q) = .fin (roundHalfAway q) := by
  by_cases hbig : |q| < 2 ^ 63
  · have htr : |(truncQ q : ℚ)| < 2 ^ 63 := lt_of_le_of_lt (truncQ_abs_le q) hbig
    have htr2 : |truncQ q| < 2 ^ 63 := by
      have : ((|truncQ q| : Int) : ℚ) < ((2 ^ 63 : Int) : ℚ) := by
        rw [Int.cast_abs]; exact lt_of_lt_of_le htr (by norm_num)
      exact_mod_cast this
    have hrange : -(2 ^ 63) ≤ truncQ q ∧ truncQ q < 2 ^ 63 := by
      rw [abs_lt] at htr2
      constructor <;> omega
    exact roundFloat64_eq cv hq hrange
  · obtain ⟨n, rfl⟩ := isF64_large_int hq (le_trans (by norm_num) (not_lt.mp hbig))
    rw [roundHalfAway_intCast]
    unfold roundFloat64
    simp only []
    split_ifs <;> simp [F64.Ceil, F64.Floor]

/-- Rounding a number of bounded magnitude gives a finite `float64` of bounded magnitude. -/
theorem ofRat_fin_bound {x M : ℚ} (hx : |x| ≤ M) (h1 : 1 ≤ M) (hM : M ≤ 2 ^ 999) :
    ∃ y, F64.ofRat x = .fin y ∧ IsF64 y ∧ |y| ≤ 2 * M := by
  obtain ⟨y, hy, hIs, herr⟩ := ofRat_error x (le_trans hx (le_trans hM (by norm_num)))
  refine ⟨y, hy, hIs, ?_⟩
  have h2 : (2 : ℚ) ^ (-53 : Int) * M ≤ 1 / 2 * M :=
    mul_le_mul_of_nonneg_right (by norm_num) (by linarith)
  have h3 : (2 : ℚ) ^ (-1075 : Int) ≤ 1 / 2 := by norm_num
  have h6 : 1 / 2 * M + 1 / 2 ≤ M := by linarith only [h1]
  have h4 : (2 : ℚ) ^ (-53 : Int) * M + 2 ^ (-1075 : Int) ≤ M :=
    le_trans (add_le_add h2 h3) h6
  have h5 := abs_le_of_err (err_le herr hx (M := M) (e := M) h4) hx
  linarith only [h5]

/-- The conversion to `float64` of an unsigned integer. -/
theorem ofInt_fin (n : Nat) (h : n < 2 ^ 64) :
    ∃ v, F64.ofInt (n : Int) = .fin v ∧ 0 ≤ v ∧ |v| ≤ 2 ^ 65 ∧ (1 ≤ n → 1 ≤ v) := by
  have hq : |(((n : Int) : ℚ))| ≤ 2 ^ 64 := by
    rw [abs_of_nonneg (by positivity)]
    exact_mod_cast le_of_lt h
  obtain ⟨v, hv, _, hb⟩ := ofRat_fin_bound hq (by norm_num) (by norm_num)
  have one : IsF64 1 := ⟨1, 0, by norm_num, by norm_num, by simp, by norm_num⟩
  refine ⟨v, hv, ?_, le_trans hb (by norm_num), fun h1 => ?_⟩
  · exact ofRat_nonneg hv (by positivity)
  · exact ofRat_mono (ofRat_exact one) hv (by exact_mod_cast h1)

theorem ofInt_mono {n m : Nat} {v w : ℚ} (h : n ≤ m) (hv : F64.ofInt (n : Int) = .fin v)
    (hw : F64.ofInt (m : Int) = .fin w) : v ≤ w :=
  ofRat_mono hv hw (by exact_mod_cast h)

theorem abs_mul_le_of {u v e f g : ℚ} (hu : |u| ≤ e) (hv : |v| ≤ f) (h : e * f ≤ g) :
    |u * v| ≤ g := by
  rw [abs_mul]
  exact le_trans (mul_le_mul hu hv (abs_nonneg _) (le_trans (abs_nonneg _) hu)) h

/-- The computation of `sync_subs` on arbitrary `uint` operands, the first anchor before the
second and the first target not after the second: `slope` and `yint` are finite, the value
computed for every time is a finite integer, and these values are monotone in the time. -/
theorem sync_values (cv : Conv) (x1 x2 a b : Nat) (hx : x1 < x2) (hx2 : x2 < 2 ^ 64)
    (hab : a ≤ b) (hb : b < 2 ^ 64) :
    ∃ s c : ℚ, syncSlope a b x1 x2 = .fin s ∧ syncYint a b x1 x2 = .fin c ∧
      (∀ t : Nat, t < 2 ^ 64 → ∃ v : Int, syncValue cv (.fin s) (.fin c) t = .fin (v : ℚ)) ∧
      (∀ (t1 t2 : Nat) (v1 v2 : Int), t1 ≤ t2 → t2 < 2 ^ 64 →
        syncValue cv (.fin s) (.fin c) t1 = .fin (v1 : ℚ) →
        syncValue cv (.fin s) (.fin c) t2 = .fin (v2 : ℚ) → v1 ≤ v2) := by
  -- the slope
  obtain ⟨k, hk, hk0, hkb, _⟩ := ofInt_fin (b - a) (by omega)
  obtain ⟨d, hd, hd0, hdb, hd1⟩ := ofInt_fin (x2 - x1) (by omega)
  have hd1 : 1 ≤ d := hd1 (by omega)
  have hdne : d ≠ 0 := by linarith
  have hkd : |k / d| ≤ 2 ^ 65 := by
    rw [abs_div, abs_of_pos (by linarith : (0 : ℚ) < d)]
    rw [div_le_iff₀ (by linarith)]
    have : (2 : ℚ) ^ 65 * 1 ≤ 2 ^ 65 * d := mul_le_mul_of_nonneg_left hd1 (by norm_num)
    linarith only [this, hkb]
  obtain ⟨s, hs, _, hsb⟩ := ofRat_fin_bound hkd (by norm_num) (by norm_num)
  have hs0 : 0 ≤ s := ofRat_nonneg hs (div_nonneg hk0 hd0)
  have hslope : syncSlope a b x1 x2 = .fin s := by
    unfold syncSlope
    rw [wrap_sub _ _ hab hb, wrap_sub _ _ (le_of_lt hx) hx2, hk, hd, F64_div_fin _ _ hdne, hs]
  -- the intercept
  obtain ⟨bb, hbb, _, hbbb, _⟩ := ofInt_fin b hb
  obtain ⟨xx, hxx, _, hxxb, _⟩ := ofInt_fin x2 hx2
  have hsx : |s * xx| ≤ 2 ^ 131 := abs_mul_le_of hsb hxxb (by norm_num)
  obtain ⟨q, hq, _, hqb⟩ := ofRat_fin_bound hsx (by norm_num) (by norm_num)
  have hbq : |bb - q| ≤ 2 ^ 133 := abs_sub_le_of hbbb hqb (by norm_num)
  obtain ⟨c, hc, _, hcb⟩ := ofRat_fin_bound hbq (by norm_num) (by norm_num)
  have hyint : syncYint a b x1 x2 = .fin c := by
    unfold syncYint
    rw [hslope, hbb, hxx, F64_mul_fin, hq, F64_sub_fin, hc]
  -- the value at one time
  have point : ∀ t : Nat, t < 2 ^ 64 → ∃ tt p r : ℚ, F64.ofInt (t : Int) = .fin tt ∧
      F64.ofRat (s * tt) = .fin p ∧ F64.ofRat (p + c) = .fin r ∧
      syncValue cv (.fin s) (.fin c) t = .fin (roundHalfAway r) := by
    intro t ht
    obtain ⟨tt, htt, _, httb, _⟩ := ofInt_fin t ht
    have hst : |s * tt| ≤ 2 ^ 131 := abs_mul_le_of hsb httb (by norm_num)
    obtain ⟨p, hp, _, hpb⟩ := ofRat_fin_bound hst (by norm_num) (by norm_num)
    have hpc : |p + c| ≤ 2 ^ 135 := abs_add_le_of hpb hcb (by norm_num)
    obtain ⟨r, hr, hIs, _⟩ := ofRat_fin_bound hpc (by norm_num) (by norm_num)
    refine ⟨tt, p, r, htt, hp, hr, ?_⟩
    unfold syncValue
    rw [htt, F64_mul_fin, hp, F64_add_fin, hr, roundFloat64_eq_all cv hIs]
  refine ⟨s, c, hslope, hyint, ?_, ?_⟩
  · intro t ht
    obtain ⟨_, _, r, _, _, _, hv⟩ := point t ht
    exact ⟨roundHalfAway r, hv⟩
  · intro t1 t2 v1 v2 h12 ht2 e1 e2
    obtain ⟨tt1, p1, r1, htt1, hp1, hr1, hv1⟩ := point t1 (by omega)
    obtain ⟨tt2, p2, r2, htt2, hp2, hr2, hv2⟩ := point t2 ht2
    rw [hv1] at e1
    rw [hv2] at e2
    simp only [F64.fin.injEq, Int.cast_inj] at e1 e2
    rw [← e1, ← e2]
    have htt : tt1 ≤ tt2 := ofInt_mono h12 htt1 htt2
    have hp : p1 ≤ p2 := ofRat_mono hp1 hp2 (mul_le_mul_of_nonneg_left htt hs0)
    have hr : r1 ≤ r2 := ofRat_mono hr1 hr2 (by linarith only [hp])
    exact roundHalfAway_mono hr

/-- The conversion to `uint` of an integer value that fits. -/
theorem toUint_of_fits (cv : Conv) (v : Int) (h : FitsUint (.fin (v : ℚ))) :
    0 ≤ v ∧ v < 2 ^ 64 ∧ F64.toUint cv (.fin (v : ℚ)) = v.toNat := by
  have h2 : 0 ≤ v ∧ v < 2 ^ 64 := by
    have := h
    simp only [FitsUint, truncQ_intCast] at this
    exact this
  refine ⟨h2.1, h2.2, ?_⟩
  unfold F64.toUint
  simp only [truncQ_intCast]
  rw [if_pos h2]

/-- For anchors and targets below `2 ^ 24` ms, the value that `sync_subs` computes for a time
from the first anchor on and below `2 ^ 24` fits `uint`. -/
theorem sync_points_fit (cv : Conv) (x1 x2 a b : Nat) (hx : x1 < x2) (hx2 : x2 < 2 ^ 24)
    (hab : a ≤ b) (hb : b < 2 ^ 24) :
    ∃ s c : ℚ, syncSlope a b x1 x2 = .fin s ∧ syncYint a b x1 x2 = .fin c ∧
      ∀ t : Nat, x1 ≤ t → t < 2 ^ 24 → FitsUint (syncValue cv (.fin s) (.fin c) t) := by
  have c53 : (2 : Nat) ^ 24 < 2 ^ 53 := by norm_num
  have c64 : (2 : Nat) ^ 24 < 2 ^ 64 := by norm_num
  have hx1q : (0 : ℚ) ≤ (x1 : ℚ) := by positivity
  have hx12q : (x1 : ℚ) + 1 ≤ x2 := by exact_mod_cast hx
  have hx2q : (x2 : ℚ) ≤ 2 ^ 24 := by exact_mod_cast le_of_lt hx2
  have haq : (0 : ℚ) ≤ (a : ℚ) := by positivity
  have habq : (a : ℚ) ≤ b := by exact_mod_cast hab
  have hbq : (b : ℚ) ≤ 2 ^ 24 := by exact_mod_cast le_of_lt hb
  have hDpos : 0 < x2 - x1 := by omega
  have hDne : ((x2 - x1 : Nat) : ℚ) ≠ 0 := by exact_mod_cast (ne_of_gt hDpos)
  have hKc : ((b - a : Nat) : ℚ) = (b : ℚ) - a := Nat.cast_sub hab
  have hDc : ((x2 - x1 : Nat) : ℚ) = (x2 : ℚ) - x1 := Nat.cast_sub (le_of_lt hx)
  have hDq0 : (0 : ℚ) < (x2 : ℚ) - x1 := by linarith
  obtain ⟨s, q, c, hs, hq, hc, hs0, hpt⟩ := sync_point_values hx1q hx12q hx2q haq habq hbq
  have hslope : syncSlope a b x1 x2 = .fin s := by
    unfold syncSlope
    rw [wrap_sub _ _ hab (lt_trans hb c64), wrap_sub _ _ (le_of_lt hx) (lt_trans hx2 c64),
      ofInt_nat _ (by omega), ofInt_nat _ (by omega), F64_div_fin _ _ hDne, hKc, hDc, hs]
  have hyint : syncYint a b x1 x2 = .fin c := by
    unfold syncYint
    rw [hslope, ofInt_nat _ (by omega), ofInt_nat _ (by omega), F64_mul_fin, hq, F64_sub_fin, hc]
  refine ⟨s, c, hslope, hyint, ?_⟩
  intro t hxt ht
  obtain ⟨p, r, hp, hr, hIs, hrabs, herr⟩ := hpt (t : ℚ) (by positivity)
    (by exact_mod_cast le_of_lt ht)
  have hval : syncValue cv (.fin s) (.fin c) t = .fin (roundHalfAway r) := by
    unfold syncValue
    rw [ofInt_nat _ (by omega), F64_mul_fin, hp, F64_add_fin, hr, roundFloat64_eq_all cv hIs]
  have hy0 : (0 : ℚ) ≤ (a : ℚ) + ((b : ℚ) - a) / ((x2 : ℚ) - x1) * ((t : ℚ) - x1) := by
    have h1 : (0 : ℚ) ≤ ((b : ℚ) - a) / ((x2 : ℚ) - x1) :=
      div_nonneg (by linarith) (le_of_lt hDq0)
    have h2 : (0 : ℚ) ≤ (t : ℚ) - x1 := by
      have : (x1 : ℚ) ≤ t := by exact_mod_cast hxt
      linarith
    have := mul_nonneg h1 h2
    linarith
  have hZ : ((a : ℚ) + ((b : ℚ) - a) / ((x2 : ℚ) - x1) * ((t : ℚ) - x1)) *
      ((x2 - x1 : Nat) : ℚ) =
      (((a : Int) * ((x2 - x1 : Nat) : Int) + ((b - a : Nat) : Int) * ((t - x1 : Nat) : Int) :
        Int) : ℚ) := by
    push_cast
    rw [hDc, hKc, Nat.cast_sub hxt]
    field_simp
  have hcl := round_on_grid r _ (x2 - x1) _ hDpos hZ (by rw [hDc]; exact herr)
  have h0 : 0 ≤ roundHalfAway r := roundHalfAway_nonneg hy0 hcl
  have hn : (roundHalfAway r : ℚ) ≤ 2 ^ 54 + 1 := by
    have h3 := (roundHalfAway_spec r).1
    rw [abs_le] at h3 hrabs
    linarith only [h3.2, hrabs.2]
  have hn2 : roundHalfAway r < 2 ^ 64 := by
    have : ((roundHalfAway r : Int) : ℚ) < ((2 ^ 64 : Int) : ℚ) :=
      lt_of_le_of_lt hn (by norm_num)
    exact_mod_cast this
  rw [hval]
  simp only [FitsUint, truncQ_intCast]
  exact ⟨h0, hn2⟩

/-- The order of the converted values of two times whose computed values fit `uint`. -/
theorem syncPoint_le (cv : Conv) (x1 x2 a b : Nat) (hx : x1 < x2) (hx2 : x2 < 2 ^ 64)
    (hab : a ≤ b) (hb : b < 2 ^ 64) (t1 t2 : Nat) (h12 : t1 ≤ t2) (ht2 : t2 < 2 ^ 64)
    (f1 : FitsUint (syncValue cv (syncSlope a b x1 x2) (syncYint a b x1 x2) t1))
    (f2 : FitsUint (syncValue cv (syncSlope a b x1 x2) (syncYint a b x1 x2) t2)) :
    syncPoint cv (syncSlope a b x1 x2) (syncYint a b x1 x2) t1 ≤
      syncPoint cv (syncSlope a b x1 x2) (syncYint a b x1 x2) t2 := by
  obtain ⟨s, c, hs, hc, hex, hmono⟩ := sync_values cv x1 x2 a b hx hx2 hab hb
  rw [hs, hc] at f1 f2 ⊢
  obtain ⟨v1, e1⟩ := hex t1 (by omega)
  obtain ⟨v2, e2⟩ := hex t2 ht2
  have hle := hmono t1 t2 v1 v2 h12 ht2 e1 e2
  rw [syncPoint_eq, syncPoint_eq, e1, e2]
  rw [e1] at f1
  rw [e2] at f2
  obtain ⟨_, _, u1⟩ := toUint_of_fits cv v1 f1
  obtain ⟨_, _, u2⟩ := toUint_of_fits cv v2 f2
  rw [u1, u2]
  exact Int.toNat_le_toNat hle

/-- C18 (as stated, refuted), with the conversions of amd64. (1) In the document with the
cues (95206151, 95206152) and (95206153, 95206154), about 26 hours, and with the targets 0
and 94930547, the value computed for the first start is `-1`; its conversion to `uint` gives
`2 ^ 64 - 1`, so that the first start, which was not after the last start, ends up after it
(94930547), and the first cue starts after its end (47465273). (2) In the document with the
cues (0, 1) and (1, 2) and with the targets 0 and `3 * 2 ^ 62`, the time 1 becomes
`3 * 2 ^ 62` and the value computed for the time 2 is `3 * 2 ^ 63`, which does not fit
`uint`; its conversion gives `2 ^ 63`, and the second cue ends before it starts. -/
theorem timestamp_order_counterexample :
    (sync_subs amd64Conv [⟨[], 95206151, 95206152⟩, ⟨[], 95206153, 95206154⟩] 0 94930547 =
        some [⟨[], 18446744073709551615, 47465273⟩, ⟨[], 94930547, 142395820⟩] ∧
      syncValue amd64Conv (syncSlope 0 94930547 95206151 95206153)
        (syncYint 0 94930547 95206151 95206153) 95206151 = .fin (-1)) ∧
    (sync_subs amd64Conv [⟨[], 0, 1⟩, ⟨[], 1, 2⟩] 0 13835058055282163712 =
        some [⟨[], 0, 13835058055282163712⟩,
          ⟨[], 13835058055282163712, 9223372036854775808⟩] ∧
      syncValue amd64Conv (syncSlope 0 13835058055282163712 0 1)
        (syncYint 0 13835058055282163712 0 1) 2 = .fin 27670116110564327424) := by
  refine ⟨⟨?_, ?_⟩, ⟨?_, ?_⟩⟩ <;> decide!

/-- C18 (amended): `sync_subs` preserves the order of timestamps as far as the conversion to
`uint` is defined. For every document whose first cue starts strictly before its last cue
and for all targets `synced_first_ms ≤ synced_last_ms`, any two timestamps `t1 ≤ t2` of the
document (starts or ends, of the same or of different cues) for which the value
`roundFloat64(slope * float64(t) + yint)` fits `uint` are moved to new values in the same
order, whatever the implementation-dependent conversions do; in particular a cue with
`start ≤ end` keeps `start ≤ end`. The values fit for every time that is not below the first
cue's start when every start, end and target is below `2 ^ 24` ms, so that the order of such
timestamps is then preserved without a further condition. -/
theorem sync_subs_monotone (cv : Conv) (subs : List subtitle) (first last : subtitle)
    (synced_first_ms synced_last_ms : Nat)
    (hf : subs.head? = some first) (hl : subs.getLast? = some last)
    (hlt : first.start < last.start)
    (hy : synced_first_ms ≤ synced_last_ms) (hy2 : synced_last_ms < 2 ^ 64)
    (hb : ∀ sub ∈ subs, sub.start < 2 ^ 64 ∧ sub.end_ < 2 ^ 64) :
    ∃ (out : List subtitle) (slope yint : F64),
      sync_subs cv subs synced_first_ms synced_last_ms = some out ∧
      slope = F64.div (F64.ofInt (wrap (synced_last_ms + 2 ^ 64 - synced_first_ms)))
        (F64.ofInt (wrap (last.start + 2 ^ 64 - first.start))) ∧
      yint = F64.sub (F64.ofInt synced_last_ms) (F64.mul slope (F64.ofInt last.start)) ∧
      (∀ (i j : Nat) (oldi newi oldj newj : subtitle),
        subs[i]? = some oldi → out[i]? = some newi →
        subs[j]? = some oldj → out[j]? = some newj →
        (oldi.start ≤ oldj.start → FitsUint (syncValue cv slope yint oldi.start) →
          FitsUint (syncValue cv slope yint oldj.start) → newi.start ≤ newj.start) ∧
        (oldi.start ≤ oldj.end_ → FitsUint (syncValue cv slope yint oldi.start) →
          FitsUint (syncValue cv slope yint oldj.end_) → newi.start ≤ newj.end_) ∧
        (oldi.end_ ≤ oldj.start → FitsUint (syncValue cv slope yint oldi.end_) →
          FitsUint (syncValue cv slope yint oldj.start) → newi.end_ ≤ newj.start) ∧
        (oldi.end_ ≤ oldj.end_ → FitsUint (syncValue cv slope yint oldi.end_) →
          FitsUint (syncValue cv slope yint oldj.end_) → newi.end_ ≤ newj.end_)) ∧
      ((∀ sub ∈ subs, sub.start < 2 ^ 24 ∧ sub.end_ < 2 ^ 24) → synced_last_ms < 2 ^ 24 →
        (∀ t : Nat, first.start ≤ t → t < 2 ^ 24 → FitsUint (syncValue cv slope yint t)) ∧
        ∀ (i j : Nat) (oldi newi oldj newj : subtitle),
          subs[i]? = some oldi → out[i]? = some newi →
          subs[j]? = some oldj → out[j]? = some newj →
          (first.start ≤ oldi.start → oldi.start ≤ oldj.start → newi.start ≤ newj.start) ∧
          (first.start ≤ oldi.start → oldi.start ≤ oldj.end_ → newi.start ≤ newj.end_) ∧
          (first.start ≤ oldi.end_ → oldi.end_ ≤ oldj.start → newi.end_ ≤ newj.start) ∧
          (first.start ≤ oldi.end_ → oldi.end_ ≤ oldj.end_ → newi.end_ ≤ newj.end_)) := by
  have hx2 := (hb last (List.mem_of_getLast?_eq_some hl)).1
  have key := syncPoint_le cv first.start last.start synced_first_ms synced_last_ms hlt hx2 hy hy2
  have look : ∀ (i : Nat) (old new : subtitle), subs[i]? = some old →
      (subs.map fun sub =>
        { sub with
          start := syncPoint cv
            (syncSlope synced_first_ms synced_last_ms first.start last.start)
            (syncYint synced_first_ms synced_last_ms first.start last.start) sub.start,
          end_ := syncPoint cv
            (syncSlope synced_first_ms synced_last_ms first.start last.start)
            (syncYint synced_first_ms synced_last_ms first.start last.start) sub.end_ })[i]? =
        some new →
      new.start = syncPoint cv (syncSlope synced_first_ms synced_last_ms first.start last.start)
        (syncYint synced_first_ms synced_last_ms first.start last.start) old.start ∧
      new.end_ = syncPoint cv (syncSlope synced_first_ms synced_last_ms first.start last.start)
        (syncYint synced_first_ms synced_last_ms first.start last.start) old.end_ := by
    intro i old new ho hn
    rw [List.getElem?_map, ho] at hn
    simp only [Option.map_some', Option.some.injEq] at hn
    subst hn
    exact ⟨rfl, rfl⟩
  have key4 : ∀ (oldi oldj : subtitle), oldj ∈ subs →
      (oldi.start ≤ oldj.start →
        FitsUint (syncValue cv
          (syncSlope synced_first_ms synced_last_ms first.start last.start)
          (syncYint synced_first_ms synced_last_ms first.start last.start) oldi.start) →
        FitsUint (syncValue cv
          (syncSlope synced_first_ms synced_last_ms first.start last.start)
          (syncYint synced_first_ms synced_last_ms first.start last.start) oldj.start) →
        syncPoint cv (syncSlope synced_first_ms synced_last_ms first.start last.start)
          (syncYint synced_first_ms synced_last_ms first.start last.start) oldi.start ≤
        syncPoint cv (syncSlope synced_first_ms synced_last_ms first.start last.start)
          (syncYint synced_first_ms synced_last_ms first.start last.start) oldj.start) ∧
      (oldi.start ≤ oldj.end_ →
        FitsUint (syncValue cv
          (syncSlope synced_first_ms synced_last_ms first.start last.start)
          (syncYint synced_first_ms synced_last_ms first.start last.start) oldi.start) →
        FitsUint (syncValue cv
          (syncSlope synced_first_ms synced_last_ms first.start last.start)
          (syncYint synced_first_ms synced_last_ms first.start last.start) oldj.end_) →
        syncPoint cv (syncSlope synced_first_ms synced_last_ms first.start last.start)
          (syncYint synced_first_ms synced_last_ms first.start last.start) oldi.start ≤
        syncPoint cv (syncSlope synced_first_ms synced_last_ms first.start last.start)
          (syncYint synced_first_ms synced_last_ms first.start last.start) oldj.end_) ∧
      (oldi.end_ ≤ oldj.start →
        FitsUint (syncValue cv
          (syncSlope synced_first_ms synced_last_ms first.start last.start)
          (syncYint synced_first_ms synced_last_ms first.start last.start) oldi.end_) →
        FitsUint (syncValue cv
          (syncSlope synced_first_ms synced_last_ms first.start last.start)
          (syncYint synced_first_ms synced_last_ms first.start last.start) oldj.start) →
        syncPoint cv (syncSlope synced_first_ms synced_last_ms first.start last.start)
          (syncYint synced_first_ms synced_last_ms first.start last.start) oldi.end_ ≤
        syncPoint cv (syncSlope synced_first_ms synced_last_ms first.start last.start)
          (syncYint synced_first_ms synced_last_ms first.start last.start) oldj.start) ∧
      (oldi.end_ ≤ oldj.end_ →
        FitsUint (syncValue cv
          (syncSlope synced_first_ms synced_last_ms first.start last.start)
          (syncYint synced_first_ms synced_last_ms first.start last.start) oldi.end_) →
        FitsUint (syncValue cv
          (syncSlope synced_first_ms synced_last_ms first.start last.start)
          (syncYint synced_first_ms synced_last_ms first.start last.start) oldj.end_) →
        syncPoint cv (syncSlope synced_first_ms synced_last_ms first.start last.start)
          (syncYint synced_first_ms synced_last_ms first.start last.start) oldi.end_ ≤
        syncPoint cv (syncSlope synced_first_ms synced_last_ms first.start last.start)
          (syncYint synced_first_ms synced_last_ms first.start last.start) oldj.end_) := by
    intro oldi oldj hmem
    obtain ⟨b1, b2⟩ := hb oldj hmem
    exact ⟨fun h f1 f2 => key _ _ h b1 f1 f2, fun h f1 f2 => key _ _ h b2 f1 f2,
      fun h f1 f2 => key _ _ h b1 f1 f2, fun h f1 f2 => key _ _ h b2 f1 f2⟩
  refine ⟨_, _, _, sync_subs_eq_map cv subs first last synced_first_ms synced_last_ms hf hl,
    rfl, rfl, ?_, ?_⟩
  · intro i j oldi newi oldj newj hoi hni hoj hnj
    obtain ⟨si, ei⟩ := look i oldi newi hoi hni
    obtain ⟨sj, ej⟩ := look j oldj newj hoj hnj
    rw [si, ei, sj, ej]
    exact key4 oldi oldj (List.getElem?_mem hoj)
  · intro hb24 hy24
    have hx24 := (hb24 last (List.mem_of_getLast?_eq_some hl)).1
    obtain ⟨s, c, hs, hc, hfit⟩ :=
      sync_points_fit cv first.start last.start synced_first_ms synced_last_ms hlt hx24 hy hy24
    have fit : ∀ t : Nat, first.start ≤ t → t < 2 ^ 24 →
        FitsUint (syncValue cv
          (syncSlope synced_first_ms synced_last_ms first.start last.start)
          (syncYint synced_first_ms synced_last_ms first.start last.start) t) := by
      intro t h1 h2
      rw [hs, hc]
      exact hfit t h1 h2
    refine ⟨fit, ?_⟩
    intro i j oldi newi oldj newj hoi hni hoj hnj
    obtain ⟨si, ei⟩ := look i oldi newi hoi hni
    obtain ⟨sj, ej⟩ := look j oldj newj hoj hnj
    obtain ⟨g1, g2, g3, g4⟩ := key4 oldi oldj (List.getElem?_mem hoj)
    obtain ⟨a1, a2⟩ := hb24 oldi (List.getElem?_mem hoi)
    obtain ⟨b1, b2⟩ := hb24 oldj (List.getElem?_mem hoj)
    rw [si, ei, sj, ej]
    exact ⟨fun h0 h => g1 h (fit _ h0 a1) (fit _ (le_trans h0 h) b1),
      fun h0 h => g2 h (fit _ h0 a1) (fit _ (le_trans h0 h) b2),
      fun h0 h => g3 h (fit _ h0 a2) (fit _ (le_trans h0 h) b1),
      fun h0 h => g4 h (fit _ h0 a2) (fit _ (le_trans h0 h) b2)⟩

/-- Witness for C18 (amended): the two cues of the end-to-end scenario, resynced to 0 and
60000 ms, with the conversions of amd64. -/
theorem sync_subs_monotone_witness :
    (([⟨[], 10000, 12000⟩, ⟨[], 100000, 102000⟩] : List subtitle).head? =
        some ⟨[], 10000, 12000⟩ ∧
      ([⟨[], 10000, 12000⟩, ⟨[], 100000, 102000⟩] : List subtitle).getLast? =
        some ⟨[], 100000, 102000⟩ ∧
      10000 < 100000 ∧ 0 ≤ 60000 ∧ 60000 < 2 ^ 64 ∧
      (∀ sub ∈ ([⟨[], 10000, 12000⟩, ⟨[], 100000, 102000⟩] : List subtitle),
        sub.start < 2 ^ 64 ∧ sub.end_ < 2 ^ 64) ∧
      (∀ sub ∈ ([⟨[], 10000, 12000⟩, ⟨[], 100000, 102000⟩] : List subtitle),
        sub.start < 2 ^ 24 ∧ sub.end_ < 2 ^ 24) ∧ 60000 < 2 ^ 24) ∧
    ∃ out, sync_subs amd64Conv [⟨[], 10000, 12000⟩, ⟨[], 100000, 102000⟩] 0 60000 = some out ∧
      ∀ (i j : Nat) (oldi newi oldj newj : subtitle),
        ([⟨[], 10000, 12000⟩, ⟨[], 100000, 102000⟩] : List subtitle)[i]? = some oldi →
        out[i]? = some newi →
        ([⟨[], 10000, 12000⟩, ⟨[], 100000, 102000⟩] : List subtitle)[j]? = some oldj →
        out[j]? = some newj →
        (10000 ≤ oldi.start → oldi.start ≤ oldj.start → newi.start ≤ newj.start) ∧
        (10000 ≤ oldi.start → oldi.start ≤ oldj.end_ → newi.start ≤ newj.end_) ∧
        (10000 ≤ oldi.end_ → oldi.end_ ≤ oldj.start → newi.end_ ≤ newj.start) ∧
        (10000 ≤ oldi.end_ → oldi.end_ ≤ oldj.end_ → newi.end_ ≤ newj.end_) :=
  ⟨⟨rfl, rfl, by decide⟩,
    let ⟨out, _, _, h1, _, _, _, h3⟩ :=
      sync_subs_monotone amd64Conv [⟨[], 10000, 12000⟩, ⟨[], 100000, 102000⟩]
        ⟨[], 10000, 12000⟩ ⟨[], 100000, 102000⟩ 0 60000 rfl rfl
        (by decide) (by decide) (by decide) (by decide)
    ⟨out, h1, (h3 (by decide) (by decide)).2⟩⟩

end Subsync
